import Mathlib

/-!
# ADEXP decoder: a shallow embedding of `good/` and `bad/`

Go byte slices and strings are lists of characters (one `Char` per byte);
slices are values, the sharing of backing arrays by `append` is not modelled.
A Go call that can panic (a slice expression out of range) returns an
`Option` whose `none` is the panic.  A Go `(value, error)` result is a pair
whose second component is `none` for a nil error.  The Go `int` is 64 bits
wide.  The channel of `process` delivers the values sent by the goroutines in
an order a scheduler chooses.
-/

set_option autoImplicit false

/-- Bytes of a Go `[]byte` or `string`. -/
abbrev Bytes := List Char

/-- The newline byte. -/
def chNewline : Char := Char.ofNat 10

/-- The space byte. -/
def chSpace : Char := Char.ofNat 32

/-- The dash byte. -/
def chDash : Char := Char.ofNat 45

/-- Upper level constant of `aftn.go` (both variants). -/
def upperLevel : Int := 350

namespace good

/-- Estimated data (`estdata` of good/aftn.go). -/
structure estdata where
  Ptid : Bytes
  Eto : Bytes
  FlightLevel : Int
  deriving DecidableEq, Repr

/-- Geo point (`geo` of good/aftn.go). -/
structure geo where
  Geoid : Bytes
  Latitude : Bytes
  Longitude : Bytes
  deriving DecidableEq, Repr

/-- Route points (`rtepts` of good/aftn.go). -/
structure rtepts where
  Ptid : Bytes
  FlightLevel : Int
  Eto : Bytes
  deriving DecidableEq, Repr

/-- Message structure produced by the parser (good/aftn.go). -/
structure Message where
  /-- Field `Type` of the Go struct (a reserved word here). -/
  MsgType : Int
  Title : Bytes
  Adep : Bytes
  Ades : Bytes
  Alternate : Bytes
  Arcid : Bytes
  ArcType : Bytes
  Ceqpt : Bytes
  MessageText : Bytes
  Comment : Bytes
  Eetfir : List Bytes
  Speed : List Bytes
  Estdata : List estdata
  Geo : List geo
  RoutePoints : List rtepts
  deriving DecidableEq, Repr

/-- The loop of `IsUpperLevel`: the first route point above the upper level
returns true, the end of the slice returns false. -/
def isUpperLevelLoop : List rtepts → Bool
  | [] => false
  | r :: rs => if r.FlightLevel > upperLevel then true else isUpperLevelLoop rs

/-- `func (m *Message) IsUpperLevel() bool` of good/aftn.go. -/
def IsUpperLevel (m : Message) : Bool := isUpperLevelLoop m.RoutePoints

end good

namespace bad

/-- Route points (`rtepts` of bad/aftn.go). -/
structure rtepts where
  Ptid : Bytes
  FlightLevel : Int
  Eto : Bytes
  deriving DecidableEq, Repr

/-- Estimated data (`estdata` of bad/aftn.go). -/
structure estdata where
  Ptid : Bytes
  Eto : Bytes
  FlightLevel : Int
  deriving DecidableEq, Repr

/-- Geo point (`geo` of bad/aftn.go). -/
structure geo where
  Geoid : Bytes
  Latitude : Bytes
  Longitude : Bytes
  deriving DecidableEq, Repr

/-- Message structure of bad/aftn.go. -/
structure Message where
  /-- Field `Type` of the Go struct (a reserved word here). -/
  MsgType : Int
  Title : Bytes
  Adep : Bytes
  Ades : Bytes
  Alternate : Bytes
  Arcid : Bytes
  ArcType : Bytes
  Ceqpt : Bytes
  MessageText : Bytes
  Comment : Bytes
  Eetfir : List Bytes
  Speed : List Bytes
  Estdata : List estdata
  Geo : List geo
  RoutePoints : List rtepts
  deriving DecidableEq, Repr

/-- The loop of `IsUpperLevel` in bad/aftn.go. -/
def isUpperLevelLoop : List rtepts → Bool
  | [] => false
  | r :: rs => if r.FlightLevel > upperLevel then true else isUpperLevelLoop rs

/-- `func IsUpperLevel(m Message) bool` of bad/aftn.go. -/
def IsUpperLevel (m : Message) : Bool := isUpperLevelLoop m.RoutePoints

end bad


/-! ## Go runtime and standard library -/

/-- Go slice expression `s[lo:hi]`; `none` is the run-time panic
"slice bounds out of range". -/
def goSlice (s : Bytes) (lo hi : Nat) : Option Bytes :=
  if lo ≤ hi ∧ hi ≤ s.length then some ((s.take hi).drop lo) else none

/-- Go slice expression `s[lo:]`; `none` is the run-time panic. -/
def goSliceFrom (s : Bytes) (lo : Nat) : Option Bytes :=
  if lo ≤ s.length then some (s.drop lo) else none

/-- Go `bytes.Index(s, sep)` / `strings.Index` for a one-byte separator:
the index of the first occurrence, `none` standing for -1. -/
def bytesIndex (c : Char) : Bytes → Option Nat
  | [] => none
  | x :: xs => if x = c then some 0 else (bytesIndex c xs).map (· + 1)

/-- Go `bytes.Trim(s, " ")` / `strings.Trim(s, " ")`: leading and trailing
spaces removed. -/
def bytesTrim (s : Bytes) : Bytes :=
  ((s.dropWhile (· = chSpace)).reverse.dropWhile (· = chSpace)).reverse

/-- Loop of `bytes.Split(s, "\n")`: `cur` is the piece being read. -/
def bytesSplitLoop : Bytes → Bytes → List Bytes
  | [], cur => [cur]
  | c :: cs, cur =>
    if c = chNewline then cur :: bytesSplitLoop cs [] else bytesSplitLoop cs (cur ++ [c])

/-- Go `bytes.Split(s, "\n")`. -/
def bytesSplit (s : Bytes) : List Bytes := bytesSplitLoop s []

/-- A Go `map[string]string`, kept as the list of its entries in insertion
order (keys pairwise distinct). -/
abbrev GoMap := List (Bytes × Bytes)

/-- Go `_, contains := m[k]`. -/
def mapContains (m : GoMap) (k : Bytes) : Bool := m.any (fun e => e.1 = k)

/-- Go `m[k]`: the value stored under `k`, the empty string when absent. -/
def mapGet : GoMap → Bytes → Bytes
  | [], _ => []
  | (k1, v1) :: m, k => if k1 = k then v1 else mapGet m k

/-- Go `m[k] = v`. -/
def mapSet : GoMap → Bytes → Bytes → GoMap
  | [], k, v => [(k, v)]
  | (k1, v1) :: m, k, v => if k1 = k then (k1, v) :: m else (k1, v1) :: mapSet m k v

namespace strconv

/-- The two causes of a `*strconv.NumError`. -/
inductive NumError
  | ErrSyntax
  | ErrRange
  deriving DecidableEq, Repr

/-- Largest `uint64`, 2^64 - 1. -/
def maxUint64 : Nat := 18446744073709551615

/-- Digit loop of Go `strconv.ParseUint(s, 10, 64)`: a byte that is not a
decimal digit is a syntax error, a value above `maxUint64` a range error. -/
def parseUintLoop : Bytes → Nat → Nat × Option NumError
  | [], n => (n, none)
  | c :: cs, n =>
    if 48 ≤ c.toNat ∧ c.toNat ≤ 57 then
      if n * 10 + (c.toNat - 48) > maxUint64 then (maxUint64, some NumError.ErrRange)
      else parseUintLoop cs (n * 10 + (c.toNat - 48))
    else (0, some NumError.ErrSyntax)

/-- Go `strconv.ParseUint(s, 10, 64)`. -/
def ParseUint (s : Bytes) : Nat × Option NumError :=
  if s.length = 0 then (0, some NumError.ErrSyntax) else parseUintLoop s 0

/-- The cutoff of `ParseInt` for a 64-bit `int`, 2^63. -/
def cutoff : Nat := 9223372036854775808

/-- Go `strconv.ParseInt(s, 10, 0)` with a 64-bit `int`: an optional sign,
then `ParseUint`; the magnitude must fit the signed range. -/
def ParseInt (s : Bytes) : Int × Option NumError :=
  match s with
  | [] => (0, some NumError.ErrSyntax)
  | c :: cs =>
    let neg : Bool := c = chDash
    let digits : Bytes := if c = Char.ofNat 43 ∨ c = chDash then cs else c :: cs
    match ParseUint digits with
    | (_, some NumError.ErrSyntax) => (0, some NumError.ErrSyntax)
    | (un, _) =>
      if neg = false ∧ un ≥ cutoff then ((cutoff : Int) - 1, some NumError.ErrRange)
      else if neg = true ∧ un > cutoff then (-(cutoff : Int), some NumError.ErrRange)
      else (if neg then -(un : Int) else (un : Int), none)

/-- Go `strconv.Atoi(s)`: same result as `ParseInt(s, 10, 0)` (its fast path
for short inputs computes the same value and the same syntax errors). -/
def Atoi (s : Bytes) : Int × Option NumError := ParseInt s

end strconv

/-! ## Package `good` -/

namespace good

/-- Errors built by the package: `errors.New("input is empty")`,
`fmt.Errorf("flight level %v cannot be parsed", fl)` and
`fmt.Errorf("unexpected token type %v", token)`. -/
inductive GoError
  | inputIsEmpty
  | flightLevelCannotBeParsed (fl : Int)
  | unexpectedTokenType (token : Bytes)
  deriving DecidableEq, Repr

/-- Message type `AdexpType` (iota 0). -/
def AdexpType : Int := 0

/-- Message type `IcaoType` (iota 1). -/
def IcaoType : Int := 1

def tokenTitle : Bytes := ['T', 'I', 'T', 'L', 'E']
def tokenAdep : Bytes := ['A', 'D', 'E', 'P']
def tokenAltnz : Bytes := ['A', 'L', 'T', 'N', 'Z']
def tokenAdes : Bytes := ['A', 'D', 'E', 'S']
def tokenArcid : Bytes := ['A', 'R', 'C', 'I', 'D']
def tokenArctyp : Bytes := ['A', 'R', 'C', 'T', 'Y', 'P']
def tokenCeqpt : Bytes := ['C', 'E', 'Q', 'P', 'T']
def tokenMsgtxt : Bytes := ['M', 'S', 'G', 'T', 'X', 'T']
def tokenComment : Bytes := ['C', 'O', 'M', 'M', 'E', 'N', 'T']
def tokenEetfir : Bytes := ['E', 'E', 'T', 'F', 'I', 'R']
def tokenSpeed : Bytes := ['S', 'P', 'E', 'E', 'D']
def tokenEstdata : Bytes := ['E', 'S', 'T', 'D', 'A', 'T', 'A']
def tokenGeo : Bytes := ['G', 'E', 'O']
def tokenRtepts : Bytes := ['R', 'T', 'E', 'P', 'T', 'S']

def subtokenPtid : Bytes := ['P', 'T', 'I', 'D']
def subtokenEto : Bytes := ['E', 'T', 'O']
def subtokenFl : Bytes := ['F', 'L']
def subtokenGeoid : Bytes := ['G', 'E', 'O', 'I', 'D']
def subtokenLattd : Bytes := ['L', 'A', 'T', 'T', 'D']
def subtokenLongtd : Bytes := ['L', 'O', 'N', 'G', 'T', 'D']

def bytesBegin : Bytes := ['-', 'B', 'E', 'G', 'I', 'N']
def bytesEnd : Bytes := ['-', 'E', 'N', 'D']
def bytesEmpty : Bytes := [' ']
def bytesComment : Bytes := ['/', '/']
def bytesDash : Bytes := ['-']

/-- Structure returned for parsing simple tokens. -/
structure simpleToken where
  token : Bytes
  value : Bytes
  deriving DecidableEq, Repr

/-- Structure returned for parsing complex tokens. -/
structure complexToken where
  token : Bytes
  value : List GoMap
  deriving DecidableEq, Repr

/-- The `interface{}` values sent on the channel of `process`: nil, a
`simpleToken` or a `complexToken`. -/
inductive Data
  | nil
  | simple (t : simpleToken)
  | complex (t : complexToken)
  deriving DecidableEq, Repr

/-- The zero value `Message{}`. -/
def zeroMessage : Message :=
  { MsgType := 0, Title := [], Adep := [], Ades := [], Alternate := [], Arcid := [],
    ArcType := [], Ceqpt := [], MessageText := [], Comment := [], Eetfir := [],
    Speed := [], Estdata := [], Geo := [], RoutePoints := [] }

/-- Loop of `startWith`: compares `test[i]` with `in[i]` for every index of
`test`. -/
def startWithLoop : Bytes → Bytes → Bool
  | _, [] => true
  | [], _ :: _ => false
  | a :: rest, t :: ts => if t ≠ a then false else startWithLoop rest ts

/-- Check whether a byte slice starts with another byte slice (util.go). -/
def startWith (inp test : Bytes) : Bool :=
  if test.length > inp.length then false else startWithLoop inp test

/-- Parse a line by returning the header (token name) and the value
(util.go).  The outer `none` is a panic of `in[1:]`, `in[1:i]` or `in[i+1:]`;
an inner `none` is a nil slice. -/
def parseLine (inp : Bytes) : Option (Option Bytes × Option Bytes) :=
  if inp.length = 0 then some (none, none)
  else
    match bytesIndex chSpace inp with
    | none => (goSliceFrom inp 1).map (fun t => (some t, none))
    | some i =>
      (goSlice inp 1 i).bind (fun t =>
        (goSliceFrom inp (i + 1)).map (fun v => (some t, some v)))

/-- Parse a flight level `Fxxx` to an int (util.go): `strconv.Atoi(in[1:])`.
The outer `none` is the panic of `in[1:]` on the empty string; the error
carries the integer `Atoi` returned. -/
def extractFlightLevel (inp : Bytes) : Option (Int × Option GoError) :=
  match goSliceFrom inp 1 with
  | none => none
  | some rest =>
    match strconv.Atoi rest with
    | (fl, some _) => some (-1, some (GoError.flightLevelCannotBeParsed fl))
    | (fl, none) => some (fl, none)

end good

/-! ## Go `regexp`, pattern `-.[^-]*` -/

/-- Leftmost match of `regexpSubfield` (pattern `-.[^-]*`) in `s`, as
`regexp.Find` computes it: the first dash that is followed by a byte other
than newline, that byte, and the longest run of bytes other than dash after
it.  Returns the match and the input left after the match. -/
def regexpFind : Bytes → Option (Bytes × Bytes)
  | [] => none
  | c :: cs =>
    if c = chDash then
      match cs with
      | [] => none
      | d :: ds =>
        if d ≠ chNewline then
          some (c :: d :: ds.takeWhile (· ≠ chDash), ds.dropWhile (· ≠ chDash))
        else regexpFind cs
    else regexpFind cs

/-- Successive non-overlapping matches, each search starting where the
previous match ended; `fuel` bounds the number of matches. -/
def regexpFindAllFuel : Nat → Bytes → List Bytes
  | 0, _ => []
  | fuel + 1, s =>
    match regexpFind s with
    | none => []
    | some (m, rest) => m :: regexpFindAllFuel fuel rest

/-- Go `regexpSubfield.FindAll(s, -1)`.  Every match is at least two bytes
long, so `s.length` searches are enough. -/
def regexpFindAll (s : Bytes) : List Bytes := regexpFindAllFuel s.length s

namespace good

/-- One iteration of the loop of `preprocess` over a physical line; the state
is `(result, currentLine)`.  `none` is the panic of
`trimed[len(bytesBegin)+1:]`. -/
def preprocessStep (st : List Bytes × Bytes) (line : Bytes) : Option (List Bytes × Bytes) :=
  if startWith line bytesEnd then some st
  else if startWith line bytesBegin then
    (goSliceFrom (bytesTrim line) (bytesBegin.length + 1)).map
      (fun rest => (st.1 ++ [st.2], bytesDash ++ rest))
  else if startWith line bytesDash then some (st.1 ++ [st.2], bytesTrim line)
  else if startWith line bytesEmpty then some (st.1, st.2 ++ bytesEmpty ++ bytesTrim line)
  else some (st.1, st.2 ++ bytesEmpty ++ bytesTrim line)

/-- The loop `for _, line := range lines` of `preprocess`. -/
def preprocessLoop : List Bytes → List Bytes × Bytes → Option (List Bytes × Bytes)
  | [], st => some st
  | line :: lines, st => (preprocessStep st line).bind (preprocessLoop lines)

/-- Preprocessing of an ADEXP message (adexp.go): the logical lines and an
eventual error; `none` is a panic. -/
def preprocess (inp : Bytes) : Option (List Bytes × Option GoError) :=
  if inp.length = 0 then some ([], some GoError.inputIsEmpty)
  else
    (preprocessLoop (bytesSplit inp) ([], [])).map
      (fun st => (if st.2.length > 0 then st.1 ++ [st.2] else st.1, none))

/-- Parse a simple token and returns a simpleToken structure (adexp.go);
`string(value)` of a nil slice is the empty string. -/
def parseSimpleToken (token : Bytes) (value : Option Bytes) : Option Data :=
  some (Data.simple ⟨token, value.getD []⟩)

/-- The loop over the regexp matches in `parseComplexToken`; the state is
`(v, currentMap)`.  `none` is a panic of `parseLine`. -/
def parseComplexLoop : List Bytes → List GoMap → GoMap → Option (List GoMap × GoMap)
  | [], v, currentMap => some (v, currentMap)
  | sub :: subs, v, currentMap =>
    match parseLine sub with
    | none => none
    | some (h, l) =>
      if mapContains currentMap (h.getD []) then
        parseComplexLoop subs (v ++ [currentMap]) (mapSet [] (h.getD []) (bytesTrim (l.getD [])))
      else
        parseComplexLoop subs v (mapSet currentMap (h.getD []) (bytesTrim (l.getD [])))

/-- Parse a complex token and returns a complexToken structure (adexp.go).
A nil `value` gives no record. -/
def parseComplexToken (token : Bytes) (value : Option Bytes) : Option Data :=
  match value with
  | none => some (Data.complex ⟨token, []⟩)
  | some val =>
    (parseComplexLoop (regexpFindAll val) [] []).map
      (fun st => Data.complex ⟨token, st.1 ++ [st.2]⟩)

/-- The map `factory`: the mapping function of a token name, `none` when the
token is not a key. -/
def factory (token : Bytes) : Option (Bytes → Option Bytes → Option Data) :=
  if token = tokenTitle ∨ token = tokenAdep ∨ token = tokenAltnz ∨ token = tokenAdes
      ∨ token = tokenArcid ∨ token = tokenArctyp ∨ token = tokenCeqpt
      ∨ token = tokenMsgtxt ∨ token = tokenComment ∨ token = tokenEetfir
      ∨ token = tokenSpeed then some parseSimpleToken
  else if token = tokenEstdata ∨ token = tokenGeo ∨ token = tokenRtepts then
    some parseComplexToken
  else none

/-- Process a line and returns a token to the channel (adexp.go): the value
sent on the channel, `none` when the goroutine panics instead. -/
def mapLine (inp : Bytes) : Option Data :=
  if inp.length = 0 ∨ startWith inp bytesComment = true then some Data.nil
  else
    match parseLine inp with
    | none => none
    | some (none, _) => some Data.nil
    | some (some token, value) =>
      match factory token with
      | some f => f token value
      | none => some Data.nil

end good

namespace good

/-- The loop `for _, v := range value` of the `tokenEstdata` case of
`process`.  `none` is the panic of `extractFlightLevel`; an error returns
`Message{}`. -/
def estdataLoop : List GoMap → Message → Option (Message × Option GoError)
  | [], msg => some (msg, none)
  | v :: vs, msg =>
    match extractFlightLevel (mapGet v subtokenFl) with
    | none => none
    | some (fl, some _) => some (zeroMessage, some (GoError.flightLevelCannotBeParsed fl))
    | some (fl, none) =>
      estdataLoop vs
        { msg with Estdata := msg.Estdata ++ [⟨mapGet v subtokenPtid, mapGet v subtokenEto, fl⟩] }

/-- The loop of the `tokenGeo` case of `process`. -/
def geoLoop : List GoMap → Message → Message
  | [], msg => msg
  | v :: vs, msg =>
    geoLoop vs
      { msg with
        Geo := msg.Geo ++ [⟨mapGet v subtokenGeoid, mapGet v subtokenLattd, mapGet v subtokenLongtd⟩] }

/-- The loop of the `tokenRtepts` case of `process`. -/
def rteptsLoop : List GoMap → Message → Option (Message × Option GoError)
  | [], msg => some (msg, none)
  | v :: vs, msg =>
    match extractFlightLevel (mapGet v subtokenFl) with
    | none => none
    | some (fl, some _) => some (zeroMessage, some (GoError.flightLevelCannotBeParsed fl))
    | some (fl, none) =>
      rteptsLoop vs
        { msg with
          RoutePoints := msg.RoutePoints ++ [⟨mapGet v subtokenPtid, fl, mapGet v subtokenEto⟩] }

/-- The body of the gathering loop of `process` for one received value: the
type switch and the two token switches.  A result with an error is an early
`return Message{}, err`; `none` is a panic. -/
def enrich (msg : Message) (data : Data) : Option (Message × Option GoError) :=
  match data with
  | Data.nil => some (msg, none)
  | Data.simple t =>
    if t.token = tokenTitle then some ({ msg with Title := t.value }, none)
    else if t.token = tokenAdep then some ({ msg with Adep := t.value }, none)
    else if t.token = tokenAltnz then some ({ msg with Alternate := t.value }, none)
    else if t.token = tokenAdes then some ({ msg with Ades := t.value }, none)
    else if t.token = tokenArcid then some ({ msg with Arcid := t.value }, none)
    else if t.token = tokenArctyp then some ({ msg with ArcType := t.value }, none)
    else if t.token = tokenCeqpt then some ({ msg with Ceqpt := t.value }, none)
    else if t.token = tokenMsgtxt then some ({ msg with MessageText := t.value }, none)
    else if t.token = tokenComment then some ({ msg with Comment := t.value }, none)
    else if t.token = tokenEetfir then some ({ msg with Eetfir := msg.Eetfir ++ [t.value] }, none)
    else if t.token = tokenSpeed then some ({ msg with Speed := msg.Speed ++ [t.value] }, none)
    else some (zeroMessage, some (GoError.unexpectedTokenType t.token))
  | Data.complex t =>
    if t.token = tokenEstdata then estdataLoop t.value msg
    else if t.token = tokenGeo then some (geoLoop t.value msg, none)
    else if t.token = tokenRtepts then rteptsLoop t.value msg
    else some (zeroMessage, some (GoError.unexpectedTokenType t.token))

/-- The gathering loop `for range in { data := <-ch ... }` of `process` over
the values in the order they are received, then `msg.Type = AdexpType`. -/
def gather : List Data → Message → Option (Message × Option GoError)
  | [], msg => some ({ msg with MsgType := AdexpType }, none)
  | data :: rest, msg =>
    match enrich msg data with
    | none => none
    | some (m, some err) => some (m, some err)
    | some (m, none) => gather rest m

/-- The values the goroutines `go mapLine(line, ch)` send, in line order;
`none` when one of them panics (a panic in a goroutine ends the program). -/
def mapLines : List Bytes → Option (List Data)
  | [] => some []
  | line :: lines =>
    match mapLine line with
    | none => none
    | some d => (mapLines lines).map (fun ds => d :: ds)

/-- Processing of an ADEXP message (adexp.go) under a scheduler: `sched`
turns the values sent, listed in line order, into the order in which the
channel delivers them.  Every goroutine is taken to have run before the
gathering loop returns, so a goroutine that panics ends the program;
`processRun` also has the runs in which the loop returns an error
earlier. -/
def processSched (sched : List Data → List Data) (inp : List Bytes) :
    Option (Message × Option GoError) :=
  match mapLines inp with
  | none => none
  | some sent => gather (sched sent) zeroMessage

/-- The run of `process` in which the channel delivers in line order. -/
def process (inp : List Bytes) : Option (Message × Option GoError) :=
  processSched (fun sent => sent) inp

/-- Parse an ADEXP message (adexp.go) under a scheduler. -/
def ParseAdexpMessageSched (sched : List Data → List Data) (bytes : Bytes) :
    Option (Message × Option GoError) :=
  match preprocess bytes with
  | none => none
  | some (_, some err) => some (zeroMessage, some err)
  | some (preprocessed, none) =>
    match processSched sched preprocessed with
    | none => none
    | some (_, some err) => some (zeroMessage, some err)
    | some (message, none) => some (message, none)

/-- The run of `ParseAdexpMessage` in which per-line results are aggregated
in logical-line order. -/
def ParseAdexpMessage (bytes : Bytes) : Option (Message × Option GoError) :=
  ParseAdexpMessageSched (fun sent => sent) bytes

/-- A scheduler only reorders: what the channel delivers is a permutation of
what was sent. -/
def IsSchedule (sched : List Data → List Data) : Prop :=
  ∀ sent, (sched sent).Perm sent

end good

/-! ## Forms of a flight level, for the statements about `extractFlightLevel` -/

/-- A decimal digit byte. -/
def isDigitByte (c : Char) : Bool := decide (48 ≤ c.toNat ∧ c.toNat ≤ 57)

/-- A letter byte, `A`-`Z` or `a`-`z`. -/
def isLetterByte (c : Char) : Bool :=
  decide ((65 ≤ c.toNat ∧ c.toNat ≤ 90) ∨ (97 ≤ c.toNat ∧ c.toNat ≤ 122))

/-- The number a run of decimal digits denotes, continuing from `n`. -/
def decimalValueFrom : Bytes → Nat → Nat
  | [], n => n
  | c :: cs, n => decimalValueFrom cs (n * 10 + (c.toNat - 48))

/-- The number a run of decimal digits denotes. -/
def decimalValue (s : Bytes) : Nat := decimalValueFrom s 0

/-- The form the specification gives a flight level: a single letter prefix
followed by one or more decimal digits. -/
def letterDigitsForm (s : Bytes) : Bool :=
  match s with
  | [] => false
  | c :: ds => isLetterByte c && !ds.isEmpty && ds.all isDigitByte

/-- The texts `strconv.Atoi` accepts: an optional sign `+` or `-`, then one
or more decimal digits denoting a number of the 64-bit `int` range. -/
def signedDecimalForm (s : Bytes) : Bool :=
  match s with
  | [] => false
  | c :: cs =>
    if c = Char.ofNat 43 then !cs.isEmpty && cs.all isDigitByte && decide (decimalValue cs < strconv.cutoff)
    else if c = chDash then
      !cs.isEmpty && cs.all isDigitByte && decide (decimalValue cs ≤ strconv.cutoff)
    else (c :: cs).all isDigitByte && decide (decimalValue (c :: cs) < strconv.cutoff)

/-- The integer a signed decimal text denotes. -/
def signedDecimalValue (s : Bytes) : Int :=
  match s with
  | [] => 0
  | c :: cs =>
    if c = Char.ofNat 43 then (decimalValue cs : Int)
    else if c = chDash then -(decimalValue cs : Int)
    else (decimalValue (c :: cs) : Int)

/-! ## Subfields and records, for the statements about `parseComplexToken` -/

/-- The key and value the loop of `parseComplexToken` stores for one regexp
match `sub`: `string(h)` and `string(bytes.Trim(l, " "))` of
`h, l := parseLine(sub)`. -/
def subfieldOf (sub : Bytes) : Bytes × Bytes :=
  match good.parseLine sub with
  | some (h, l) => (h.getD [], bytesTrim (l.getD []))
  | none => ([], [])

/-- The subfields of a raw value, in source order: the key and value of
every regexp match. -/
def subfields (val : Bytes) : List (Bytes × Bytes) := (regexpFindAll val).map subfieldOf

/-- The loop of `parseComplexToken` run on the key/value pairs of the
matches: a key already in the current map closes the current record. -/
def groupLoop : List (Bytes × Bytes) → List GoMap → GoMap → List GoMap × GoMap
  | [], v, currentMap => (v, currentMap)
  | (k, x) :: rest, v, currentMap =>
    if mapContains currentMap k then groupLoop rest (v ++ [currentMap]) (mapSet [] k x)
    else groupLoop rest v (mapSet currentMap k x)

/-- The records the specification describes: the subfields cut before every
occurrence of the key `k`; `cur` holds the subfields since the last
occurrence. -/
def segmentsFrom (k : Bytes) : List (Bytes × Bytes) → List (Bytes × Bytes) → List GoMap
  | [], cur => [cur]
  | (k1, x) :: rest, cur =>
    if k1 = k then cur :: segmentsFrom k rest [(k1, x)]
    else segmentsFrom k rest (cur ++ [(k1, x)])

/-! ## Records with a flight level, for the statements about `process` -/

/-- The records of a received value whose `FL` subfield `process` converts
with `extractFlightLevel`: those of an ESTDATA or RTEPTS complex token. -/
def flightRecords (d : good.Data) : List GoMap :=
  match d with
  | good.Data.complex t =>
    if t.token = good.tokenEstdata ∨ t.token = good.tokenRtepts then t.value else []
  | _ => []

/-- A record whose `FL` subfield is one byte followed by text `strconv.Atoi`
rejects. -/
def rejectedFlightLevel (v : GoMap) : Bool :=
  match mapGet v good.subtokenFl with
  | [] => false
  | _ :: suffix => !signedDecimalForm suffix

/-! ## The aggregate of a list of received values, for the statements about `process` -/

/-- The token a received value carries, none for nil. -/
def dataToken : good.Data → Option Bytes
  | good.Data.nil => none
  | good.Data.simple t => some t.token
  | good.Data.complex t => some t.token

/-- The eleven tokens of the simple-token switch of `process`. -/
def simpleTokens : List Bytes :=
  [good.tokenTitle, good.tokenAdep, good.tokenAltnz, good.tokenAdes, good.tokenArcid,
   good.tokenArctyp, good.tokenCeqpt, good.tokenMsgtxt, good.tokenComment, good.tokenEetfir,
   good.tokenSpeed]

/-- The three tokens of the complex-token switch of `process`. -/
def complexTokens : List Bytes := [good.tokenEstdata, good.tokenGeo, good.tokenRtepts]

/-- A received value as `mapLine` builds it: nil, a simple token of the
simple-token switch or a complex token of the complex-token switch. -/
def registeredData (d : good.Data) : Bool :=
  match d with
  | good.Data.nil => true
  | good.Data.simple t => decide (t.token ∈ simpleTokens)
  | good.Data.complex t => decide (t.token ∈ complexTokens)

/-- The values of the simple tokens named `tok`, in list order. -/
def simpleValues (tok : Bytes) : List good.Data → List Bytes
  | [] => []
  | good.Data.simple t :: l =>
    if t.token = tok then t.value :: simpleValues tok l else simpleValues tok l
  | _ :: l => simpleValues tok l

/-- The records of the complex tokens named `tok`, in list order and, within
a token, in record order. -/
def complexRecords (tok : Bytes) : List good.Data → List GoMap
  | [] => []
  | good.Data.complex t :: l =>
    if t.token = tok then t.value ++ complexRecords tok l else complexRecords tok l
  | _ :: l => complexRecords tok l

/-- The last element of a list, `d` when the list is empty. -/
def lastOr : Bytes → List Bytes → Bytes
  | d, [] => d
  | _, x :: xs => lastOr x xs

/-- The flight level `extractFlightLevel` returns for the `FL` subfield of a
record. -/
def flightLevelOf (v : GoMap) : Int :=
  match good.extractFlightLevel (mapGet v good.subtokenFl) with
  | some (fl, _) => fl
  | none => 0

/-- The `estdata` built from a record. -/
def estdataOf (v : GoMap) : good.estdata :=
  ⟨mapGet v good.subtokenPtid, mapGet v good.subtokenEto, flightLevelOf v⟩

/-- The `geo` built from a record. -/
def geoOf (v : GoMap) : good.geo :=
  ⟨mapGet v good.subtokenGeoid, mapGet v good.subtokenLattd, mapGet v good.subtokenLongtd⟩

/-- The `rtepts` built from a record. -/
def rteptsOf (v : GoMap) : good.rtepts :=
  ⟨mapGet v good.subtokenPtid, flightLevelOf v, mapGet v good.subtokenEto⟩

/-- The Message the specification describes for values aggregated in the
order of `l` onto `msg`: a scalar attribute is the value of the last token
carrying its name, a repeating attribute gains the values in order, a
record-list attribute gains the records in order. -/
def aggregated (msg : good.Message) (l : List good.Data) : good.Message :=
  { MsgType := good.AdexpType
    Title := lastOr msg.Title (simpleValues good.tokenTitle l)
    Adep := lastOr msg.Adep (simpleValues good.tokenAdep l)
    Ades := lastOr msg.Ades (simpleValues good.tokenAdes l)
    Alternate := lastOr msg.Alternate (simpleValues good.tokenAltnz l)
    Arcid := lastOr msg.Arcid (simpleValues good.tokenArcid l)
    ArcType := lastOr msg.ArcType (simpleValues good.tokenArctyp l)
    Ceqpt := lastOr msg.Ceqpt (simpleValues good.tokenCeqpt l)
    MessageText := lastOr msg.MessageText (simpleValues good.tokenMsgtxt l)
    Comment := lastOr msg.Comment (simpleValues good.tokenComment l)
    Eetfir := msg.Eetfir ++ simpleValues good.tokenEetfir l
    Speed := msg.Speed ++ simpleValues good.tokenSpeed l
    Estdata := msg.Estdata ++ (complexRecords good.tokenEstdata l).map estdataOf
    Geo := msg.Geo ++ (complexRecords good.tokenGeo l).map geoOf
    RoutePoints := msg.RoutePoints ++ (complexRecords good.tokenRtepts l).map rteptsOf }

/-- A record whose `FL` subfield `extractFlightLevel` converts without error
or panic. -/
def acceptedFlightLevel (v : GoMap) : Bool :=
  match good.extractFlightLevel (mapGet v good.subtokenFl) with
  | some (_, none) => true
  | _ => false

/-- A received value that the body of the gathering loop aggregates without
error or panic. -/
def acceptedData (d : good.Data) : Bool :=
  match d with
  | good.Data.nil => true
  | good.Data.simple t => decide (t.token ∈ simpleTokens)
  | good.Data.complex t =>
    if t.token = good.tokenEstdata ∨ t.token = good.tokenRtepts then
      t.value.all acceptedFlightLevel
    else decide (t.token = good.tokenGeo)

/-! ## Rendered record lists, for the statement about ESTDATA and RTEPTS fields -/

/-- A record of an ESTDATA or RTEPTS field as the specification writes it:
a point id, an estimated time over, and a flight level made of a letter and
decimal digits. -/
structure FlightRecord where
  ptid : Bytes
  eto : Bytes
  letter : Char
  digits : Bytes

/-- The three subfields of a record, in the order PTID, ETO, FL. -/
def FlightRecord.canonical (r : FlightRecord) : List (Bytes × Bytes) :=
  [(good.subtokenPtid, r.ptid), (good.subtokenEto, r.eto),
   (good.subtokenFl, r.letter :: r.digits)]

/-- A subfield value free of spaces, dashes and line breaks. -/
def plainValue (v : Bytes) : Bool :=
  v.all (fun c => decide (c ≠ chSpace ∧ c ≠ chDash ∧ c ≠ chNewline))

/-- A record whose point id and time are plain values and whose flight level
is a letter followed by one or more decimal digits. -/
def FlightRecord.wellFormed (r : FlightRecord) : Bool :=
  plainValue r.ptid && plainValue r.eto && isLetterByte r.letter && !r.digits.isEmpty
    && r.digits.all isDigitByte

/-- A subfield as written in a raw value: dash, key, space, value. -/
def renderSubfield (e : Bytes × Bytes) : Bytes := chDash :: e.1 ++ chSpace :: e.2

/-- A raw value: the subfields written one after the other, separated by
single spaces. -/
def renderValue : List (Bytes × Bytes) → Bytes
  | [] => []
  | [e] => renderSubfield e
  | e :: es => renderSubfield e ++ chSpace :: renderValue es

/-- A field line: dash, token, space, raw value. -/
def renderField (token : Bytes) (sfs : List (Bytes × Bytes)) : Bytes :=
  chDash :: token ++ chSpace :: renderValue sfs

/-- A subfield key: one or more bytes, none a space, dash or line break. -/
def plainKey (k : Bytes) : Bool := !k.isEmpty && plainValue k

/-- The last subfield of a field line once `bytes.Trim` has removed the
trailing space an empty value leaves. -/
def renderLast (e : Bytes × Bytes) : Bytes :=
  if e.2 = [] then chDash :: e.1 else renderSubfield e

/-! ## Package `bad`: the scan of a complex token -/

namespace bad

/-- Structure `complexToken` of bad/aftn.go. -/
structure complexToken where
  token : Bytes
  value : List GoMap
  deriving DecidableEq, Repr

/-- `func parseLine(in string) (string, string)` of bad/util.go; `none` is a
panic of `in[1:]`, `in[1:i]` or `in[i+1:]`. -/
def parseLine (inp : Bytes) : Option (Bytes × Bytes) :=
  if inp.length = 0 then some ([], [])
  else
    match bytesIndex chSpace inp with
    | none => (goSliceFrom inp 1).map (fun t => (t, []))
    | some i =>
      (goSlice inp 1 i).bind (fun t => (goSliceFrom inp (i + 1)).map (fun v => (t, v)))

/-- `func parseComplexLines` of bad/adexp.go: the first regexp match of `in`,
then the recursive call on `in[len(sub):]`.  Every call drops at least two
bytes, so `fuel` above the length of `in` is never used up; `none` is a
panic (or no fuel left). -/
def parseComplexLinesFuel : Nat → Bytes → GoMap → List GoMap → Option (List GoMap)
  | 0, _, _, _ => none
  | fuel + 1, inp, currentMap, out =>
    match regexpFind inp with
    | none => some (out ++ [currentMap])
    | some (sub, _) =>
      match parseLine sub with
      | none => none
      | some (h, l) =>
        match goSliceFrom inp sub.length with
        | none => none
        | some rest =>
          if mapContains currentMap h then
            parseComplexLinesFuel fuel rest (mapSet [] h (bytesTrim l)) (out ++ [currentMap])
          else parseComplexLinesFuel fuel rest (mapSet currentMap h (bytesTrim l)) out

/-- `func parseComplexLines(in, currentMap, out)` of bad/adexp.go. -/
def parseComplexLines (inp : Bytes) (currentMap : GoMap) (out : List GoMap) :
    Option (List GoMap) :=
  parseComplexLinesFuel (inp.length + 1) inp currentMap out

/-- `func parseComplexToken(token, value string) interface{}` of
bad/adexp.go. -/
def parseComplexToken (token value : Bytes) : Option complexToken :=
  if value = [] then some ⟨token, []⟩
  else (parseComplexLines value [] []).map (fun v => ⟨token, v⟩)

end bad

/-! ## Token and value of a logical line, for the statements about `mapLine` and `process` -/

/-- The token of a logical line: the bytes between its first byte (the dash)
and the first space, or the whole remainder when there is no space. -/
def lineToken (line : Bytes) : Bytes :=
  (line.drop 1).takeWhile (fun c => decide (c ≠ chSpace))

/-- The value of a logical line: everything after its first space, empty
when there is no space. -/
def lineValue (line : Bytes) : Bytes :=
  ((line.drop 1).dropWhile (fun c => decide (c ≠ chSpace))).drop 1

/-- The value as `parseLine` returns it: nil when the line has no space. -/
def lineRawValue (line : Bytes) : Option Bytes :=
  if chSpace ∈ line.drop 1 then some (lineValue line) else none

/-- The fourteen registered token names, the keys of `factory`. -/
def registeredTokens : List Bytes := simpleTokens ++ complexTokens

/-! ## Physical lines, for the statements about `preprocess` -/

/-- Go `bytes.TrimRight(s, " ")`: trailing spaces removed. -/
def bytesTrimRight (s : Bytes) : Bytes := (s.reverse.dropWhile (· = chSpace)).reverse

/-- The raw text of a sequence of physical lines: the lines separated by
line breaks. -/
def joinLines : List Bytes → Bytes
  | [] => []
  | [l] => l
  | l :: ls => l ++ chNewline :: joinLines ls

/-- What holds of the state `(result, currentLine)` of the loop of
`preprocess`: before the first flush the buffer is empty or begins with a
space; afterwards the first flushed line is empty or begins with a space or a
dash, and every later flushed line and the buffer begin with a dash. -/
def preprocessInv (st : List Bytes × Bytes) : Prop :=
  (st.1 = [] ∧ (st.2 = [] ∨ st.2.head? = some chSpace)) ∨
  (∃ h t, st.1 = h :: t ∧ (h = [] ∨ h.head? = some chSpace ∨ h.head? = some chDash) ∧
    (∀ l ∈ t, l.head? = some chDash) ∧ st.2.head? = some chDash)

/-- A logical line that carries the token `tok`: not empty, not a comment,
and with `tok` between its first byte and its first space. -/
def carries (tok : Bytes) (line : Bytes) : Bool :=
  !line.isEmpty && !good.startWith line good.bytesComment && decide (lineToken line = tok)

/-- The records `parseComplexToken` returns for a raw value: none for a nil
value, else the records the loop closes followed by the last map. -/
def recordsOf (value : Option Bytes) : List GoMap :=
  match value with
  | none => []
  | some val => (groupLoop (subfields val) [] []).1 ++ [(groupLoop (subfields val) [] []).2]

/-- The records of a record-list logical line, in record order. -/
def lineRecords (line : Bytes) : List GoMap := recordsOf (lineRawValue line)

/-- The physical line `-FOO bar`, whose token FOO is not registered. -/
def lineFoo : Bytes := ['-', 'F', 'O', 'O', ' ', 'b', 'a', 'r']

/-- No continuation line follows a position among the physical lines, `post`
being the lines after it: the first of them that does not begin with `-END`
begins with a dash, or there is none. -/
def noContinuationAhead : List Bytes → Bool
  | [] => true
  | l :: ls =>
    if good.startWith l good.bytesEnd then noContinuationAhead ls
    else good.startWith l good.bytesDash

/-! ## Runs of `process` in which a goroutine panics -/

namespace good

/-- The gathering loop of `process` over the outcomes of the goroutines in
the order in which they take effect: `some data` is a value the loop receives
from the channel, `none` a goroutine that panics, which ends the program.
The loop returns at the first error, without waiting for the goroutines that
have not run yet. -/
def gatherRun : List (Option Data) → Message → Option (Message × Option GoError)
  | [], msg => some ({ msg with MsgType := AdexpType }, none)
  | none :: _, _ => none
  | some data :: rest, msg =>
    match enrich msg data with
    | none => none
    | some (m, some err) => some (m, some err)
    | some (m, none) => gatherRun rest m

/-- Processing of an ADEXP message (adexp.go), one run: `sched` turns the
outcomes of the goroutines `go mapLine(line, ch)`, listed in line order, into
the order in which they take effect. -/
def processRun (sched : List (Option Data) → List (Option Data)) (inp : List Bytes) :
    Option (Message × Option GoError) :=
  gatherRun (sched (inp.map mapLine)) zeroMessage

/-- Parse an ADEXP message (adexp.go), one run. -/
def ParseAdexpMessageRun (sched : List (Option Data) → List (Option Data)) (bytes : Bytes) :
    Option (Message × Option GoError) :=
  match preprocess bytes with
  | none => none
  | some (_, some err) => some (zeroMessage, some err)
  | some (preprocessed, none) =>
    match processRun sched preprocessed with
    | none => none
    | some (_, some err) => some (zeroMessage, some err)
    | some (message, none) => some (message, none)

end good


/-! ## Theorems -/

theorem good_loop_iff (rs : List good.rtepts) :
    good.isUpperLevelLoop rs = true ↔ ∃ r ∈ rs, r.FlightLevel > 350 := by
  induction rs with
  | nil => simp [good.isUpperLevelLoop]
  | cons r rs ih =>
    by_cases h : r.FlightLevel > 350
    · simp [good.isUpperLevelLoop, upperLevel, h]
    · simp [good.isUpperLevelLoop, upperLevel, h, ih]

theorem bad_loop_iff (rs : List bad.rtepts) :
    bad.isUpperLevelLoop rs = true ↔ ∃ r ∈ rs, r.FlightLevel > 350 := by
  induction rs with
  | nil => simp [bad.isUpperLevelLoop]
  | cons r rs ih =>
    by_cases h : r.FlightLevel > 350
    · simp [bad.isUpperLevelLoop, upperLevel, h]
    · simp [bad.isUpperLevelLoop, upperLevel, h, ih]

/-- C1: for every Message, `IsUpperLevel` (the method of good/aftn.go and the
function of bad/aftn.go) returns true if and only if some route point has a
flight level strictly greater than 350; in particular it returns false when
there is no route point and when no flight level exceeds 350 (the highest
being exactly 350). -/
theorem C1_IsUpperLevel_iff :
    (∀ m : good.Message,
      good.IsUpperLevel m = true ↔ ∃ r ∈ m.RoutePoints, r.FlightLevel > 350) ∧
    (∀ m : bad.Message,
      bad.IsUpperLevel m = true ↔ ∃ r ∈ m.RoutePoints, r.FlightLevel > 350) ∧
    (∀ m : good.Message, m.RoutePoints = [] → good.IsUpperLevel m = false) ∧
    (∀ m : bad.Message, m.RoutePoints = [] → bad.IsUpperLevel m = false) ∧
    (∀ m : good.Message, (∀ r ∈ m.RoutePoints, r.FlightLevel ≤ 350) →
      good.IsUpperLevel m = false) ∧
    (∀ m : bad.Message, (∀ r ∈ m.RoutePoints, r.FlightLevel ≤ 350) →
      bad.IsUpperLevel m = false) := by
  have hg : ∀ m : good.Message,
      good.IsUpperLevel m = true ↔ ∃ r ∈ m.RoutePoints, r.FlightLevel > 350 :=
    fun m => good_loop_iff m.RoutePoints
  have hb : ∀ m : bad.Message,
      bad.IsUpperLevel m = true ↔ ∃ r ∈ m.RoutePoints, r.FlightLevel > 350 :=
    fun m => bad_loop_iff m.RoutePoints
  refine ⟨hg, hb, ?_, ?_, ?_, ?_⟩
  · intro m hm
    simp [good.IsUpperLevel, hm, good.isUpperLevelLoop]
  · intro m hm
    simp [bad.IsUpperLevel, hm, bad.isUpperLevelLoop]
  · intro m hm
    cases h : good.IsUpperLevel m with
    | false => rfl
    | true =>
      obtain ⟨r, hr, hlt⟩ := (hg m).1 h
      have := hm r hr
      omega
  · intro m hm
    cases h : bad.IsUpperLevel m with
    | false => rfl
    | true =>
      obtain ⟨r, hr, hlt⟩ := (hb m).1 h
      have := hm r hr
      omega

/-- C1 at concrete messages: a route point at level 350 alone is not upper
level, one at 351 is. -/
theorem C1_IsUpperLevel_iff_witness :
    good.IsUpperLevel { good.zeroMessage with RoutePoints := [⟨[], 350, []⟩] } = false ∧
    good.IsUpperLevel { good.zeroMessage with RoutePoints := [⟨[], 350, []⟩, ⟨[], 351, []⟩] }
      = true :=
  ⟨C1_IsUpperLevel_iff.2.2.2.2.1 _ (by decide), by decide⟩

/-! ### Empty input and the error returns -/

/-- C3: `ParseAdexpMessage` applied to a zero-length input returns the error
"input is empty" of `preprocess` together with the zero Message, whatever the
scheduling. -/
theorem C3_empty_input (sched : List good.Data → List good.Data) :
    good.preprocess [] = some ([], some good.GoError.inputIsEmpty) ∧
    good.ParseAdexpMessageSched sched []
      = some (good.zeroMessage, some good.GoError.inputIsEmpty) := by
  constructor <;> rfl

theorem estdataLoop_err (vs : List GoMap) :
    ∀ (msg m : good.Message) (err : good.GoError),
      good.estdataLoop vs msg = some (m, some err) → m = good.zeroMessage := by
  induction vs with
  | nil => intro msg m err h; simp [good.estdataLoop] at h
  | cons v vs ih =>
    intro msg m err h
    unfold good.estdataLoop at h
    split at h
    · simp at h
    · simp at h; exact h.1.symm
    · exact ih _ _ _ h

theorem rteptsLoop_err (vs : List GoMap) :
    ∀ (msg m : good.Message) (err : good.GoError),
      good.rteptsLoop vs msg = some (m, some err) → m = good.zeroMessage := by
  induction vs with
  | nil => intro msg m err h; simp [good.rteptsLoop] at h
  | cons v vs ih =>
    intro msg m err h
    unfold good.rteptsLoop at h
    split at h
    · simp at h
    · simp at h; exact h.1.symm
    · exact ih _ _ _ h

theorem enrich_err (msg : good.Message) (data : good.Data) (m : good.Message)
    (err : good.GoError) (h : good.enrich msg data = some (m, some err)) :
    m = good.zeroMessage := by
  cases data with
  | nil => simp [good.enrich] at h
  | simple t =>
    simp only [good.enrich] at h
    iterate 11
      (rw [ite_eq_iff] at h
       rcases h with ⟨_, h⟩ | ⟨_, h⟩
       · cases h)
    cases h
    rfl
  | complex t =>
    simp only [good.enrich] at h
    split at h
    · exact estdataLoop_err _ _ _ _ h
    · split at h
      · simp at h
      · split at h
        · exact rteptsLoop_err _ _ _ _ h
        · simp at h; exact h.1.symm

theorem gather_err (ds : List good.Data) :
    ∀ (msg m : good.Message) (err : good.GoError),
      good.gather ds msg = some (m, some err) → m = good.zeroMessage := by
  induction ds with
  | nil => intro msg m err h; simp [good.gather] at h
  | cons d ds ih =>
    intro msg m err h
    unfold good.gather at h
    split at h
    · simp at h
    · rename_i m1 e1 he
      simp at h
      rw [← h.1]
      exact enrich_err _ _ _ _ he
    · exact ih _ _ _ h

/-- C5: whenever `ParseAdexpMessage` returns a non-nil error, under any
scheduling, the Message returned with it is the zero value `Message{}`; the
same holds of `process` itself, so nothing aggregated before the failure is
returned. -/
theorem C5_no_partial_message :
    (∀ (sched : List good.Data → List good.Data) (bytes : Bytes) (m : good.Message)
        (err : good.GoError),
      good.ParseAdexpMessageSched sched bytes = some (m, some err) → m = good.zeroMessage) ∧
    (∀ (sched : List good.Data → List good.Data) (inp : List Bytes) (m : good.Message)
        (err : good.GoError),
      good.processSched sched inp = some (m, some err) → m = good.zeroMessage) := by
  constructor
  · intro sched bytes m err h
    unfold good.ParseAdexpMessageSched at h
    split at h
    · simp at h
    · simp at h; exact h.1.symm
    · split at h
      · simp at h
      · simp at h; exact h.1.symm
      · simp at h
  · intro sched inp m err h
    unfold good.processSched at h
    split at h
    · simp at h
    · exact gather_err _ _ _ _ h

set_option maxRecDepth 100000 in
/-- C5 on the input `-TITLE IFPL`, `-ESTDATA -FL XYZ`: the title is aggregated
first, the flight level then fails, and the Message returned is zero. -/
theorem C5_no_partial_message_witness :
    good.ParseAdexpMessage
        ("-TITLE IFPL".toList ++ chNewline :: "-ESTDATA -FL XYZ".toList)
      = some (good.zeroMessage, some (good.GoError.flightLevelCannotBeParsed (-1))) ∧
    good.zeroMessage = good.zeroMessage :=
  ⟨by rfl, C5_no_partial_message.1 (fun sent => sent)
    ("-TITLE IFPL".toList ++ chNewline :: "-ESTDATA -FL XYZ".toList) good.zeroMessage
    (good.GoError.flightLevelCannotBeParsed (-1)) (by rfl)⟩

/-! ### `parseLine` -/

theorem bytesIndex_append (c : Char) (tok val : Bytes) (h : c ∉ tok) :
    bytesIndex c (tok ++ c :: val) = some tok.length := by
  induction tok with
  | nil => simp [bytesIndex]
  | cons x xs ih =>
    have hx : x ≠ c := fun e => h (by simp [e])
    have hxs : c ∉ xs := fun e => h (by simp [e])
    simp [bytesIndex, hx, ih hxs]

theorem bytesIndex_none (c : Char) (s : Bytes) (h : c ∉ s) : bytesIndex c s = none := by
  induction s with
  | nil => simp [bytesIndex]
  | cons x xs ih =>
    have hx : x ≠ c := fun e => h (by simp [e])
    have hxs : c ∉ xs := fun e => h (by simp [e])
    simp [bytesIndex, hx, ih hxs]

theorem parseLine_space (c : Char) (hc : c ≠ chSpace) (tok val : Bytes) (h : chSpace ∉ tok) :
    good.parseLine (c :: tok ++ chSpace :: val) = some (some tok, some val) := by
  have hi : bytesIndex chSpace (c :: tok ++ chSpace :: val) = some (tok.length + 1) := by
    simp [bytesIndex, hc, bytesIndex_append chSpace tok val h]
  unfold good.parseLine
  rw [hi]
  simp [goSlice, goSliceFrom, List.take_append_eq_append_take]

theorem parseLine_nospace (c : Char) (rest : Bytes) (h : chSpace ∉ c :: rest) :
    good.parseLine (c :: rest) = some (some rest, none) := by
  unfold good.parseLine
  rw [bytesIndex_none chSpace _ h]
  simp [goSliceFrom]

/-- C6: for a line whose first byte is a dash, `parseLine` returns the bytes
strictly between the dash and the first space as token and everything after
that space as value when the line has a space, and everything after the dash
as token with no value when it has none; `-COMMENT TEST` gives COMMENT and
TEST, and the empty line gives the empty pair. -/
theorem C6_parseLine :
    (∀ tok val : Bytes, chSpace ∉ tok →
      good.parseLine (chDash :: tok ++ chSpace :: val) = some (some tok, some val)) ∧
    (∀ rest : Bytes, chSpace ∉ rest →
      good.parseLine (chDash :: rest) = some (some rest, none)) ∧
    good.parseLine "-COMMENT TEST".toList = some (some "COMMENT".toList, some "TEST".toList) ∧
    good.parseLine [] = some (none, none) := by
  refine ⟨?_, ?_, by decide, by decide⟩
  · intro tok val h
    exact parseLine_space chDash (by decide) tok val h
  · intro rest h
    apply parseLine_nospace
    intro hmem
    rcases List.mem_cons.1 hmem with e | e
    · exact absurd e (by decide)
    · exact h e

/-- C6 at concrete lines: `-ADEP CYYZ` splits at its first space, and `-GEO`
has no value. -/
theorem C6_parseLine_witness :
    good.parseLine "-ADEP CYYZ EXTRA".toList
      = some (some "ADEP".toList, some "CYYZ EXTRA".toList) ∧
    good.parseLine "-GEO".toList = some (some "GEO".toList, none) :=
  ⟨C6_parseLine.1 "ADEP".toList "CYYZ EXTRA".toList (by decide),
   C6_parseLine.2.1 "GEO".toList (by decide)⟩

/-! ### `strconv.Atoi` and `extractFlightLevel` -/

theorem decimalValueFrom_ge (s : Bytes) : ∀ n, n ≤ decimalValueFrom s n := by
  induction s with
  | nil => intro n; exact Nat.le_refl n
  | cons c cs ih =>
    intro n
    generalize hd : c.toNat - 48 = d
    have h1 : n ≤ n * 10 + d := by omega
    have h2 := ih (n * 10 + d)
    show n ≤ decimalValueFrom cs (n * 10 + (c.toNat - 48))
    rw [hd]
    exact Nat.le_trans h1 h2

theorem parseUintLoop_digits (s : Bytes) (hs : s.all isDigitByte = true) :
    ∀ n, n ≤ strconv.maxUint64 → strconv.parseUintLoop s n
      = if decimalValueFrom s n > strconv.maxUint64 then
          (strconv.maxUint64, some strconv.NumError.ErrRange)
        else (decimalValueFrom s n, none) := by
  induction s with
  | nil =>
    intro n hn
    have : ¬ (n > strconv.maxUint64) := Nat.not_lt.2 hn
    simp only [strconv.parseUintLoop, decimalValueFrom, if_neg this]
  | cons c cs ih =>
    intro n hn
    have hc : 48 ≤ c.toNat ∧ c.toNat ≤ 57 := by
      have := hs
      simp only [List.all_cons, Bool.and_eq_true, isDigitByte, decide_eq_true_eq] at this
      exact this.1
    have hcs : cs.all isDigitByte = true := by
      have := hs
      simp only [List.all_cons, Bool.and_eq_true] at this
      exact this.2
    simp only [strconv.parseUintLoop, decimalValueFrom, if_pos hc]
    generalize c.toNat - 48 = d
    by_cases hov : n * 10 + d > strconv.maxUint64
    · have := decimalValueFrom_ge cs (n * 10 + d)
      have h2 : decimalValueFrom cs (n * 10 + d) > strconv.maxUint64 := Nat.lt_of_lt_of_le hov this
      rw [if_pos hov, if_pos h2]
    · rw [if_neg hov]
      exact ih hcs _ (Nat.not_lt.1 hov)

theorem parseUintLoop_nondigits (s : Bytes) (hs : s.all isDigitByte = false) :
    ∀ n, strconv.parseUintLoop s n = (0, some strconv.NumError.ErrSyntax) ∨
      strconv.parseUintLoop s n = (strconv.maxUint64, some strconv.NumError.ErrRange) := by
  induction s with
  | nil => simp at hs
  | cons c cs ih =>
    intro n
    by_cases hc : 48 ≤ c.toNat ∧ c.toNat ≤ 57
    · have hcs : cs.all isDigitByte = false := by
        have hd : isDigitByte c = true := by simp only [isDigitByte, decide_eq_true_eq]; exact hc
        have := hs
        simp only [List.all_cons, hd, Bool.true_and] at this
        exact this
      simp only [strconv.parseUintLoop, if_pos hc]
      generalize c.toNat - 48 = d
      by_cases hov : n * 10 + d > strconv.maxUint64
      · rw [if_pos hov]; exact Or.inr rfl
      · rw [if_neg hov]; exact ih hcs _
    · rw [strconv.parseUintLoop, if_neg hc]
      exact Or.inl rfl

theorem ParseUint_digits (s : Bytes) (hne : s ≠ []) (hs : s.all isDigitByte = true) :
    strconv.ParseUint s
      = if decimalValue s > strconv.maxUint64 then
          (strconv.maxUint64, some strconv.NumError.ErrRange)
        else (decimalValue s, none) := by
  have hl : ¬ s.length = 0 := by
    intro h; exact hne (List.length_eq_zero.1 h)
  unfold strconv.ParseUint
  rw [if_neg hl]
  exact parseUintLoop_digits s hs 0 (by decide)

theorem ParseUint_nondigits (s : Bytes) (hs : s.all isDigitByte = false ∨ s = []) :
    strconv.ParseUint s = (0, some strconv.NumError.ErrSyntax) ∨
      strconv.ParseUint s = (strconv.maxUint64, some strconv.NumError.ErrRange) := by
  unfold strconv.ParseUint
  by_cases hl : s.length = 0
  · rw [if_pos hl]; exact Or.inl rfl
  · rw [if_neg hl]
    rcases hs with hs | hs
    · exact parseUintLoop_nondigits s hs 0
    · exact absurd (by simp [hs]) hl

theorem ParseInt_of_value (c : Char) (cs : Bytes) (v : Nat)
    (h : strconv.ParseUint (if c = Char.ofNat 43 ∨ c = chDash then cs else c :: cs) = (v, none)) :
    strconv.ParseInt (c :: cs)
      = if decide (c = chDash) = false ∧ v ≥ strconv.cutoff then
          ((strconv.cutoff : Int) - 1, some strconv.NumError.ErrRange)
        else if decide (c = chDash) = true ∧ v > strconv.cutoff then
          (-(strconv.cutoff : Int), some strconv.NumError.ErrRange)
        else (if decide (c = chDash) then -(v : Int) else (v : Int), none) := by
  simp only [strconv.ParseInt, h]

theorem ParseInt_of_error (c : Char) (cs : Bytes)
    (h : strconv.ParseUint (if c = Char.ofNat 43 ∨ c = chDash then cs else c :: cs)
          = (0, some strconv.NumError.ErrSyntax) ∨
        strconv.ParseUint (if c = Char.ofNat 43 ∨ c = chDash then cs else c :: cs)
          = (strconv.maxUint64, some strconv.NumError.ErrRange)) :
    ∃ fl e, strconv.ParseInt (c :: cs) = (fl, some e) := by
  rcases h with h | h
  · exact ⟨0, strconv.NumError.ErrSyntax, by simp only [strconv.ParseInt, h]⟩
  · by_cases hneg : c = chDash
    · refine ⟨-(strconv.cutoff : Int), strconv.NumError.ErrRange, ?_⟩
      simp only [strconv.ParseInt, h]
      simp [hneg, strconv.maxUint64, strconv.cutoff]
    · refine ⟨(strconv.cutoff : Int) - 1, strconv.NumError.ErrRange, ?_⟩
      simp only [strconv.ParseInt, h]
      simp [hneg, strconv.maxUint64, strconv.cutoff]

theorem ParseUint_small (s : Bytes) (hne : s ≠ []) (hs : s.all isDigitByte = true)
    (hv : decimalValue s ≤ strconv.cutoff) :
    strconv.ParseUint s = (decimalValue s, none) := by
  rw [ParseUint_digits s hne hs]
  have : ¬ decimalValue s > strconv.maxUint64 := by
    simp only [strconv.cutoff] at hv
    simp only [strconv.maxUint64]
    omega
  rw [if_neg this]

theorem isEmpty_false_ne (s : Bytes) (h : (!s.isEmpty) = true) : s ≠ [] := by
  intro e
  simp [e] at h

theorem Atoi_accepts (s : Bytes) (h : signedDecimalForm s = true) :
    strconv.Atoi s = (signedDecimalValue s, none) := by
  cases s with
  | nil => simp [signedDecimalForm] at h
  | cons c cs =>
    unfold strconv.Atoi
    by_cases hp : c = Char.ofNat 43
    · have hnd : ¬ c = chDash := by rw [hp]; decide
      simp only [signedDecimalForm, if_pos hp, Bool.and_eq_true, decide_eq_true_eq] at h
      obtain ⟨⟨hne, hall⟩, hv⟩ := h
      have hu := ParseUint_small cs (isEmpty_false_ne cs hne) hall (Nat.le_of_lt hv)
      have hu2 : strconv.ParseUint (if c = Char.ofNat 43 ∨ c = chDash then cs else c :: cs)
          = (decimalValue cs, none) := by rw [if_pos (Or.inl hp)]; exact hu
      rw [ParseInt_of_value c cs _ hu2]
      have h1 : ¬ (decide (c = chDash) = false ∧ decimalValue cs ≥ strconv.cutoff) :=
        fun hh => absurd hv (Nat.not_lt.2 hh.2)
      have h2 : ¬ (decide (c = chDash) = true ∧ decimalValue cs > strconv.cutoff) :=
        fun hh => hnd (of_decide_eq_true hh.1)
      rw [if_neg h1, if_neg h2]
      simp only [signedDecimalValue, if_pos hp, decide_eq_false hnd]
      rfl
    · by_cases hd : c = chDash
      · simp only [signedDecimalForm, if_neg hp, if_pos hd, Bool.and_eq_true,
          decide_eq_true_eq] at h
        obtain ⟨⟨hne, hall⟩, hv⟩ := h
        have hu := ParseUint_small cs (isEmpty_false_ne cs hne) hall hv
        have hu2 : strconv.ParseUint (if c = Char.ofNat 43 ∨ c = chDash then cs else c :: cs)
            = (decimalValue cs, none) := by rw [if_pos (Or.inr hd)]; exact hu
        rw [ParseInt_of_value c cs _ hu2]
        have h1 : ¬ (decide (c = chDash) = false ∧ decimalValue cs ≥ strconv.cutoff) :=
          fun hh => absurd (decide_eq_true hd) (by rw [hh.1]; decide)
        have h2 : ¬ (decide (c = chDash) = true ∧ decimalValue cs > strconv.cutoff) :=
          fun hh => absurd hv (Nat.not_le.2 hh.2)
        rw [if_neg h1, if_neg h2]
        simp only [signedDecimalValue, if_neg hp, if_pos hd, decide_eq_true hd]
        rfl
      · simp only [signedDecimalForm, if_neg hp, if_neg hd, Bool.and_eq_true,
          decide_eq_true_eq] at h
        obtain ⟨hall, hv⟩ := h
        have hu := ParseUint_small (c :: cs) (by simp) hall (Nat.le_of_lt hv)
        have hu2 : strconv.ParseUint (if c = Char.ofNat 43 ∨ c = chDash then cs else c :: cs)
            = (decimalValue (c :: cs), none) := by
          rw [if_neg (by rintro (e | e); exact hp e; exact hd e)]; exact hu
        rw [ParseInt_of_value c cs _ hu2]
        have h1 : ¬ (decide (c = chDash) = false ∧ decimalValue (c :: cs) ≥ strconv.cutoff) :=
          fun hh => absurd hv (Nat.not_lt.2 hh.2)
        have h2 : ¬ (decide (c = chDash) = true ∧ decimalValue (c :: cs) > strconv.cutoff) :=
          fun hh => hd (of_decide_eq_true hh.1)
        rw [if_neg h1, if_neg h2]
        simp only [signedDecimalValue, if_neg hp, if_neg hd, decide_eq_false hd]
        rfl

theorem ParseInt_rejects (c : Char) (cs digits : Bytes)
    (hdig : digits = if c = Char.ofNat 43 ∨ c = chDash then cs else c :: cs)
    (h : digits = [] ∨ digits.all isDigitByte = false ∨
      (decide (c = chDash) = false ∧ decimalValue digits ≥ strconv.cutoff) ∨
      (decide (c = chDash) = true ∧ decimalValue digits > strconv.cutoff)) :
    ∃ fl e, strconv.ParseInt (c :: cs) = (fl, some e) := by
  by_cases hbad : digits = [] ∨ digits.all isDigitByte = false
  · apply ParseInt_of_error
    rw [← hdig]
    exact ParseUint_nondigits digits (hbad.symm)
  · have hne : digits ≠ [] := fun e => hbad (Or.inl e)
    have hall : digits.all isDigitByte = true := by
      cases hh : digits.all isDigitByte with
      | true => rfl
      | false => exact absurd (Or.inr hh) hbad
    have hrange : (decide (c = chDash) = false ∧ decimalValue digits ≥ strconv.cutoff) ∨
        (decide (c = chDash) = true ∧ decimalValue digits > strconv.cutoff) := by
      rcases h with h | h | h
      · exact absurd h hne
      · rw [hall] at h; exact absurd h (by decide)
      · exact h
    by_cases hov : decimalValue digits > strconv.maxUint64
    · apply ParseInt_of_error
      rw [← hdig, ParseUint_digits digits hne hall, if_pos hov]
      exact Or.inr rfl
    · have hu : strconv.ParseUint (if c = Char.ofNat 43 ∨ c = chDash then cs else c :: cs)
          = (decimalValue digits, none) := by
        rw [← hdig, ParseUint_digits digits hne hall, if_neg hov]
      rw [ParseInt_of_value c cs _ hu]
      rcases hrange with hr | hr
      · rw [if_pos hr]; exact ⟨_, _, rfl⟩
      · have h1 : ¬ (decide (c = chDash) = false ∧ decimalValue digits ≥ strconv.cutoff) :=
          fun hh => absurd hr.1 (by rw [hh.1]; decide)
        rw [if_neg h1, if_pos hr]; exact ⟨_, _, rfl⟩

theorem Atoi_rejects (s : Bytes) (h : signedDecimalForm s = false) :
    ∃ fl e, strconv.Atoi s = (fl, some e) := by
  cases s with
  | nil => exact ⟨0, strconv.NumError.ErrSyntax, rfl⟩
  | cons c cs =>
    unfold strconv.Atoi
    by_cases hp : c = Char.ofNat 43
    · have hnd : ¬ c = chDash := by rw [hp]; decide
      simp only [signedDecimalForm, if_pos hp, Bool.and_eq_false_iff, decide_eq_false_iff_not,
        Bool.not_eq_false', List.isEmpty_iff] at h
      apply ParseInt_rejects c cs cs (by rw [if_pos (Or.inl hp)])
      rcases h with (h | h) | h
      · exact Or.inl h
      · exact Or.inr (Or.inl h)
      · exact Or.inr (Or.inr (Or.inl ⟨decide_eq_false hnd, Nat.not_lt.1 h⟩))
    · by_cases hd : c = chDash
      · simp only [signedDecimalForm, if_neg hp, if_pos hd, Bool.and_eq_false_iff,
          decide_eq_false_iff_not, Bool.not_eq_false', List.isEmpty_iff] at h
        apply ParseInt_rejects c cs cs (by rw [if_pos (Or.inr hd)])
        rcases h with (h | h) | h
        · exact Or.inl h
        · exact Or.inr (Or.inl h)
        · exact Or.inr (Or.inr (Or.inr ⟨decide_eq_true hd, Nat.not_le.1 h⟩))
      · simp only [signedDecimalForm, if_neg hp, if_neg hd, Bool.and_eq_false_iff,
          decide_eq_false_iff_not] at h
        apply ParseInt_rejects c cs (c :: cs)
          (by rw [if_neg (by rintro (e | e); exact hp e; exact hd e)])
        rcases h with h | h
        · exact Or.inr (Or.inl h)
        · exact Or.inr (Or.inr (Or.inl ⟨decide_eq_false hd, Nat.not_lt.1 h⟩))

theorem extractFlightLevel_accepts (c : Char) (rest : Bytes)
    (h : signedDecimalForm rest = true) :
    good.extractFlightLevel (c :: rest) = some (signedDecimalValue rest, none) := by
  have hs : goSliceFrom (c :: rest) 1 = some rest := by simp [goSliceFrom]
  simp only [good.extractFlightLevel, hs, Atoi_accepts rest h]

theorem extractFlightLevel_rejects (c : Char) (rest : Bytes)
    (h : signedDecimalForm rest = false) :
    ∃ fl, good.extractFlightLevel (c :: rest)
      = some (-1, some (good.GoError.flightLevelCannotBeParsed fl)) := by
  have hs : goSliceFrom (c :: rest) 1 = some rest := by simp [goSliceFrom]
  obtain ⟨fl, e, he⟩ := Atoi_rejects rest h
  exact ⟨fl, by simp only [good.extractFlightLevel, hs, he]⟩

theorem signedDecimalForm_of_digits (ds : Bytes) (hne : ds ≠ [])
    (hall : ds.all isDigitByte = true) (hv : decimalValue ds < strconv.cutoff) :
    signedDecimalForm ds = true ∧ signedDecimalValue ds = (decimalValue ds : Int) := by
  cases ds with
  | nil => exact absurd rfl hne
  | cons d ds =>
    have hd : isDigitByte d = true := by
      simp only [List.all_cons, Bool.and_eq_true] at hall
      exact hall.1
    have hp : ¬ d = Char.ofNat 43 := by
      intro e; rw [e] at hd; exact absurd hd (by decide)
    have hm : ¬ d = chDash := by
      intro e; rw [e] at hd; exact absurd hd (by decide)
    constructor
    · simp only [signedDecimalForm, if_neg hp, if_neg hm, hall, Bool.true_and,
        decide_eq_true_eq]
      exact hv
    · simp only [signedDecimalValue, if_neg hp, if_neg hm]

/-- C9, as the code has it: `extractFlightLevel` does not examine the first
byte of a non-empty input; it returns an error if and only if the bytes after
the first one are not an optional sign followed by one or more decimal digits
denoting a number of the 64-bit `int` range, and otherwise returns that
number.  In particular a letter followed by digits denoting a number below
2^63 is accepted with the value of the digits. -/
theorem C9_extractFlightLevel_amended (c : Char) (rest : Bytes) :
    ((∃ fl err, good.extractFlightLevel (c :: rest) = some (fl, some err))
      ↔ signedDecimalForm rest = false) ∧
    ((∃ fl, good.extractFlightLevel (c :: rest) = some (fl, none))
      ↔ signedDecimalForm rest = true) ∧
    (signedDecimalForm rest = true →
      good.extractFlightLevel (c :: rest) = some (signedDecimalValue rest, none)) ∧
    (letterDigitsForm (c :: rest) = true → decimalValue rest < strconv.cutoff →
      good.extractFlightLevel (c :: rest) = some ((decimalValue rest : Int), none)) := by
  refine ⟨⟨?_, ?_⟩, ⟨?_, ?_⟩, extractFlightLevel_accepts c rest, ?_⟩
  · rintro ⟨fl, err, h⟩
    cases hf : signedDecimalForm rest with
    | false => rfl
    | true =>
      rw [extractFlightLevel_accepts c rest hf] at h
      cases h
  · intro hf
    obtain ⟨fl, h⟩ := extractFlightLevel_rejects c rest hf
    exact ⟨_, _, h⟩
  · rintro ⟨fl, h⟩
    cases hf : signedDecimalForm rest with
    | true => rfl
    | false =>
      obtain ⟨fl2, h2⟩ := extractFlightLevel_rejects c rest hf
      rw [h2] at h
      cases h
  · intro hf
    exact ⟨_, extractFlightLevel_accepts c rest hf⟩
  · intro hform hv
    simp only [letterDigitsForm, Bool.and_eq_true] at hform
    obtain ⟨hf, hval⟩ :=
      signedDecimalForm_of_digits rest (isEmpty_false_ne rest hform.1.2) hform.2 hv
    rw [extractFlightLevel_accepts c rest hf, hval]

/-- C9 as amended, at `F390` (accepted, 390) and `FXYZ` (rejected). -/
theorem C9_extractFlightLevel_amended_witness :
    good.extractFlightLevel "F390".toList = some (390, none) ∧
    (∃ fl err, good.extractFlightLevel "FXYZ".toList = some (fl, some err)) :=
  ⟨(C9_extractFlightLevel_amended (Char.ofNat 70) "390".toList).2.2.2 (by decide) (by decide),
   (C9_extractFlightLevel_amended (Char.ofNat 70) "XYZ".toList).1.2 (by decide)⟩

/-- C9 as stated fails: `F+12` and `1234` are not a letter followed by digits
and are accepted (12 and 234), and `F9223372036854775808` is a letter
followed by digits and is rejected. -/
theorem C9_counterexample :
    ¬ ((∃ fl err, good.extractFlightLevel "F+12".toList = some (fl, some err))
        ↔ letterDigitsForm "F+12".toList = false) ∧
    (letterDigitsForm "F+12".toList = false ∧
      good.extractFlightLevel "F+12".toList = some (12, none)) ∧
    (letterDigitsForm "1234".toList = false ∧
      good.extractFlightLevel "1234".toList = some (234, none)) ∧
    (letterDigitsForm "F9223372036854775808".toList = true ∧
      good.extractFlightLevel "F9223372036854775808".toList
        = some (-1, some (good.GoError.flightLevelCannotBeParsed 9223372036854775807))) := by
  refine ⟨?_, ⟨by decide, by decide⟩, ⟨by decide, by decide⟩, ⟨by decide, by decide⟩⟩
  intro h
  obtain ⟨fl, err, he⟩ := h.2 (by decide)
  have hv : good.extractFlightLevel "F+12".toList = some (12, none) := by decide
  rw [hv] at he
  cases he

/-! ### Empty raw value of a complex token -/

set_option maxRecDepth 100000 in
/-- C8, the code at the failing input: a nil value gives no record, but the
present and empty value of the logical line `-GEO ` (what `preprocess` makes
of `-GEO` followed by an empty physical line) gives one empty record, which
`process` turns into one empty geo point; every non-nil value, empty or not,
gives at least one record. -/
theorem C8_empty_value_gives_one_record :
    good.parseLine "-GEO".toList = some (some good.tokenGeo, none) ∧
    good.parseComplexToken good.tokenGeo none
      = some (good.Data.complex ⟨good.tokenGeo, []⟩) ∧
    good.preprocess ("-GEO".toList ++ [chNewline]) = some ([[], "-GEO ".toList], none) ∧
    good.parseLine "-GEO ".toList = some (some good.tokenGeo, some []) ∧
    good.parseComplexToken good.tokenGeo (some [])
      = some (good.Data.complex ⟨good.tokenGeo, [[]]⟩) ∧
    good.ParseAdexpMessage ("-GEO".toList ++ [chNewline])
      = some ({ good.zeroMessage with Geo := [⟨[], [], []⟩] }, none) ∧
    (∀ (token val : Bytes) (d : good.Data),
      good.parseComplexToken token (some val) = some d →
        ∃ t, d = good.Data.complex t ∧ 1 ≤ t.value.length) := by
  refine ⟨by decide, by decide, by decide, by decide, by decide, by rfl, ?_⟩
  intro token val d h
  simp only [good.parseComplexToken, Option.map_eq_some'] at h
  obtain ⟨st, _, hd⟩ := h
  exact ⟨_, hd.symm, by simp⟩

/-! ### Arrival order -/

set_option maxRecDepth 100000 in
/-- C10 as stated fails: for the logical lines `-EETFIR A`, `-EETFIR B` the
channel may deliver the two results in line order or reversed, and the two
runs of `process` return different Messages. -/
theorem C10_counterexample :
    good.IsSchedule (fun sent => sent) ∧ good.IsSchedule List.reverse ∧
    good.processSched (fun sent => sent) ["-EETFIR A".toList, "-EETFIR B".toList]
      = some ({ good.zeroMessage with Eetfir := ["A".toList, "B".toList] }, none) ∧
    good.processSched List.reverse ["-EETFIR A".toList, "-EETFIR B".toList]
      = some ({ good.zeroMessage with Eetfir := ["B".toList, "A".toList] }, none) ∧
    good.processSched (fun sent => sent) ["-EETFIR A".toList, "-EETFIR B".toList]
      ≠ good.processSched List.reverse ["-EETFIR A".toList, "-EETFIR B".toList] := by
  refine ⟨fun sent => List.Perm.refl sent, fun sent => List.reverse_perm sent,
    by rfl, by rfl, by decide⟩

/-! ### The scan for subfields -/

theorem regexpFind_length (s : Bytes) :
    ∀ m rest, regexpFind s = some (m, rest) → rest.length + 2 ≤ s.length := by
  induction s with
  | nil => intro m rest h; simp [regexpFind] at h
  | cons c cs ih =>
    intro m rest h
    unfold regexpFind at h
    split at h
    · split at h
      · cases h
      · rename_i d ds
        split at h
        · simp only [Option.some.injEq, Prod.mk.injEq] at h
          rw [← h.2]
          have := (List.dropWhile_sublist (l := ds) (fun x => decide (x ≠ chDash))).length_le
          simp only [List.length_cons]
          omega
        · have := ih m rest h
          simp only [List.length_cons] at this ⊢
          omega
    · have := ih m rest h
      simp only [List.length_cons]
      omega

theorem regexpFind_shape (s : Bytes) :
    ∀ m rest, regexpFind s = some (m, rest) →
      ∃ d body, m = chDash :: d :: body ∧ d ≠ chNewline ∧ chDash ∉ body := by
  induction s with
  | nil => intro m rest h; simp [regexpFind] at h
  | cons c cs ih =>
    intro m rest h
    unfold regexpFind at h
    split at h
    · rename_i hc
      split at h
      · cases h
      · rename_i d ds
        split at h
        · rename_i hd
          simp only [Option.some.injEq, Prod.mk.injEq] at h
          refine ⟨d, ds.takeWhile (fun x => decide (x ≠ chDash)), ?_, hd, ?_⟩
          · rw [← h.1, hc]
          · intro hmem
            have := List.mem_takeWhile_imp hmem
            simp at this
        · exact ih m rest h
    · exact ih m rest h

theorem regexpFindAllFuel_enough (n : Nat) :
    ∀ (k : Nat) (s : Bytes), s.length ≤ n → s.length ≤ k →
      regexpFindAllFuel n s = regexpFindAllFuel k s := by
  induction n with
  | zero =>
    intro k s hn hk
    have hs : s = [] := List.length_eq_zero.1 (Nat.le_zero.1 hn)
    subst hs
    cases k with
    | zero => rfl
    | succ k => simp [regexpFindAllFuel, regexpFind]
  | succ n ih =>
    intro k s hn hk
    cases k with
    | zero =>
      have hs : s = [] := List.length_eq_zero.1 (Nat.le_zero.1 hk)
      subst hs
      simp [regexpFindAllFuel, regexpFind]
    | succ k =>
      simp only [regexpFindAllFuel]
      cases hf : regexpFind s with
      | none => rfl
      | some p =>
        obtain ⟨m, rest⟩ := p
        have hl := regexpFind_length s m rest hf
        simp only
        rw [ih k rest (by omega) (by omega)]

theorem regexpFindAll_some (s m rest : Bytes) (h : regexpFind s = some (m, rest)) :
    regexpFindAll s = m :: regexpFindAll rest := by
  have hl := regexpFind_length s m rest h
  unfold regexpFindAll
  obtain ⟨n, hn⟩ : ∃ n, s.length = n + 1 := ⟨s.length - 1, by omega⟩
  rw [hn]
  simp only [regexpFindAllFuel, h]
  rw [regexpFindAllFuel_enough n rest.length rest (by omega) (Nat.le_refl _)]

theorem regexpFindAll_none (s : Bytes) (h : regexpFind s = none) : regexpFindAll s = [] := by
  unfold regexpFindAll
  cases hn : s.length with
  | zero => rfl
  | succ n => simp only [regexpFindAllFuel, h]

theorem regexpFindAll_shape (n : Nat) :
    ∀ (s m : Bytes), m ∈ regexpFindAllFuel n s →
      ∃ d body, m = chDash :: d :: body ∧ d ≠ chNewline ∧ chDash ∉ body := by
  induction n with
  | zero => intro s m h; simp [regexpFindAllFuel] at h
  | succ n ih =>
    intro s m h
    simp only [regexpFindAllFuel] at h
    cases hf : regexpFind s with
    | none => rw [hf] at h; simp at h
    | some p =>
      obtain ⟨m1, rest⟩ := p
      rw [hf] at h
      simp only [List.mem_cons] at h
      rcases h with h | h
      · rw [h]; exact regexpFind_shape s m1 rest hf
      · exact ih rest m h

/-! ### Records of a complex token -/

theorem bytesIndex_lt (c : Char) (s : Bytes) :
    ∀ i, bytesIndex c s = some i → i < s.length := by
  induction s with
  | nil => intro i h; simp [bytesIndex] at h
  | cons x xs ih =>
    intro i h
    unfold bytesIndex at h
    split at h
    · simp only [Option.some.injEq] at h
      rw [← h]; simp
    · simp only [Option.map_eq_some'] at h
      obtain ⟨j, hj, hi⟩ := h
      have := ih j hj
      rw [← hi]; simp only [List.length_cons]; omega

theorem bytesIndex_pos (c x : Char) (xs : Bytes) (hx : x ≠ c) :
    ∀ i, bytesIndex c (x :: xs) = some i → 1 ≤ i := by
  intro i h
  unfold bytesIndex at h
  rw [if_neg hx] at h
  simp only [Option.map_eq_some'] at h
  obtain ⟨j, _, hi⟩ := h
  omega

theorem parseLine_dash_isSome (rest : Bytes) :
    ∃ h l, good.parseLine (chDash :: rest) = some (some h, l) := by
  unfold good.parseLine
  rw [if_neg (by simp)]
  cases hi : bytesIndex chSpace (chDash :: rest) with
  | none => exact ⟨rest, none, by simp [goSliceFrom]⟩
  | some i =>
    have h1 := bytesIndex_pos chSpace chDash rest (by decide) i hi
    have h2 := bytesIndex_lt chSpace (chDash :: rest) i hi
    have hs1 : goSlice (chDash :: rest) 1 i = some (((chDash :: rest).take i).drop 1) := by
      unfold goSlice
      rw [if_pos ⟨h1, Nat.le_of_lt h2⟩]
    have hs2 : goSliceFrom (chDash :: rest) (i + 1) = some ((chDash :: rest).drop (i + 1)) := by
      unfold goSliceFrom
      rw [if_pos (Nat.succ_le_of_lt h2)]
    refine ⟨((chDash :: rest).take i).drop 1, some ((chDash :: rest).drop (i + 1)), ?_⟩
    simp only [hs1, hs2, Option.map_some']
    rfl

theorem parseComplexLoop_group (subs : List Bytes) :
    ∀ (v : List GoMap) (cur : GoMap), (∀ sub ∈ subs, ∃ rest, sub = chDash :: rest) →
      good.parseComplexLoop subs v cur = some (groupLoop (subs.map subfieldOf) v cur) := by
  induction subs with
  | nil => intro v cur _; rfl
  | cons sub subs ih =>
    intro v cur hsub
    obtain ⟨rest, hrest⟩ := hsub sub (List.mem_cons_self _ _)
    obtain ⟨h, l, hp⟩ := parseLine_dash_isSome rest
    have hsf : subfieldOf sub = (h, bytesTrim (l.getD [])) := by
      simp only [subfieldOf, hrest, hp, Option.getD_some]
    have htl : ∀ s ∈ subs, ∃ r, s = chDash :: r :=
      fun s hs => hsub s (List.mem_cons_of_mem _ hs)
    simp only [good.parseComplexLoop, hrest, hp, List.map_cons, Option.getD_some]
    rw [← hrest, hsf]
    simp only [groupLoop]
    split
    · exact ih _ _ htl
    · exact ih _ _ htl

theorem parseComplexToken_eq (token val : Bytes) :
    good.parseComplexToken token (some val)
      = some (good.Data.complex
          ⟨token, (groupLoop (subfields val) [] []).1 ++ [(groupLoop (subfields val) [] []).2]⟩) := by
  have hshape : ∀ sub ∈ regexpFindAll val, ∃ rest, sub = chDash :: rest := by
    intro sub hsub
    obtain ⟨d, body, hm, _, _⟩ := regexpFindAll_shape _ val sub hsub
    exact ⟨_, hm⟩
  simp only [good.parseComplexToken, parseComplexLoop_group (regexpFindAll val) [] [] hshape,
    Option.map_some', subfields]

theorem mapContains_iff (m : GoMap) (k : Bytes) :
    mapContains m k = true ↔ k ∈ m.map Prod.fst := by
  simp only [mapContains, List.any_eq_true, decide_eq_true_eq, List.mem_map]

theorem mapSet_absent (m : GoMap) (k x : Bytes) (h : k ∉ m.map Prod.fst) :
    mapSet m k x = m ++ [(k, x)] := by
  induction m with
  | nil => rfl
  | cons e m ih =>
    obtain ⟨k1, v1⟩ := e
    have h1 : ¬ k1 = k := fun e => h (by simp [e])
    have h2 : k ∉ m.map Prod.fst := fun e => h (by simp [e])
    simp only [mapSet, if_neg h1, ih h2, List.cons_append]

theorem segmentsFrom_head (k : Bytes) (rest : List (Bytes × Bytes)) :
    ∀ cur, ∃ seg tail, segmentsFrom k rest cur = seg :: tail ∧ cur <+: seg := by
  induction rest with
  | nil => intro cur; exact ⟨cur, [], rfl, List.prefix_refl _⟩
  | cons e rest ih =>
    intro cur
    obtain ⟨k1, x⟩ := e
    by_cases hk : k1 = k
    · exact ⟨cur, segmentsFrom k rest [(k1, x)], by simp only [segmentsFrom, if_pos hk],
        List.prefix_refl _⟩
    · obtain ⟨seg, tail, hs, hp⟩ := ih (cur ++ [(k1, x)])
      refine ⟨seg, tail, by simp only [segmentsFrom, if_neg hk, hs], ?_⟩
      exact List.IsPrefix.trans (List.prefix_append _ _) hp

theorem segmentsFrom_length (k : Bytes) (rest : List (Bytes × Bytes)) :
    ∀ cur, (segmentsFrom k rest cur).length = 1 + rest.countP (fun e => e.1 = k) := by
  induction rest with
  | nil => intro cur; simp [segmentsFrom]
  | cons e rest ih =>
    intro cur
    obtain ⟨k1, x⟩ := e
    by_cases hk : k1 = k
    · simp only [segmentsFrom, if_pos hk, List.length_cons, ih]
      rw [List.countP_cons_of_pos _ _ (by simpa using hk)]
      omega
    · simp only [segmentsFrom, if_neg hk, ih]
      rw [List.countP_cons_of_neg _ _ (by simpa using hk)]

theorem groupLoop_segments (k : Bytes) (rest : List (Bytes × Bytes)) :
    ∀ (v : List GoMap) (cur : GoMap), k ∈ cur.map Prod.fst →
      (∀ seg ∈ segmentsFrom k rest cur, (seg.map Prod.fst).Nodup) →
      (groupLoop rest v cur).1 ++ [(groupLoop rest v cur).2] = v ++ segmentsFrom k rest cur := by
  induction rest with
  | nil => intro v cur _ _; rfl
  | cons e rest ih =>
    intro v cur hk hnd
    obtain ⟨k1, x⟩ := e
    by_cases hk1 : k1 = k
    · have hc : mapContains cur k1 = true := (mapContains_iff cur k1).2 (hk1 ▸ hk)
      simp only [segmentsFrom, if_pos hk1] at hnd ⊢
      simp only [groupLoop, hc, if_true]
      have hnd2 : ∀ seg ∈ segmentsFrom k rest [(k1, x)], (seg.map Prod.fst).Nodup :=
        fun seg hs => hnd seg (List.mem_cons_of_mem _ hs)
      rw [show mapSet [] k1 x = [(k1, x)] from rfl,
        ih (v ++ [cur]) [(k1, x)] (by simp [hk1]) hnd2]
      simp
    · simp only [segmentsFrom, if_neg hk1] at hnd ⊢
      obtain ⟨seg, tail, hs, hp⟩ := segmentsFrom_head k rest (cur ++ [(k1, x)])
      have hseg : (seg.map Prod.fst).Nodup := hnd seg (by rw [hs]; exact List.mem_cons_self _ _)
      have hcur : ((cur ++ [(k1, x)]).map Prod.fst).Nodup :=
        List.Nodup.sublist (List.Sublist.map _ hp.sublist) hseg
      have hnot : k1 ∉ cur.map Prod.fst := by
        intro hmem
        rw [List.map_append, List.nodup_append] at hcur
        exact hcur.2.2 hmem (by simp)
      have hc : ¬ mapContains cur k1 = true := fun h => hnot ((mapContains_iff cur k1).1 h)
      simp only [groupLoop, if_neg hc]
      rw [mapSet_absent cur k1 x hnot]
      exact ih v (cur ++ [(k1, x)]) (by simp [hk]) hnd

/-- C7, as the code has it: when the subfields of a raw value start with the
key `k` and, between consecutive occurrences of `k`, no key occurs twice,
`parseComplexToken` yields exactly one record for every occurrence of `k`,
the record of an occurrence containing exactly the subfields from that
occurrence up to (not including) the next one, in source order. -/
theorem C7_record_boundaries_amended (token val k x : Bytes) (rest : List (Bytes × Bytes))
    (hsf : subfields val = (k, x) :: rest)
    (hdistinct : ∀ seg ∈ segmentsFrom k rest [(k, x)], (seg.map Prod.fst).Nodup) :
    good.parseComplexToken token (some val)
      = some (good.Data.complex ⟨token, segmentsFrom k rest [(k, x)]⟩) ∧
    (segmentsFrom k rest [(k, x)]).length
      = ((k, x) :: rest).countP (fun e => e.1 = k) := by
  constructor
  · rw [parseComplexToken_eq, hsf]
    have hstep : groupLoop ((k, x) :: rest) [] [] = groupLoop rest [] [(k, x)] := by
      simp [groupLoop, mapContains, mapSet]
    rw [hstep, groupLoop_segments k rest [] [(k, x)] (by simp) hdistinct]
    simp
  · rw [segmentsFrom_length, List.countP_cons_of_pos _ _ (by simp)]
    omega

set_option maxRecDepth 100000 in
/-- C7 as amended, at the raw value `-PTID A -FL F1 -ETO 2 -PTID B -FL F2`:
two occurrences of PTID, two records. -/
theorem C7_record_boundaries_amended_witness :
    good.parseComplexToken good.tokenRtepts (some "-PTID A -FL F1 -ETO 2 -PTID B -FL F2".toList)
      = some (good.Data.complex ⟨good.tokenRtepts,
          [[("PTID".toList, "A".toList), ("FL".toList, "F1".toList), ("ETO".toList, "2".toList)],
           [("PTID".toList, "B".toList), ("FL".toList, "F2".toList)]]⟩) :=
  (C7_record_boundaries_amended good.tokenRtepts "-PTID A -FL F1 -ETO 2 -PTID B -FL F2".toList
    "PTID".toList "A".toList
    [("FL".toList, "F1".toList), ("ETO".toList, "2".toList), ("PTID".toList, "B".toList),
     ("FL".toList, "F2".toList)] (by rfl) (by decide)).1

set_option maxRecDepth 100000 in
/-- C7 as stated fails: in the raw value `-A 1 -B 2 -B 3` the first-used key
`A` occurs once, and `parseComplexToken` yields two records, the second
starting at the repeated key `B`. -/
theorem C7_counterexample :
    subfields "-A 1 -B 2 -B 3".toList
      = [("A".toList, "1".toList), ("B".toList, "2".toList), ("B".toList, "3".toList)] ∧
    (subfields "-A 1 -B 2 -B 3".toList).countP (fun e => e.1 = "A".toList) = 1 ∧
    good.parseComplexToken good.tokenGeo (some "-A 1 -B 2 -B 3".toList)
      = some (good.Data.complex ⟨good.tokenGeo,
          [[("A".toList, "1".toList), ("B".toList, "2".toList)], [("B".toList, "3".toList)]]⟩) := by
  refine ⟨by rfl, by rfl, by rfl⟩

/-! ### A flight level that cannot be parsed -/

theorem extractFlightLevel_cases (fl : Bytes) (hne : fl ≠ []) :
    (∃ n, good.extractFlightLevel fl = some (n, none)) ∨
    (∃ n, good.extractFlightLevel fl
      = some (-1, some (good.GoError.flightLevelCannotBeParsed n))) := by
  cases fl with
  | nil => exact absurd rfl hne
  | cons c rest =>
    cases hf : signedDecimalForm rest with
    | true => exact Or.inl ⟨_, extractFlightLevel_accepts c rest hf⟩
    | false => exact Or.inr (extractFlightLevel_rejects c rest hf)

theorem extractFlightLevel_rejected (v : GoMap) (h : rejectedFlightLevel v = true) :
    ∃ n, good.extractFlightLevel (mapGet v good.subtokenFl)
      = some (-1, some (good.GoError.flightLevelCannotBeParsed n)) := by
  unfold rejectedFlightLevel at h
  cases hfl : mapGet v good.subtokenFl with
  | nil => rw [hfl] at h; simp at h
  | cons c rest =>
    rw [hfl] at h
    simp only [Bool.not_eq_true'] at h
    exact extractFlightLevel_rejects c rest h

theorem estdataLoop_returns (vs : List GoMap) :
    ∀ msg : good.Message, (∀ v ∈ vs, mapGet v good.subtokenFl ≠ []) →
      (∃ r, good.estdataLoop vs msg = some r) ∧
      ((∃ v ∈ vs, rejectedFlightLevel v = true) →
        ∃ err, good.estdataLoop vs msg = some (good.zeroMessage, some err)) := by
  induction vs with
  | nil =>
    intro msg _
    exact ⟨⟨_, rfl⟩, fun h => by obtain ⟨v, hv, _⟩ := h; simp at hv⟩
  | cons v vs ih =>
    intro msg hne
    have hne2 : ∀ w ∈ vs, mapGet w good.subtokenFl ≠ [] :=
      fun w hw => hne w (List.mem_cons_of_mem _ hw)
    rcases extractFlightLevel_cases _ (hne v (List.mem_cons_self _ _)) with ⟨n, hn⟩ | ⟨n, hn⟩
    · have hstep : good.estdataLoop (v :: vs) msg
          = good.estdataLoop vs { msg with Estdata := msg.Estdata ++
              [⟨mapGet v good.subtokenPtid, mapGet v good.subtokenEto, n⟩] } := by
        simp only [good.estdataLoop, hn]
      rw [hstep]
      refine ⟨(ih _ hne2).1, ?_⟩
      rintro ⟨w, hw, hbad⟩
      rcases List.mem_cons.1 hw with e | e
      · obtain ⟨n2, hn2⟩ := extractFlightLevel_rejected w hbad
        rw [e, hn] at hn2
        cases hn2
      · exact (ih _ hne2).2 ⟨w, e, hbad⟩
    · have hstep : good.estdataLoop (v :: vs) msg
          = some (good.zeroMessage, some (good.GoError.flightLevelCannotBeParsed (-1))) := by
        simp only [good.estdataLoop, hn]
      rw [hstep]
      exact ⟨⟨_, rfl⟩, fun _ => ⟨_, rfl⟩⟩

theorem rteptsLoop_returns (vs : List GoMap) :
    ∀ msg : good.Message, (∀ v ∈ vs, mapGet v good.subtokenFl ≠ []) →
      (∃ r, good.rteptsLoop vs msg = some r) ∧
      ((∃ v ∈ vs, rejectedFlightLevel v = true) →
        ∃ err, good.rteptsLoop vs msg = some (good.zeroMessage, some err)) := by
  induction vs with
  | nil =>
    intro msg _
    exact ⟨⟨_, rfl⟩, fun h => by obtain ⟨v, hv, _⟩ := h; simp at hv⟩
  | cons v vs ih =>
    intro msg hne
    have hne2 : ∀ w ∈ vs, mapGet w good.subtokenFl ≠ [] :=
      fun w hw => hne w (List.mem_cons_of_mem _ hw)
    rcases extractFlightLevel_cases _ (hne v (List.mem_cons_self _ _)) with ⟨n, hn⟩ | ⟨n, hn⟩
    · have hstep : good.rteptsLoop (v :: vs) msg
          = good.rteptsLoop vs { msg with RoutePoints := msg.RoutePoints ++
              [⟨mapGet v good.subtokenPtid, n, mapGet v good.subtokenEto⟩] } := by
        simp only [good.rteptsLoop, hn]
      rw [hstep]
      refine ⟨(ih _ hne2).1, ?_⟩
      rintro ⟨w, hw, hbad⟩
      rcases List.mem_cons.1 hw with e | e
      · obtain ⟨n2, hn2⟩ := extractFlightLevel_rejected w hbad
        rw [e, hn] at hn2
        cases hn2
      · exact (ih _ hne2).2 ⟨w, e, hbad⟩
    · have hstep : good.rteptsLoop (v :: vs) msg
          = some (good.zeroMessage, some (good.GoError.flightLevelCannotBeParsed (-1))) := by
        simp only [good.rteptsLoop, hn]
      rw [hstep]
      exact ⟨⟨_, rfl⟩, fun _ => ⟨_, rfl⟩⟩

theorem ite_some_returns {α : Type} (c : Prop) [Decidable c] (a : α) (b : Option α)
    (hb : ∃ r, b = some r) : ∃ r, (if c then some a else b) = some r := by
  by_cases h : c
  · exact ⟨a, if_pos h⟩
  · rw [if_neg h]; exact hb

theorem enrich_simple_returns (msg : good.Message) (t : good.simpleToken) :
    ∃ r, good.enrich msg (good.Data.simple t) = some r := by
  simp only [good.enrich]
  iterate 11 apply ite_some_returns
  exact ⟨_, rfl⟩

theorem enrich_returns (msg : good.Message) (d : good.Data)
    (hne : ∀ v ∈ flightRecords d, mapGet v good.subtokenFl ≠ []) :
    (∃ r, good.enrich msg d = some r) ∧
    ((∃ v ∈ flightRecords d, rejectedFlightLevel v = true) →
      ∃ err, good.enrich msg d = some (good.zeroMessage, some err)) := by
  cases d with
  | nil =>
    exact ⟨⟨_, rfl⟩, fun h => by obtain ⟨v, hv, _⟩ := h; simp [flightRecords] at hv⟩
  | simple t =>
    exact ⟨enrich_simple_returns msg t,
      fun h => by obtain ⟨v, hv, _⟩ := h; simp [flightRecords] at hv⟩
  | complex t =>
    by_cases h1 : t.token = good.tokenEstdata
    · have hfr : flightRecords (good.Data.complex t) = t.value := by
        simp only [flightRecords, if_pos (Or.inl h1)]
      rw [hfr] at hne ⊢
      have he : good.enrich msg (good.Data.complex t) = good.estdataLoop t.value msg := by
        simp only [good.enrich, if_pos h1]
      rw [he]
      exact estdataLoop_returns t.value msg hne
    · by_cases h2 : t.token = good.tokenGeo
      · have h3 : ¬ t.token = good.tokenRtepts := by rw [h2]; decide
        have hfr : flightRecords (good.Data.complex t) = [] := by
          simp only [flightRecords, if_neg (not_or.2 ⟨h1, h3⟩)]
        have he : good.enrich msg (good.Data.complex t)
            = some (good.geoLoop t.value msg, none) := by
          simp only [good.enrich, if_neg h1, if_pos h2]
        rw [he, hfr]
        exact ⟨⟨_, rfl⟩, fun h => by obtain ⟨v, hv, _⟩ := h; simp at hv⟩
      · by_cases h3 : t.token = good.tokenRtepts
        · have hfr : flightRecords (good.Data.complex t) = t.value := by
            simp only [flightRecords, if_pos (Or.inr h3)]
          rw [hfr] at hne ⊢
          have he : good.enrich msg (good.Data.complex t) = good.rteptsLoop t.value msg := by
            simp only [good.enrich, if_neg h1, if_neg h2, if_pos h3]
          rw [he]
          exact rteptsLoop_returns t.value msg hne
        · have hfr : flightRecords (good.Data.complex t) = [] := by
            simp only [flightRecords, if_neg (not_or.2 ⟨h1, h3⟩)]
          have he : good.enrich msg (good.Data.complex t)
              = some (good.zeroMessage, some (good.GoError.unexpectedTokenType t.token)) := by
            simp only [good.enrich, if_neg h1, if_neg h2, if_neg h3]
          rw [he, hfr]
          exact ⟨⟨_, rfl⟩, fun _ => ⟨_, rfl⟩⟩

theorem gather_rejected (l : List good.Data) :
    ∀ msg : good.Message,
      (∀ d ∈ l, ∀ v ∈ flightRecords d, mapGet v good.subtokenFl ≠ []) →
      (∃ d ∈ l, ∃ v ∈ flightRecords d, rejectedFlightLevel v = true) →
      ∃ err, good.gather l msg = some (good.zeroMessage, some err) := by
  induction l with
  | nil => intro msg _ h; obtain ⟨d, hd, _⟩ := h; simp at hd
  | cons d l ih =>
    intro msg hne hbad
    obtain ⟨⟨r, hr⟩, herr⟩ := enrich_returns msg d (hne d (List.mem_cons_self _ _))
    obtain ⟨m, e⟩ := r
    cases e with
    | some err =>
      have hm := enrich_err msg d m err hr
      exact ⟨err, by simp only [good.gather, hr, hm]⟩
    | none =>
      have hstep : good.gather (d :: l) msg = good.gather l m := by
        simp only [good.gather, hr]
      rw [hstep]
      apply ih m (fun d2 hd2 => hne d2 (List.mem_cons_of_mem _ hd2))
      obtain ⟨d2, hd2, v, hv, hrej⟩ := hbad
      rcases List.mem_cons.1 hd2 with e | e
      · obtain ⟨err, he⟩ := herr ⟨v, e ▸ hv, hrej⟩
        rw [he] at hr
        cases hr
      · exact ⟨d2, e, v, hv, hrej⟩

/-- The error return of a malformed flight level when no goroutine panics:
for every input on which `preprocess` and every `mapLine` goroutine complete,
whose received values include an ESTDATA or RTEPTS field with a record whose
`FL` subfield is one byte followed by text `strconv.Atoi` rejects (such as
`XYZ`), and in which every ESTDATA and RTEPTS record has a non-empty `FL`,
`ParseAdexpMessage` returns a non-nil error and the zero Message, whatever
the order in which the channel delivers the per-line results. -/
theorem flight_level_error_returned (sched : List good.Data → List good.Data)
    (hsched : good.IsSchedule sched) (bytes : Bytes) (lines : List Bytes)
    (sent : List good.Data)
    (hpre : good.preprocess bytes = some (lines, none))
    (hmap : good.mapLines lines = some sent)
    (hbad : ∃ d ∈ sent, ∃ v ∈ flightRecords d, rejectedFlightLevel v = true)
    (hother : ∀ d ∈ sent, ∀ v ∈ flightRecords d, mapGet v good.subtokenFl ≠ []) :
    ∃ err, good.ParseAdexpMessageSched sched bytes = some (good.zeroMessage, some err) := by
  have hperm := hsched sent
  obtain ⟨err, herr⟩ := gather_rejected (sched sent) good.zeroMessage
    (fun d hd => hother d (hperm.mem_iff.1 hd))
    (by
      obtain ⟨d, hd, rest⟩ := hbad
      exact ⟨d, hperm.mem_iff.2 hd, rest⟩)
  refine ⟨err, ?_⟩
  simp only [good.ParseAdexpMessageSched, hpre, good.processSched, hmap, herr]

set_option maxRecDepth 100000 in
/-- The error return at the input `-TITLE IFPL`, `-ESTDATA -PTID A -FL XYZ`
with the channel delivering in reverse line order. -/
theorem flight_level_error_returned_reverse :
    ∃ err, good.ParseAdexpMessageSched List.reverse
        ("-TITLE IFPL".toList ++ chNewline :: "-ESTDATA -PTID A -FL XYZ".toList)
      = some (good.zeroMessage, some err) :=
  flight_level_error_returned List.reverse (fun sent => List.reverse_perm sent)
    ("-TITLE IFPL".toList ++ chNewline :: "-ESTDATA -PTID A -FL XYZ".toList)
    [[], "-TITLE IFPL".toList, "-ESTDATA -PTID A -FL XYZ".toList]
    [good.Data.nil, good.Data.simple ⟨good.tokenTitle, "IFPL".toList⟩,
      good.Data.complex ⟨good.tokenEstdata,
        [[("PTID".toList, "A".toList), ("FL".toList, "XYZ".toList)]]⟩]
    (by rfl) (by rfl) (by decide) (by decide)

/-! ### The body of the gathering loop -/

theorem acceptedFlightLevel_iff (v : GoMap) :
    acceptedFlightLevel v = true
      ↔ good.extractFlightLevel (mapGet v good.subtokenFl) = some (flightLevelOf v, none) := by
  unfold acceptedFlightLevel flightLevelOf
  cases he : good.extractFlightLevel (mapGet v good.subtokenFl) with
  | none => simp
  | some p =>
    obtain ⟨fl, e⟩ := p
    cases e with
    | some err => simp
    | none => simp

theorem estdataLoop_accept (vs : List GoMap) :
    ∀ msg : good.Message, vs.all acceptedFlightLevel = true →
      good.estdataLoop vs msg
        = some ({ msg with Estdata := msg.Estdata ++ vs.map estdataOf }, none) := by
  induction vs with
  | nil => intro msg _; simp [good.estdataLoop]
  | cons v vs ih =>
    intro msg hall
    simp only [List.all_cons, Bool.and_eq_true] at hall
    obtain ⟨hv, hvs⟩ := hall
    have he := (acceptedFlightLevel_iff v).1 hv
    simp only [good.estdataLoop, he]
    rw [ih _ hvs]
    simp only [List.map_cons, estdataOf, List.append_assoc, List.singleton_append]

theorem estdataLoop_reject (vs : List GoMap) :
    ∀ (msg m : good.Message), good.estdataLoop vs msg = some (m, none) →
      vs.all acceptedFlightLevel = true := by
  induction vs with
  | nil => intro msg m _; rfl
  | cons v vs ih =>
    intro msg m h
    unfold good.estdataLoop at h
    split at h
    · cases h
    · cases h
    · rename_i fl he
      have hv : acceptedFlightLevel v = true := by
        simp only [acceptedFlightLevel, he]
      simp only [List.all_cons, hv, Bool.true_and]
      exact ih _ _ h

theorem rteptsLoop_accept (vs : List GoMap) :
    ∀ msg : good.Message, vs.all acceptedFlightLevel = true →
      good.rteptsLoop vs msg
        = some ({ msg with RoutePoints := msg.RoutePoints ++ vs.map rteptsOf }, none) := by
  induction vs with
  | nil => intro msg _; simp [good.rteptsLoop]
  | cons v vs ih =>
    intro msg hall
    simp only [List.all_cons, Bool.and_eq_true] at hall
    obtain ⟨hv, hvs⟩ := hall
    have he := (acceptedFlightLevel_iff v).1 hv
    simp only [good.rteptsLoop, he]
    rw [ih _ hvs]
    simp only [List.map_cons, rteptsOf, List.append_assoc, List.singleton_append]

theorem rteptsLoop_reject (vs : List GoMap) :
    ∀ (msg m : good.Message), good.rteptsLoop vs msg = some (m, none) →
      vs.all acceptedFlightLevel = true := by
  induction vs with
  | nil => intro msg m _; rfl
  | cons v vs ih =>
    intro msg m h
    unfold good.rteptsLoop at h
    split at h
    · cases h
    · cases h
    · rename_i fl he
      have hv : acceptedFlightLevel v = true := by
        simp only [acceptedFlightLevel, he]
      simp only [List.all_cons, hv, Bool.true_and]
      exact ih _ _ h

theorem geoLoop_eq (vs : List GoMap) :
    ∀ msg : good.Message, good.geoLoop vs msg = { msg with Geo := msg.Geo ++ vs.map geoOf } := by
  induction vs with
  | nil => intro msg; simp [good.geoLoop]
  | cons v vs ih =>
    intro msg
    simp only [good.geoLoop, ih, List.map_cons, geoOf, List.append_assoc, List.singleton_append]

theorem enrich_simple_accept (msg : good.Message) (tok value : Bytes)
    (h : tok ∈ simpleTokens) :
    good.enrich msg (good.Data.simple ⟨tok, value⟩)
      = some ({ aggregated msg [good.Data.simple ⟨tok, value⟩] with MsgType := msg.MsgType },
          none) := by
  simp only [simpleTokens, List.mem_cons, List.mem_singleton, List.not_mem_nil, or_false] at h
  rcases h with h | h | h | h | h | h | h | h | h | h | h
  all_goals
    subst h
    simp [good.enrich, aggregated, simpleValues, complexRecords, lastOr, good.tokenTitle,
      good.tokenAdep, good.tokenAltnz, good.tokenAdes, good.tokenArcid, good.tokenArctyp,
      good.tokenCeqpt, good.tokenMsgtxt, good.tokenComment, good.tokenEetfir, good.tokenSpeed,
      good.tokenEstdata, good.tokenGeo, good.tokenRtepts]

theorem enrich_simple_reject (msg : good.Message) (tok value : Bytes)
    (h : tok ∉ simpleTokens) :
    good.enrich msg (good.Data.simple ⟨tok, value⟩)
      = some (good.zeroMessage, some (good.GoError.unexpectedTokenType tok)) := by
  simp only [simpleTokens, List.mem_cons, List.mem_singleton, List.not_mem_nil, or_false,
    not_or] at h
  obtain ⟨h1, h2, h3, h4, h5, h6, h7, h8, h9, h10, h11⟩ := h
  simp only [good.enrich, if_neg h1, if_neg h2, if_neg h3, if_neg h4, if_neg h5, if_neg h6,
    if_neg h7, if_neg h8, if_neg h9, if_neg h10, if_neg h11]

theorem enrich_complex_accept (msg : good.Message) (tok : Bytes) (value : List GoMap)
    (h : acceptedData (good.Data.complex ⟨tok, value⟩) = true) :
    good.enrich msg (good.Data.complex ⟨tok, value⟩)
      = some ({ aggregated msg [good.Data.complex ⟨tok, value⟩] with MsgType := msg.MsgType },
          none) := by
  by_cases h1 : tok = good.tokenEstdata
  · subst h1
    have hall : value.all acceptedFlightLevel = true := by
      simpa [acceptedData] using h
    have he : good.enrich msg (good.Data.complex ⟨good.tokenEstdata, value⟩)
        = good.estdataLoop value msg := by simp only [good.enrich, if_pos]
    rw [he, estdataLoop_accept value msg hall]
    simp [aggregated, simpleValues, complexRecords, lastOr, good.tokenEstdata, good.tokenGeo,
      good.tokenRtepts]
  · by_cases h2 : tok = good.tokenGeo
    · subst h2
      have he : good.enrich msg (good.Data.complex ⟨good.tokenGeo, value⟩)
          = some (good.geoLoop value msg, none) := by
        simp only [good.enrich, if_neg h1, if_pos]
      rw [he, geoLoop_eq]
      simp [aggregated, simpleValues, complexRecords, lastOr, good.tokenEstdata, good.tokenGeo,
        good.tokenRtepts]
    · by_cases h3 : tok = good.tokenRtepts
      · subst h3
        have hall : value.all acceptedFlightLevel = true := by
          simpa [acceptedData] using h
        have he : good.enrich msg (good.Data.complex ⟨good.tokenRtepts, value⟩)
            = good.rteptsLoop value msg := by simp only [good.enrich, if_neg h1, if_neg h2, if_pos]
        rw [he, rteptsLoop_accept value msg hall]
        simp [aggregated, simpleValues, complexRecords, lastOr, good.tokenEstdata,
          good.tokenGeo, good.tokenRtepts]
      · simp [acceptedData, h1, h2, h3] at h

theorem enrich_accept (msg : good.Message) (d : good.Data) (h : acceptedData d = true) :
    good.enrich msg d = some ({ aggregated msg [d] with MsgType := msg.MsgType }, none) := by
  cases d with
  | nil => simp [good.enrich, aggregated, simpleValues, complexRecords, lastOr]
  | simple t =>
    obtain ⟨tok, value⟩ := t
    exact enrich_simple_accept msg tok value (by simpa [acceptedData] using h)
  | complex t =>
    obtain ⟨tok, value⟩ := t
    exact enrich_complex_accept msg tok value h

theorem enrich_ok_accepted (msg m : good.Message) (d : good.Data)
    (h : good.enrich msg d = some (m, none)) : acceptedData d = true := by
  cases d with
  | nil => rfl
  | simple t =>
    obtain ⟨tok, value⟩ := t
    by_cases hm : tok ∈ simpleTokens
    · simpa [acceptedData] using hm
    · rw [enrich_simple_reject msg tok value hm] at h
      cases h
  | complex t =>
    obtain ⟨tok, value⟩ := t
    by_cases h1 : tok = good.tokenEstdata
    · have he : good.enrich msg (good.Data.complex ⟨tok, value⟩)
          = good.estdataLoop value msg := by simp only [good.enrich, if_pos h1]
      rw [he] at h
      have := estdataLoop_reject value msg m h
      simp only [acceptedData, if_pos (Or.inl h1), this]
    · by_cases h2 : tok = good.tokenGeo
      · have h3 : ¬ tok = good.tokenRtepts := by rw [h2]; decide
        subst h2
        rfl
      · by_cases h3 : tok = good.tokenRtepts
        · have he : good.enrich msg (good.Data.complex ⟨tok, value⟩)
              = good.rteptsLoop value msg := by
            simp only [good.enrich, if_neg h1, if_neg h2, if_pos h3]
          rw [he] at h
          have := rteptsLoop_reject value msg m h
          simp only [acceptedData, if_pos (Or.inr h3), this]
        · have he : good.enrich msg (good.Data.complex ⟨tok, value⟩)
              = some (good.zeroMessage, some (good.GoError.unexpectedTokenType tok)) := by
            simp only [good.enrich, if_neg h1, if_neg h2, if_neg h3]
          rw [he] at h
          cases h

/-! ### The gathering loop -/

theorem lastOr_append (xs : List Bytes) : ∀ (d : Bytes) (ys : List Bytes),
    lastOr (lastOr d xs) ys = lastOr d (xs ++ ys) := by
  induction xs with
  | nil => intro d ys; rfl
  | cons x xs ih =>
    intro d ys
    show lastOr (lastOr x xs) ys = lastOr x (xs ++ ys)
    exact ih x ys

theorem simpleValues_cons (tok : Bytes) (d : good.Data) (l : List good.Data) :
    simpleValues tok (d :: l) = simpleValues tok [d] ++ simpleValues tok l := by
  cases d with
  | nil => simp [simpleValues]
  | simple t =>
    by_cases h : t.token = tok
    · simp [simpleValues, h]
    · simp [simpleValues, h]
  | complex t => simp [simpleValues]

theorem complexRecords_cons (tok : Bytes) (d : good.Data) (l : List good.Data) :
    complexRecords tok (d :: l) = complexRecords tok [d] ++ complexRecords tok l := by
  cases d with
  | nil => simp [complexRecords]
  | simple t => simp [complexRecords]
  | complex t =>
    by_cases h : t.token = tok
    · simp [complexRecords, h]
    · simp [complexRecords, h]

theorem aggregated_cons (msg : good.Message) (d : good.Data) (l : List good.Data) :
    aggregated { aggregated msg [d] with MsgType := msg.MsgType } l = aggregated msg (d :: l) := by
  simp only [aggregated, lastOr_append, List.append_assoc, ← List.map_append,
    ← simpleValues_cons, ← complexRecords_cons]

theorem gather_accept (l : List good.Data) :
    ∀ msg : good.Message, (∀ d ∈ l, acceptedData d = true) →
      good.gather l msg = some (aggregated msg l, none) := by
  induction l with
  | nil =>
    intro msg _
    simp [good.gather, aggregated, simpleValues, complexRecords, lastOr]
  | cons d l ih =>
    intro msg h
    have hd := enrich_accept msg d (h d (List.mem_cons_self _ _))
    simp only [good.gather, hd]
    rw [ih _ (fun d2 hd2 => h d2 (List.mem_cons_of_mem _ hd2)), aggregated_cons]

theorem gather_ok_accepted (l : List good.Data) :
    ∀ (msg m : good.Message), good.gather l msg = some (m, none) →
      ∀ d ∈ l, acceptedData d = true := by
  induction l with
  | nil => intro msg m _ d hd; simp at hd
  | cons d l ih =>
    intro msg m h d2 hd2
    unfold good.gather at h
    split at h
    · cases h
    · cases h
    · rename_i m1 he
      rcases List.mem_cons.1 hd2 with e | e
      · rw [e]; exact enrich_ok_accepted msg m1 d he
      · exact ih m1 m h d2 e

theorem gather_ok_eq (l : List good.Data) (msg m : good.Message)
    (h : good.gather l msg = some (m, none)) : m = aggregated msg l := by
  have hacc := gather_ok_accepted l msg m h
  rw [gather_accept l msg hacc] at h
  cases h
  rfl

/-! ### The values `mapLine` sends and the errors of `process` -/

theorem parseComplexToken_registered (token : Bytes) (value : Option Bytes) (d : good.Data)
    (h : good.parseComplexToken token value = some d) :
    ∃ records, d = good.Data.complex ⟨token, records⟩ := by
  cases value with
  | none =>
    simp only [good.parseComplexToken, Option.some.injEq] at h
    exact ⟨[], h.symm⟩
  | some val =>
    rw [parseComplexToken_eq] at h
    simp only [Option.some.injEq] at h
    exact ⟨_, h.symm⟩

theorem factory_cases (token : Bytes) :
    (good.factory token = some good.parseSimpleToken ∧ token ∈ simpleTokens) ∨
    (good.factory token = some good.parseComplexToken ∧ token ∈ complexTokens) ∨
    good.factory token = none := by
  unfold good.factory
  split
  · rename_i hs
    refine Or.inl ⟨rfl, ?_⟩
    simp only [simpleTokens, List.mem_cons, List.mem_singleton, List.not_mem_nil, or_false]
    exact hs
  · split
    · rename_i hc
      refine Or.inr (Or.inl ⟨rfl, ?_⟩)
      simp only [complexTokens, List.mem_cons, List.mem_singleton, List.not_mem_nil, or_false]
      exact hc
    · exact Or.inr (Or.inr rfl)

theorem mapLine_registered (line : Bytes) (d : good.Data) (h : good.mapLine line = some d) :
    registeredData d = true := by
  unfold good.mapLine at h
  split at h
  · cases h; rfl
  · split at h
    · cases h
    · cases h; rfl
    · rename_i token value hp
      rcases factory_cases token with ⟨hf, hs⟩ | ⟨hf, hc⟩ | hf
      · rw [hf] at h
        simp only [good.parseSimpleToken, Option.some.injEq] at h
        rw [← h]
        simp only [registeredData, decide_eq_true_eq]
        exact hs
      · rw [hf] at h
        obtain ⟨records, hd⟩ := parseComplexToken_registered token value d h
        rw [hd]
        simp only [registeredData, decide_eq_true_eq]
        exact hc
      · rw [hf] at h
        cases h; rfl

theorem mapLines_registered (lines : List Bytes) :
    ∀ sent, good.mapLines lines = some sent → ∀ d ∈ sent, registeredData d = true := by
  induction lines with
  | nil =>
    intro sent h d hd
    simp only [good.mapLines, Option.some.injEq] at h
    rw [← h] at hd
    simp at hd
  | cons line lines ih =>
    intro sent h d hd
    unfold good.mapLines at h
    split at h
    · cases h
    · rename_i d1 hd1
      simp only [Option.map_eq_some'] at h
      obtain ⟨ds, hds, hsent⟩ := h
      rw [← hsent] at hd
      rcases List.mem_cons.1 hd with e | e
      · rw [e]; exact mapLine_registered line d1 hd1
      · exact ih ds hds d e

theorem extractFlightLevel_err_value (fl : Bytes) (n : Int) (e : good.GoError)
    (h : good.extractFlightLevel fl = some (n, some e)) : n = -1 := by
  unfold good.extractFlightLevel at h
  split at h
  · cases h
  · split at h
    · simp only [Option.some.injEq, Prod.mk.injEq] at h
      exact h.1.symm
    · cases h

theorem estdataLoop_err_kind (vs : List GoMap) :
    ∀ (msg m : good.Message) (e : good.GoError),
      good.estdataLoop vs msg = some (m, some e) →
        e = good.GoError.flightLevelCannotBeParsed (-1) := by
  induction vs with
  | nil => intro msg m e h; simp [good.estdataLoop] at h
  | cons v vs ih =>
    intro msg m e h
    unfold good.estdataLoop at h
    split at h
    · cases h
    · rename_i fl err he
      have := extractFlightLevel_err_value _ fl err he
      simp only [Option.some.injEq, Prod.mk.injEq] at h
      rw [← h.2, this]
    · exact ih _ _ _ h

theorem rteptsLoop_err_kind (vs : List GoMap) :
    ∀ (msg m : good.Message) (e : good.GoError),
      good.rteptsLoop vs msg = some (m, some e) →
        e = good.GoError.flightLevelCannotBeParsed (-1) := by
  induction vs with
  | nil => intro msg m e h; simp [good.rteptsLoop] at h
  | cons v vs ih =>
    intro msg m e h
    unfold good.rteptsLoop at h
    split at h
    · cases h
    · rename_i fl err he
      have := extractFlightLevel_err_value _ fl err he
      simp only [Option.some.injEq, Prod.mk.injEq] at h
      rw [← h.2, this]
    · exact ih _ _ _ h

theorem enrich_err_kind (msg m : good.Message) (d : good.Data) (e : good.GoError)
    (hreg : registeredData d = true) (h : good.enrich msg d = some (m, some e)) :
    e = good.GoError.flightLevelCannotBeParsed (-1) := by
  cases d with
  | nil => simp [good.enrich] at h
  | simple t =>
    obtain ⟨tok, value⟩ := t
    have hm : tok ∈ simpleTokens := by simpa [registeredData] using hreg
    rw [enrich_simple_accept msg tok value hm] at h
    cases h
  | complex t =>
    obtain ⟨tok, value⟩ := t
    have hm : tok ∈ complexTokens := by simpa [registeredData] using hreg
    simp only [complexTokens, List.mem_cons, List.mem_singleton, List.not_mem_nil,
      or_false] at hm
    rcases hm with h1 | h1 | h1
    · subst h1
      have he : good.enrich msg (good.Data.complex ⟨good.tokenEstdata, value⟩)
          = good.estdataLoop value msg := by simp only [good.enrich, if_pos]
      rw [he] at h
      exact estdataLoop_err_kind value msg m e h
    · subst h1
      have he : good.enrich msg (good.Data.complex ⟨good.tokenGeo, value⟩)
          = some (good.geoLoop value msg, none) := by rfl
      rw [he] at h
      cases h
    · subst h1
      have he : good.enrich msg (good.Data.complex ⟨good.tokenRtepts, value⟩)
          = good.rteptsLoop value msg := by rfl
      rw [he] at h
      exact rteptsLoop_err_kind value msg m e h

theorem gather_err_kind (l : List good.Data) :
    ∀ (msg m : good.Message) (e : good.GoError), (∀ d ∈ l, registeredData d = true) →
      good.gather l msg = some (m, some e) →
        m = good.zeroMessage ∧ e = good.GoError.flightLevelCannotBeParsed (-1) := by
  induction l with
  | nil => intro msg m e _ h; simp [good.gather] at h
  | cons d l ih =>
    intro msg m e hreg h
    have hm := gather_err (d :: l) msg m e h
    refine ⟨hm, ?_⟩
    unfold good.gather at h
    split at h
    · cases h
    · rename_i m1 e1 he
      simp only [Option.some.injEq, Prod.mk.injEq] at h
      rw [← h.2]
      exact enrich_err_kind msg m1 d e1 (hreg d (List.mem_cons_self _ _)) he
    · exact (ih _ m e (fun d2 hd2 => hreg d2 (List.mem_cons_of_mem _ hd2)) h).2

/-! ### Independence of the arrival order -/

theorem perm_invariant {α : Type} (f : List good.Data → List α) (tok : Bytes)
    (hcons : ∀ d l, f (d :: l) = f [d] ++ f l)
    (htok : ∀ d, f [d] ≠ [] → dataToken d = some tok)
    {l1 l2 : List good.Data} (hp : l1.Perm l2) :
    (l1.filterMap dataToken).Nodup → f l1 = f l2 := by
  induction hp with
  | nil => intro _; rfl
  | @cons x la lb _ ih =>
    intro hnd
    have hnd2 : (List.filterMap dataToken la).Nodup :=
      List.Nodup.sublist (List.Sublist.filterMap dataToken (List.sublist_cons_self x la)) hnd
    rw [hcons x la, hcons x lb, ih hnd2]
  | swap x y l =>
    intro hnd
    rw [hcons y (x :: l), hcons x l, hcons x (y :: l), hcons y l, ← List.append_assoc,
      ← List.append_assoc]
    congr 1
    by_cases hx : f [x] = []
    · rw [hx]; simp
    · by_cases hy : f [y] = []
      · rw [hy]; simp
      · exfalso
        have tx := htok x hx
        have ty := htok y hy
        simp only [List.filterMap_cons, tx, ty] at hnd
        simp at hnd
  | trans h12 _ ih1 ih2 =>
    intro hnd
    rw [ih1 hnd]
    exact ih2 ((h12.filterMap dataToken).nodup_iff.1 hnd)

theorem simpleValues_token (tok : Bytes) (d : good.Data) (h : simpleValues tok [d] ≠ []) :
    dataToken d = some tok := by
  cases d with
  | nil => simp [simpleValues] at h
  | simple t =>
    by_cases ht : t.token = tok
    · simp [dataToken, ht]
    · simp [simpleValues, ht] at h
  | complex t => simp [simpleValues] at h

theorem complexRecords_token (tok : Bytes) (d : good.Data) (h : complexRecords tok [d] ≠ []) :
    dataToken d = some tok := by
  cases d with
  | nil => simp [complexRecords] at h
  | simple t => simp [complexRecords] at h
  | complex t =>
    by_cases ht : t.token = tok
    · simp [dataToken, ht]
    · simp [complexRecords, ht] at h

theorem aggregated_perm (msg : good.Message) {l1 l2 : List good.Data} (hp : l1.Perm l2)
    (hnd : (l1.filterMap dataToken).Nodup) : aggregated msg l1 = aggregated msg l2 := by
  have hs : ∀ tok, simpleValues tok l1 = simpleValues tok l2 := fun tok =>
    perm_invariant (simpleValues tok) tok (simpleValues_cons tok) (simpleValues_token tok) hp hnd
  have hc : ∀ tok, complexRecords tok l1 = complexRecords tok l2 := fun tok =>
    perm_invariant (complexRecords tok) tok (complexRecords_cons tok)
      (complexRecords_token tok) hp hnd
  simp only [aggregated, hs, hc]

/-- C10, as the code has it: `process` aggregates the per-line results in
the order the channel delivers them and restores no order.  For every
sequence of logical lines whose decoded fields carry pairwise distinct
tokens, a run that returns a Message without error makes every other run,
whatever its arrival order, return the same Message, and any two runs that
both return (neither panics) return the same Message and the same error. -/
theorem C10_arrival_order_amended (inp : List Bytes) (sent : List good.Data)
    (s1 s2 : List good.Data → List good.Data)
    (hmap : good.mapLines inp = some sent)
    (hdistinct : (sent.filterMap dataToken).Nodup)
    (h1 : good.IsSchedule s1) (h2 : good.IsSchedule s2) :
    (∀ m, good.processSched s1 inp = some (m, none) →
      good.processSched s2 inp = some (m, none)) ∧
    (∀ r1 r2, good.processSched s1 inp = some r1 → good.processSched s2 inp = some r2 →
      r1 = r2) := by
  have hp12 : (s1 sent).Perm (s2 sent) := (h1 sent).trans (h2 sent).symm
  have hnd1 : ((s1 sent).filterMap dataToken).Nodup :=
    (((h1 sent).filterMap dataToken).nodup_iff).2 hdistinct
  have hsucc : ∀ m, good.gather (s1 sent) good.zeroMessage = some (m, none) →
      good.gather (s2 sent) good.zeroMessage = some (m, none) := by
    intro m hm
    have hacc := gather_ok_accepted _ _ _ hm
    have hm1 := gather_ok_eq _ _ _ hm
    rw [gather_accept (s2 sent) good.zeroMessage
      (fun d hd => hacc d (hp12.mem_iff.2 hd)), hm1, aggregated_perm _ hp12 hnd1]
  have hsucc' : ∀ m, good.gather (s2 sent) good.zeroMessage = some (m, none) →
      good.gather (s1 sent) good.zeroMessage = some (m, none) := by
    intro m hm
    have hacc := gather_ok_accepted _ _ _ hm
    have hm1 := gather_ok_eq _ _ _ hm
    rw [gather_accept (s1 sent) good.zeroMessage
      (fun d hd => hacc d (hp12.mem_iff.1 hd)), hm1, aggregated_perm _ hp12 hnd1]
  have hreg := mapLines_registered inp sent hmap
  simp only [good.processSched, hmap]
  refine ⟨hsucc, ?_⟩
  intro r1 r2 hr1 hr2
  obtain ⟨m1, e1⟩ := r1
  obtain ⟨m2, e2⟩ := r2
  cases e1 with
  | none =>
    rw [hsucc m1 hr1] at hr2
    cases hr2
    rfl
  | some err1 =>
    cases e2 with
    | none =>
      rw [hsucc' m2 hr2] at hr1
      cases hr1
    | some err2 =>
      obtain ⟨hm1, he1⟩ := gather_err_kind _ _ _ _
        (fun d hd => hreg d ((h1 sent).mem_iff.1 hd)) hr1
      obtain ⟨hm2, he2⟩ := gather_err_kind _ _ _ _
        (fun d hd => hreg d ((h2 sent).mem_iff.1 hd)) hr2
      rw [hm1, he1, hm2, he2]

set_option maxRecDepth 100000 in
/-- C10 as amended, at the logical lines `-TITLE IFPL`, `-EETFIR A`,
`-ESTDATA -PTID P -FL F10`: delivered in reverse order they give the Message
of the run in line order. -/
theorem C10_arrival_order_amended_witness :
    good.processSched List.reverse
        ["-TITLE IFPL".toList, "-EETFIR A".toList, "-ESTDATA -PTID P -FL F10".toList]
      = some ({ good.zeroMessage with
          Title := "IFPL".toList, Eetfir := ["A".toList],
          Estdata := [⟨"P".toList, [], 10⟩] }, none) :=
  (C10_arrival_order_amended
    ["-TITLE IFPL".toList, "-EETFIR A".toList, "-ESTDATA -PTID P -FL F10".toList]
    [good.Data.simple ⟨good.tokenTitle, "IFPL".toList⟩,
     good.Data.simple ⟨good.tokenEetfir, "A".toList⟩,
     good.Data.complex ⟨good.tokenEstdata,
       [[("PTID".toList, "P".toList), ("FL".toList, "F10".toList)]]⟩]
    (fun sent => sent) List.reverse (by rfl) (by decide)
    (fun sent => List.Perm.refl sent) (fun sent => List.reverse_perm sent)).1 _ (by rfl)

/-! ### Trimming and splitting -/

theorem dropWhile_space_cons (d : Char) (s : Bytes) (hd : d ≠ chSpace) :
    (d :: s).dropWhile (· = chSpace) = d :: s := by
  simp [List.dropWhile, hd]

theorem bytesTrim_keep (d c : Char) (a : Bytes) (hd : d ≠ chSpace) (hc : c ≠ chSpace) :
    bytesTrim (d :: a ++ [c]) = d :: a ++ [c] := by
  unfold bytesTrim
  rw [List.cons_append, dropWhile_space_cons d _ hd, ← List.cons_append, List.reverse_append,
    List.reverse_singleton, List.singleton_append, dropWhile_space_cons c _ hc]
  simp

theorem bytesTrim_drop (d c : Char) (a : Bytes) (hd : d ≠ chSpace) (hc : c ≠ chSpace) :
    bytesTrim (d :: a ++ [c, chSpace]) = d :: a ++ [c] := by
  unfold bytesTrim
  rw [List.cons_append, dropWhile_space_cons d _ hd, ← List.cons_append, List.reverse_append]
  have h1 : ([c, chSpace] : Bytes).reverse = chSpace :: [c] := rfl
  rw [h1, List.cons_append]
  have h2 : (chSpace :: ([c] ++ (d :: a).reverse)).dropWhile (· = chSpace)
      = ([c] ++ (d :: a).reverse).dropWhile (· = chSpace) := by
    simp [List.dropWhile]
  rw [h2, List.singleton_append, dropWhile_space_cons c _ hc]
  simp

theorem bytesTrim_single (d : Char) (hd : d ≠ chSpace) : bytesTrim [d] = [d] := by
  simp [bytesTrim, List.dropWhile, hd]

theorem bytesTrim_nil : bytesTrim [] = [] := rfl

theorem bytesTrim_plain (v : Bytes) (h : chSpace ∉ v) : bytesTrim v = v := by
  rcases List.eq_nil_or_concat v with hv | ⟨a, c, hv⟩
  · rw [hv]; rfl
  · rw [List.concat_eq_append] at hv
    subst hv
    have hc : c ≠ chSpace := fun e => h (by simp [e])
    cases a with
    | nil => exact bytesTrim_single c hc
    | cons d a =>
      have hd : d ≠ chSpace := fun e => h (by simp [e])
      exact bytesTrim_keep d c a hd hc

theorem bytesTrim_plain_space (v : Bytes) (h : chSpace ∉ v) :
    bytesTrim (v ++ [chSpace]) = v := by
  rcases List.eq_nil_or_concat v with hv | ⟨a, c, hv⟩
  · rw [hv]; rfl
  · rw [List.concat_eq_append] at hv
    subst hv
    have hc : c ≠ chSpace := fun e => h (by simp [e])
    cases a with
    | nil =>
      simp [bytesTrim, List.dropWhile, hc]
    | cons d a =>
      have hd : d ≠ chSpace := fun e => h (by simp [e])
      have := bytesTrim_drop d c a hd hc
      simpa using this

theorem bytesSplitLoop_plain (s : Bytes) (h : chNewline ∉ s) :
    ∀ cur, bytesSplitLoop s cur = [cur ++ s] := by
  induction s with
  | nil => intro cur; simp [bytesSplitLoop]
  | cons c s ih =>
    intro cur
    have hc : c ≠ chNewline := fun e => h (by simp [e])
    have hs : chNewline ∉ s := fun e => h (by simp [e])
    simp only [bytesSplitLoop, if_neg hc, ih hs]
    simp

/-! ### The scan of a run of subfields -/

theorem takeWhile_notDash (body rest : Bytes) (h : chDash ∉ body)
    (hrest : rest = [] ∨ ∃ t, rest = chDash :: t) :
    (body ++ rest).takeWhile (fun x => decide (x ≠ chDash)) = body ∧
    (body ++ rest).dropWhile (fun x => decide (x ≠ chDash)) = rest := by
  induction body with
  | nil =>
    rcases hrest with hr | ⟨t, hr⟩
    · subst hr; exact ⟨rfl, rfl⟩
    · subst hr; simp [List.takeWhile, List.dropWhile]
  | cons c body ih =>
    have hc : c ≠ chDash := fun e => h (by simp [e])
    have hb : chDash ∉ body := fun e => h (by simp [e])
    obtain ⟨h1, h2⟩ := ih hb
    have hp : (fun x => decide (x ≠ chDash)) c = true := by simpa using hc
    constructor
    · rw [List.cons_append,
        List.takeWhile_cons_of_pos (p := fun x => decide (x ≠ chDash)) (a := c) hp, h1]
    · rw [List.cons_append,
        List.dropWhile_cons_of_pos (p := fun x => decide (x ≠ chDash)) (a := c) hp, h2]

theorem regexpFind_chunk (d : Char) (body rest : Bytes) (hd : d ≠ chNewline)
    (hb : chDash ∉ body) (hrest : rest = [] ∨ ∃ t, rest = chDash :: t) :
    regexpFind (chDash :: d :: body ++ rest) = some (chDash :: d :: body, rest) := by
  obtain ⟨h1, h2⟩ := takeWhile_notDash body rest hb hrest
  show regexpFind (chDash :: d :: (body ++ rest)) = some (chDash :: d :: body, rest)
  unfold regexpFind
  rw [if_pos rfl]
  show (if d ≠ chNewline then _ else _) = _
  rw [if_pos hd, h1, h2]

theorem flatten_chunks_head (cs : List Bytes)
    (h : ∀ c ∈ cs, ∃ d body, c = chDash :: d :: body ∧ d ≠ chNewline ∧ chDash ∉ body) :
    cs.flatten = [] ∨ ∃ t, cs.flatten = chDash :: t := by
  cases cs with
  | nil => exact Or.inl rfl
  | cons c cs =>
    obtain ⟨d, body, hc, _, _⟩ := h c (List.mem_cons_self _ _)
    exact Or.inr ⟨d :: body ++ cs.flatten, by simp [hc]⟩

theorem regexpFindAll_chunks (cs : List Bytes)
    (h : ∀ c ∈ cs, ∃ d body, c = chDash :: d :: body ∧ d ≠ chNewline ∧ chDash ∉ body) :
    regexpFindAll cs.flatten = cs := by
  induction cs with
  | nil => rfl
  | cons c cs ih =>
    have htl : ∀ c2 ∈ cs, ∃ d body, c2 = chDash :: d :: body ∧ d ≠ chNewline ∧ chDash ∉ body :=
      fun c2 hc2 => h c2 (List.mem_cons_of_mem _ hc2)
    obtain ⟨d, body, hc, hd, hb⟩ := h c (List.mem_cons_self _ _)
    have hf := regexpFind_chunk d body cs.flatten hd hb (flatten_chunks_head cs htl)
    rw [List.flatten_cons, hc, regexpFindAll_some _ _ _ hf, ih htl]

/-! ### The subfields of a rendered value -/

theorem plainValue_mem (v : Bytes) (h : plainValue v = true) :
    chSpace ∉ v ∧ chDash ∉ v ∧ chNewline ∉ v := by
  unfold plainValue at h
  rw [List.all_eq_true] at h
  refine ⟨fun hm => ?_, fun hm => ?_, fun hm => ?_⟩
  · have := h _ hm; simp at this
  · have := h _ hm; simp at this
  · have := h _ hm; simp at this

theorem plainKey_cons (k : Bytes) (h : plainKey k = true) :
    ∃ d k2, k = d :: k2 ∧ d ≠ chNewline ∧ d ≠ chSpace ∧ d ≠ chDash ∧ plainValue k2 = true := by
  unfold plainKey at h
  simp only [Bool.and_eq_true] at h
  cases k with
  | nil => simp at h
  | cons d k2 =>
    obtain ⟨h1, h2, h3⟩ := plainValue_mem _ h.2
    refine ⟨d, k2, rfl, fun e => h3 (by simp [e]), fun e => h1 (by simp [e]),
      fun e => h2 (by simp [e]), ?_⟩
    have := h.2
    unfold plainValue at this ⊢
    simp only [List.all_cons, Bool.and_eq_true] at this
    exact this.2

theorem renderValue_concat (init : List (Bytes × Bytes)) (e : Bytes × Bytes) :
    renderValue (init ++ [e])
      = (init.map (fun x => renderSubfield x ++ [chSpace])).flatten ++ renderSubfield e := by
  induction init with
  | nil => simp [renderValue]
  | cons x init ih =>
    have hne : ∃ y ys, init ++ [e] = y :: ys := by
      cases init with
      | nil => exact ⟨e, [], rfl⟩
      | cons y ys => exact ⟨y, ys ++ [e], rfl⟩
    obtain ⟨y, ys, hy⟩ := hne
    have hstep : renderValue (x :: (init ++ [e]))
        = renderSubfield x ++ chSpace :: renderValue (init ++ [e]) := by
      rw [hy]; rfl
    rw [List.cons_append, hstep, ih]
    simp

theorem subfieldOf_chunk (k v : Bytes) (hk : plainKey k = true) (hv : plainValue v = true) :
    subfieldOf (renderSubfield (k, v) ++ [chSpace]) = (k, v) := by
  have hks : chSpace ∉ k := by
    unfold plainKey at hk
    simp only [Bool.and_eq_true] at hk
    exact (plainValue_mem k hk.2).1
  have hvs := (plainValue_mem v hv).1
  have hp := parseLine_space chDash (by decide) k (v ++ [chSpace]) hks
  have hform : renderSubfield (k, v) ++ [chSpace] = chDash :: k ++ chSpace :: (v ++ [chSpace]) := by
    simp [renderSubfield]
  rw [hform]
  simp only [subfieldOf, hp, Option.getD_some, bytesTrim_plain_space v hvs]

theorem subfieldOf_last (k v : Bytes) (hk : plainKey k = true) (hv : plainValue v = true) :
    subfieldOf (renderLast (k, v)) = (k, v) := by
  have hks : chSpace ∉ k := by
    unfold plainKey at hk
    simp only [Bool.and_eq_true] at hk
    exact (plainValue_mem k hk.2).1
  have hvs := (plainValue_mem v hv).1
  by_cases hnil : v = []
  · subst hnil
    have hp := parseLine_nospace chDash k (by
      intro hm
      rcases List.mem_cons.1 hm with e | e
      · exact absurd e (by decide)
      · exact hks e)
    simp only [renderLast, if_true, subfieldOf, hp, Option.getD_some, Option.getD_none,
      bytesTrim_nil]
  · have hp := parseLine_space chDash (by decide) k v hks
    have hform : renderLast (k, v) = chDash :: k ++ chSpace :: v := by
      simp [renderLast, hnil, renderSubfield]
    rw [hform]
    simp only [subfieldOf, hp, Option.getD_some, bytesTrim_plain v hvs]

theorem chunk_shape (k v pad : Bytes) (hk : plainKey k = true) (hv : plainValue v = true)
    (hpad : chDash ∉ pad) :
    ∃ d body, chDash :: k ++ chSpace :: v ++ pad = chDash :: d :: body ∧ d ≠ chNewline ∧
      chDash ∉ body := by
  obtain ⟨d, k2, hk2, hd, _, _, hk2p⟩ := plainKey_cons k hk
  refine ⟨d, k2 ++ chSpace :: v ++ pad, by simp [hk2], hd, ?_⟩
  have h1 := (plainValue_mem k2 hk2p).2.1
  have h2 := (plainValue_mem v hv).2.1
  intro hm
  rw [List.mem_append, List.mem_append, List.mem_cons] at hm
  rcases hm with (hm | hm | hm) | hm
  · exact h1 hm
  · exact absurd hm (by decide)
  · exact h2 hm
  · exact hpad hm

theorem last_shape (k v : Bytes) (hk : plainKey k = true) (hv : plainValue v = true) :
    ∃ d body, renderLast (k, v) = chDash :: d :: body ∧ d ≠ chNewline ∧ chDash ∉ body := by
  by_cases hnil : v = []
  · obtain ⟨d, k2, hk2, hd, _, _, hk2p⟩ := plainKey_cons k hk
    refine ⟨d, k2, by simp [renderLast, hnil, hk2], hd, (plainValue_mem k2 hk2p).2.1⟩
  · obtain ⟨d, body, h1, h2, h3⟩ := chunk_shape k v [] hk hv (by simp)
    refine ⟨d, body, ?_, h2, h3⟩
    rw [← h1]
    simp [renderLast, hnil, renderSubfield]

theorem subfields_rendered (init : List (Bytes × Bytes)) (e : Bytes × Bytes)
    (h : ∀ x ∈ init ++ [e], plainKey x.1 = true ∧ plainValue x.2 = true) :
    subfields ((init.map (fun x => renderSubfield x ++ [chSpace])).flatten ++ renderLast e)
      = init ++ [e] := by
  have hflat : (init.map (fun x => renderSubfield x ++ [chSpace])).flatten ++ renderLast e
      = (init.map (fun x => renderSubfield x ++ [chSpace]) ++ [renderLast e]).flatten := by
    simp
  have hshape : ∀ c ∈ init.map (fun x => renderSubfield x ++ [chSpace]) ++ [renderLast e],
      ∃ d body, c = chDash :: d :: body ∧ d ≠ chNewline ∧ chDash ∉ body := by
    intro c hc
    rcases List.mem_append.1 hc with hc | hc
    · obtain ⟨x, hx, hcx⟩ := List.mem_map.1 hc
      obtain ⟨hk, hv⟩ := h x (List.mem_append_left _ hx)
      obtain ⟨d, body, h1, h2, h3⟩ := chunk_shape x.1 x.2 [chSpace] hk hv (by decide)
      refine ⟨d, body, ?_, h2, h3⟩
      rw [← h1, ← hcx]
      simp [renderSubfield]
    · rw [List.mem_singleton] at hc
      obtain ⟨hk, hv⟩ := h e (by simp)
      rw [hc]
      exact last_shape e.1 e.2 hk hv
  rw [hflat]
  unfold subfields
  rw [regexpFindAll_chunks _ hshape, List.map_append, List.map_map, List.map_singleton]
  have hlast : subfieldOf (renderLast e) = e := by
    obtain ⟨hk, hv⟩ := h e (by simp)
    exact subfieldOf_last e.1 e.2 hk hv
  rw [hlast]
  congr 1
  have hmap : ∀ x ∈ init, (subfieldOf ∘ fun x => renderSubfield x ++ [chSpace]) x = x := by
    intro x hx
    obtain ⟨hk, hv⟩ := h x (List.mem_append_left _ hx)
    exact subfieldOf_chunk x.1 x.2 hk hv
  rw [List.map_congr_left hmap]
  simp

/-! ### A field line through `preprocess` and `mapLine` -/

theorem bytesTrim_field (token : Bytes) (init : List (Bytes × Bytes)) (e : Bytes × Bytes)
    (hk : plainKey e.1 = true) (hv : plainValue e.2 = true) :
    bytesTrim (renderField token (init ++ [e]))
      = chDash :: token ++ chSpace ::
          ((init.map (fun x => renderSubfield x ++ [chSpace])).flatten ++ renderLast e) := by
  obtain ⟨k, v⟩ := e
  have hks : chSpace ∉ k := by
    unfold plainKey at hk
    simp only [Bool.and_eq_true] at hk
    exact (plainValue_mem k hk.2).1
  have hvs := (plainValue_mem v hv).1
  unfold renderField
  rw [renderValue_concat]
  generalize (init.map (fun x => renderSubfield x ++ [chSpace])).flatten = F
  by_cases hnil : v = []
  · subst hnil
    obtain ⟨d, k2, hk2, _, _, _, _⟩ := plainKey_cons k hk
    rcases List.eq_nil_or_concat k with hkn | ⟨kx, c, hkc⟩
    · rw [hkn] at hk2; cases hk2
    · rw [List.concat_eq_append] at hkc
      have hc : c ≠ chSpace := fun e => hks (by simp [hkc, e])
      have h1 : chDash :: token ++ chSpace :: (F ++ renderSubfield (k, []))
          = chDash :: (token ++ chSpace :: (F ++ chDash :: kx)) ++ [c, chSpace] := by
        simp [renderSubfield, hkc]
      have h2 : chDash :: token ++ chSpace :: (F ++ renderLast (k, []))
          = chDash :: (token ++ chSpace :: (F ++ chDash :: kx)) ++ [c] := by
        simp [renderLast, hkc]
      rw [h1, h2]
      exact bytesTrim_drop chDash c _ (by decide) hc
  · rcases List.eq_nil_or_concat v with hvn | ⟨x, c, hvc⟩
    · exact absurd hvn hnil
    · rw [List.concat_eq_append] at hvc
      have hc : c ≠ chSpace := fun e => hvs (by simp [hvc, e])
      have h1 : chDash :: token ++ chSpace :: (F ++ renderSubfield (k, v))
          = chDash :: (token ++ chSpace :: (F ++ chDash :: k ++ chSpace :: x)) ++ [c] := by
        simp [renderSubfield, hvc]
      have h2 : chDash :: token ++ chSpace :: (F ++ renderLast (k, v))
          = chDash :: (token ++ chSpace :: (F ++ chDash :: k ++ chSpace :: x)) ++ [c] := by
        simp [renderLast, hnil, renderSubfield, hvc]
      rw [h1, h2]
      exact bytesTrim_keep chDash c _ (by decide) hc

theorem preprocess_single (line trimmed : Bytes) (hnl : chNewline ∉ line)
    (hend : good.startWith line good.bytesEnd = false)
    (hbegin : good.startWith line good.bytesBegin = false)
    (hdash : good.startWith line good.bytesDash = true)
    (htrim : bytesTrim line = trimmed) (hlen : trimmed.length > 0) :
    good.preprocess line = some ([[], trimmed], none) := by
  have hne : ¬ line.length = 0 := by
    intro h0
    have : line = [] := List.length_eq_zero.1 h0
    rw [this] at hdash
    exact absurd hdash (by decide)
  have hsplit : bytesSplit line = [line] := by
    unfold bytesSplit
    rw [bytesSplitLoop_plain line hnl []]
    rfl
  have hstep : good.preprocessStep ([], []) line = some ([[]], trimmed) := by
    unfold good.preprocessStep
    rw [hend, hbegin, hdash, htrim]
    rfl
  unfold good.preprocess
  rw [if_neg hne, hsplit]
  simp only [good.preprocessLoop, hstep, Option.bind_some, Option.map_some', if_pos hlen]
  rfl

theorem mapLine_complex (token val : Bytes) (hs : chSpace ∉ token)
    (hf : good.factory token = some good.parseComplexToken) :
    good.mapLine (chDash :: token ++ chSpace :: val)
      = some (good.Data.complex
          ⟨token, (groupLoop (subfields val) [] []).1 ++ [(groupLoop (subfields val) [] []).2]⟩) := by
  have hp := parseLine_space chDash (by decide) token val hs
  have h1 : ¬ ((chDash :: token ++ chSpace :: val).length = 0 ∨
      good.startWith (chDash :: token ++ chSpace :: val) good.bytesComment = true) := by
    rintro (h | h)
    · simp at h
    · cases token with
      | nil =>
        simp [good.startWith, good.startWithLoop, good.bytesComment] at h
        exact absurd h.1 (by decide)
      | cons t ts =>
        simp [good.startWith, good.startWithLoop, good.bytesComment] at h
        exact absurd h.1 (by decide)
  unfold good.mapLine
  rw [if_neg h1, hp]
  simp only [hf]
  exact parseComplexToken_eq token val

/-! ### Records whose subfields carry the same keys -/

theorem groupLoop_fresh (t : List (Bytes × Bytes)) :
    ∀ (cur : GoMap) (v : List GoMap) (rest : List (Bytes × Bytes)),
      ((cur ++ t).map Prod.fst).Nodup →
      groupLoop (t ++ rest) v cur = groupLoop rest v (cur ++ t) := by
  induction t with
  | nil => intro cur v rest _; simp
  | cons e t ih =>
    intro cur v rest hnd
    obtain ⟨k, x⟩ := e
    have hnot : k ∉ cur.map Prod.fst := by
      intro hm
      rw [List.map_append, List.nodup_append] at hnd
      exact hnd.2.2 hm (by simp)
    have hc : ¬ mapContains cur k = true := fun h => hnot ((mapContains_iff cur k).1 h)
    have hnd2 : (((cur ++ [(k, x)]) ++ t).map Prod.fst).Nodup := by
      simpa using hnd
    rw [List.cons_append]
    simp only [groupLoop, if_neg hc]
    rw [mapSet_absent cur k x hnot, ih _ v rest hnd2]
    simp

theorem groupLoop_records (K : List Bytes) (texts : List (List (Bytes × Bytes))) :
    ∀ (v : List GoMap) (cur : GoMap), (∀ k ∈ K, k ∈ cur.map Prod.fst) →
      (∀ t ∈ texts, t ≠ [] ∧ (t.map Prod.fst).Nodup ∧ (∀ k ∈ t.map Prod.fst, k ∈ K) ∧
        (∀ k ∈ K, k ∈ t.map Prod.fst)) →
      (groupLoop texts.flatten v cur).1 ++ [(groupLoop texts.flatten v cur).2]
        = v ++ cur :: texts := by
  induction texts with
  | nil => intro v cur _ _; rfl
  | cons t texts ih =>
    intro v cur hcur htexts
    obtain ⟨hne, hnd, hsub, hsup⟩ := htexts t (List.mem_cons_self _ _)
    cases t with
    | nil => exact absurd rfl hne
    | cons e t =>
      obtain ⟨k, x⟩ := e
      have hk : k ∈ cur.map Prod.fst := hcur k (hsub k (by simp))
      have hc : mapContains cur k = true := (mapContains_iff cur k).2 hk
      have hstep : groupLoop (((k, x) :: t) :: texts).flatten v cur
          = groupLoop (t ++ texts.flatten) (v ++ [cur]) [(k, x)] := by
        rw [List.flatten_cons, List.cons_append]
        simp only [groupLoop, hc, if_true]
        rfl
      rw [hstep, groupLoop_fresh t [(k, x)] (v ++ [cur]) texts.flatten (by simpa using hnd)]
      have := ih (v ++ [cur]) ([(k, x)] ++ t) (by simpa using hsup)
        (fun t2 ht2 => htexts t2 (List.mem_cons_of_mem _ ht2))
      rw [this]
      simp

theorem groupLoop_texts (K : List Bytes) (t : List (Bytes × Bytes))
    (texts : List (List (Bytes × Bytes)))
    (htexts : ∀ t2 ∈ t :: texts, t2 ≠ [] ∧ (t2.map Prod.fst).Nodup ∧
      (∀ k ∈ t2.map Prod.fst, k ∈ K) ∧ (∀ k ∈ K, k ∈ t2.map Prod.fst)) :
    (groupLoop (t :: texts).flatten [] []).1 ++ [(groupLoop (t :: texts).flatten [] []).2]
      = t :: texts := by
  obtain ⟨_, hnd, _, hsup⟩ := htexts t (List.mem_cons_self _ _)
  rw [List.flatten_cons, groupLoop_fresh t [] [] texts.flatten (by simpa using hnd)]
  have := groupLoop_records K texts [] ([] ++ t) (by simpa using hsup)
    (fun t2 ht2 => htexts t2 (List.mem_cons_of_mem _ ht2))
  rw [this]
  simp

theorem mapGet_mem (t : GoMap) (k x : Bytes) (hnd : (t.map Prod.fst).Nodup)
    (hm : (k, x) ∈ t) : mapGet t k = x := by
  induction t with
  | nil => simp at hm
  | cons e t ih =>
    obtain ⟨k1, x1⟩ := e
    simp only [List.map_cons, List.nodup_cons] at hnd
    rcases List.mem_cons.1 hm with h | h
    · simp only [Prod.mk.injEq] at h
      simp only [mapGet, h.1, if_true, h.2]
    · have hne : ¬ k1 = k := by
        intro e
        apply hnd.1
        rw [e]
        exact List.mem_map.2 ⟨(k, x), h, rfl⟩
      simp only [mapGet, if_neg hne]
      exact ih hnd.2 h

/-! ### An ESTDATA or RTEPTS field of well-formed records -/

theorem plainValue_of_forall (v : Bytes)
    (h : ∀ c ∈ v, c ≠ chSpace ∧ c ≠ chDash ∧ c ≠ chNewline) : plainValue v = true := by
  unfold plainValue
  rw [List.all_eq_true]
  intro c hc
  simpa using h c hc

theorem letter_plain (c : Char) (h : isLetterByte c = true) :
    c ≠ chSpace ∧ c ≠ chDash ∧ c ≠ chNewline := by
  refine ⟨fun e => ?_, fun e => ?_, fun e => ?_⟩ <;>
  · rw [e] at h
    exact absurd h (by decide)

theorem digit_plain (c : Char) (h : isDigitByte c = true) :
    c ≠ chSpace ∧ c ≠ chDash ∧ c ≠ chNewline := by
  refine ⟨fun e => ?_, fun e => ?_, fun e => ?_⟩ <;>
  · rw [e] at h
    exact absurd h (by decide)

theorem record_facts (r : FlightRecord) (t : List (Bytes × Bytes))
    (hp : t.Perm r.canonical) (hwf : r.wellFormed = true)
    (hrange : decimalValue r.digits < strconv.cutoff) :
    (t ≠ [] ∧ (t.map Prod.fst).Nodup ∧
      (∀ k ∈ t.map Prod.fst, k ∈ [good.subtokenPtid, good.subtokenEto, good.subtokenFl]) ∧
      (∀ k ∈ [good.subtokenPtid, good.subtokenEto, good.subtokenFl], k ∈ t.map Prod.fst)) ∧
    (∀ e ∈ t, plainKey e.1 = true ∧ plainValue e.2 = true) ∧
    acceptedFlightLevel t = true ∧
    estdataOf t = ⟨r.ptid, r.eto, (decimalValue r.digits : Int)⟩ ∧
    rteptsOf t = ⟨r.ptid, (decimalValue r.digits : Int), r.eto⟩ := by
  simp only [FlightRecord.wellFormed, Bool.and_eq_true] at hwf
  obtain ⟨⟨⟨⟨hptid, heto⟩, hletter⟩, hne⟩, hdigits⟩ := hwf
  have hkeys : (t.map Prod.fst).Perm [good.subtokenPtid, good.subtokenEto, good.subtokenFl] :=
    hp.map Prod.fst
  have hnd : (t.map Prod.fst).Nodup := hkeys.nodup_iff.2 (by decide)
  have hfl : plainValue (r.letter :: r.digits) = true := by
    apply plainValue_of_forall
    intro c hc
    rcases List.mem_cons.1 hc with e | e
    · rw [e]; exact letter_plain _ hletter
    · exact digit_plain c ((List.all_eq_true.1 hdigits) c e)
  have hg1 : mapGet t good.subtokenPtid = r.ptid :=
    mapGet_mem t _ _ hnd (hp.mem_iff.2 (by simp [FlightRecord.canonical]))
  have hg2 : mapGet t good.subtokenEto = r.eto :=
    mapGet_mem t _ _ hnd (hp.mem_iff.2 (by simp [FlightRecord.canonical]))
  have hg3 : mapGet t good.subtokenFl = r.letter :: r.digits :=
    mapGet_mem t _ _ hnd (hp.mem_iff.2 (by simp [FlightRecord.canonical]))
  obtain ⟨hform, hval⟩ :=
    signedDecimalForm_of_digits r.digits (isEmpty_false_ne _ hne) hdigits hrange
  have hext : good.extractFlightLevel (mapGet t good.subtokenFl)
      = some ((decimalValue r.digits : Int), none) := by
    rw [hg3, extractFlightLevel_accepts r.letter r.digits hform, hval]
  have hlev : flightLevelOf t = (decimalValue r.digits : Int) := by
    simp only [flightLevelOf, hext]
  refine ⟨⟨?_, hnd, fun k hk => hkeys.mem_iff.1 hk, fun k hk => hkeys.mem_iff.2 hk⟩, ?_, ?_,
    ?_, ?_⟩
  · intro e
    rw [e] at hp
    have := hp.length_eq
    simp [FlightRecord.canonical] at this
  · intro e he
    have hmem := hp.mem_iff.1 he
    simp only [FlightRecord.canonical, List.mem_cons, List.mem_singleton, List.not_mem_nil,
      or_false] at hmem
    rcases hmem with h | h | h
    · rw [h]; exact ⟨(by decide : plainKey good.subtokenPtid = true), hptid⟩
    · rw [h]; exact ⟨(by decide : plainKey good.subtokenEto = true), heto⟩
    · rw [h]; exact ⟨(by decide : plainKey good.subtokenFl = true), hfl⟩
  · simp only [acceptedFlightLevel, hext]
  · simp only [estdataOf, hg1, hg2, hlev]
  · simp only [rteptsOf, hg1, hg2, hlev]

theorem renderValue_mem (sfs : List (Bytes × Bytes)) (c : Char) :
    c ∈ renderValue sfs → c = chDash ∨ c = chSpace ∨ ∃ e ∈ sfs, c ∈ e.1 ∨ c ∈ e.2 := by
  induction sfs with
  | nil => intro h; simp [renderValue] at h
  | cons e es ih =>
    intro h
    have hsub : c ∈ renderSubfield e → c = chDash ∨ c = chSpace ∨
        ∃ e2 ∈ e :: es, c ∈ e2.1 ∨ c ∈ e2.2 := by
      intro hm
      unfold renderSubfield at hm
      rw [List.mem_append, List.mem_cons, List.mem_cons] at hm
      rcases hm with (hm | hm) | hm | hm
      · exact Or.inl hm
      · exact Or.inr (Or.inr ⟨e, List.mem_cons_self _ _, Or.inl hm⟩)
      · exact Or.inr (Or.inl hm)
      · exact Or.inr (Or.inr ⟨e, List.mem_cons_self _ _, Or.inr hm⟩)
    cases es with
    | nil => exact hsub h
    | cons y ys =>
      have hstep : renderValue (e :: y :: ys)
          = renderSubfield e ++ chSpace :: renderValue (y :: ys) := rfl
      rw [hstep, List.mem_append, List.mem_cons] at h
      rcases h with h | h | h
      · exact hsub h
      · exact Or.inr (Or.inl h)
      · rcases ih h with h2 | h2 | ⟨e2, he2, h2⟩
        · exact Or.inl h2
        · exact Or.inr (Or.inl h2)
        · exact Or.inr (Or.inr ⟨e2, List.mem_cons_of_mem _ he2, h2⟩)

theorem records_facts (recs : List FlightRecord) (texts : List (List (Bytes × Bytes)))
    (hrel : List.Forall₂ (fun r t => t.Perm r.canonical) recs texts)
    (hwf : ∀ r ∈ recs, r.wellFormed = true)
    (hrange : ∀ r ∈ recs, decimalValue r.digits < strconv.cutoff) :
    (∀ t ∈ texts, t ≠ [] ∧ (t.map Prod.fst).Nodup ∧
      (∀ k ∈ t.map Prod.fst, k ∈ [good.subtokenPtid, good.subtokenEto, good.subtokenFl]) ∧
      (∀ k ∈ [good.subtokenPtid, good.subtokenEto, good.subtokenFl], k ∈ t.map Prod.fst)) ∧
    (∀ t ∈ texts, ∀ e ∈ t, plainKey e.1 = true ∧ plainValue e.2 = true) ∧
    (∀ t ∈ texts, acceptedFlightLevel t = true) ∧
    texts.map estdataOf = recs.map (fun r => ⟨r.ptid, r.eto, (decimalValue r.digits : Int)⟩) ∧
    texts.map rteptsOf = recs.map (fun r => ⟨r.ptid, (decimalValue r.digits : Int), r.eto⟩) := by
  induction hrel with
  | nil => simp
  | @cons r t recs texts hp _ ih =>
    obtain ⟨i1, i2, i3, i4, i5⟩ := ih (fun r2 h2 => hwf r2 (List.mem_cons_of_mem _ h2))
      (fun r2 h2 => hrange r2 (List.mem_cons_of_mem _ h2))
    obtain ⟨f1, f2, f3, f4, f5⟩ := record_facts r t hp (hwf r (List.mem_cons_self _ _))
      (hrange r (List.mem_cons_self _ _))
    refine ⟨?_, ?_, ?_, ?_, ?_⟩
    · intro t2 ht2
      rcases List.mem_cons.1 ht2 with e | e
      · rw [e]; exact f1
      · exact i1 t2 e
    · intro t2 ht2
      rcases List.mem_cons.1 ht2 with e | e
      · rw [e]; exact f2
      · exact i2 t2 e
    · intro t2 ht2
      rcases List.mem_cons.1 ht2 with e | e
      · rw [e]; exact f3
      · exact i3 t2 e
    · rw [List.map_cons, List.map_cons, f4, i4]
    · rw [List.map_cons, List.map_cons, f5, i5]

theorem field_decodes (token : Bytes)
    (htok : token = good.tokenEstdata ∨ token = good.tokenRtepts)
    (t : List (Bytes × Bytes)) (texts : List (List (Bytes × Bytes)))
    (hfacts : ∀ t2 ∈ t :: texts, t2 ≠ [] ∧ (t2.map Prod.fst).Nodup ∧
      (∀ k ∈ t2.map Prod.fst, k ∈ [good.subtokenPtid, good.subtokenEto, good.subtokenFl]) ∧
      (∀ k ∈ [good.subtokenPtid, good.subtokenEto, good.subtokenFl], k ∈ t2.map Prod.fst))
    (hplain : ∀ t2 ∈ t :: texts, ∀ e ∈ t2, plainKey e.1 = true ∧ plainValue e.2 = true)
    (hacc : ∀ t2 ∈ t :: texts, acceptedFlightLevel t2 = true) :
    good.ParseAdexpMessage (renderField token (t :: texts).flatten)
      = some (aggregated good.zeroMessage
          [good.Data.nil, good.Data.complex ⟨token, t :: texts⟩], none) := by
  have hplain2 : ∀ e ∈ (t :: texts).flatten, plainKey e.1 = true ∧ plainValue e.2 = true := by
    intro e he
    obtain ⟨t2, ht2, het2⟩ := List.mem_flatten.1 he
    exact hplain t2 ht2 e het2
  have hne : (t :: texts).flatten ≠ [] := by
    have := (hfacts t (List.mem_cons_self _ _)).1
    intro h
    rw [List.flatten_cons, List.append_eq_nil] at h
    exact this h.1
  rcases List.eq_nil_or_concat (t :: texts).flatten with hnil | ⟨init, e, hsfs⟩
  · exact absurd hnil hne
  rw [List.concat_eq_append] at hsfs
  have hplain3 : ∀ x ∈ init ++ [e], plainKey x.1 = true ∧ plainValue x.2 = true := by
    rw [← hsfs]; exact hplain2
  obtain ⟨hek, hev⟩ := hplain3 e (by simp)
  have htoks : chSpace ∉ token ∧ chNewline ∉ token ∧
      good.factory token = some good.parseComplexToken := by
    rcases htok with h | h <;> subst h <;> exact ⟨by decide, by decide, by rfl⟩
  obtain ⟨hts, htn, hfac⟩ := htoks
  have hnl : chNewline ∉ renderField token (t :: texts).flatten := by
    intro hm
    unfold renderField at hm
    rw [List.mem_append, List.mem_cons, List.mem_cons] at hm
    rcases hm with (hm | hm) | hm | hm
    · exact absurd hm (by decide)
    · exact htn hm
    · exact absurd hm (by decide)
    · rcases renderValue_mem _ _ hm with h | h | ⟨x, hx, h⟩
      · exact absurd h (by decide)
      · exact absurd h (by decide)
      · obtain ⟨hk, hv⟩ := hplain2 x hx
        unfold plainKey at hk
        simp only [Bool.and_eq_true] at hk
        rcases h with h | h
        · exact (plainValue_mem _ hk.2).2.2 h
        · exact (plainValue_mem _ hv).2.2 h
  have hstart : good.startWith (renderField token (t :: texts).flatten) good.bytesEnd = false ∧
      good.startWith (renderField token (t :: texts).flatten) good.bytesBegin = false ∧
      good.startWith (renderField token (t :: texts).flatten) good.bytesDash = true := by
    rcases htok with h | h <;> subst h <;>
      simp [renderField, good.startWith, good.startWithLoop, good.bytesEnd, good.bytesBegin,
        good.bytesDash, good.tokenEstdata, good.tokenRtepts]
    all_goals rfl
  obtain ⟨hend, hbegin, hdash⟩ := hstart
  have htrim := bytesTrim_field token init e hek hev
  rw [← hsfs] at htrim
  have hpre := preprocess_single _ _ hnl hend hbegin hdash htrim (by simp)
  have hsub := subfields_rendered init e hplain3
  have hgroup := groupLoop_texts [good.subtokenPtid, good.subtokenEto, good.subtokenFl] t texts
    hfacts
  have hmap := mapLine_complex token
    ((init.map (fun x => renderSubfield x ++ [chSpace])).flatten ++ renderLast e) hts hfac
  rw [hsub, ← hsfs, hgroup] at hmap
  have hlines : good.mapLines [[], chDash :: token ++ chSpace ::
      ((init.map (fun x => renderSubfield x ++ [chSpace])).flatten ++ renderLast e)]
      = some [good.Data.nil, good.Data.complex ⟨token, t :: texts⟩] := by
    simp only [good.mapLines, hmap, Option.map_some']
    rfl
  have haccd : ∀ d ∈ [good.Data.nil, good.Data.complex ⟨token, t :: texts⟩],
      acceptedData d = true := by
    intro d hd
    simp only [List.mem_cons, List.mem_singleton, List.not_mem_nil, or_false] at hd
    rcases hd with hd | hd
    · rw [hd]; rfl
    · rw [hd]
      simp only [acceptedData, if_pos htok]
      exact List.all_eq_true.2 hacc
  unfold good.ParseAdexpMessage good.ParseAdexpMessageSched
  simp only [hpre, good.processSched, hlines, gather_accept _ _ haccd]

/-- C2, as the code has it: for an ESTDATA or RTEPTS field whose raw value is
a sequence of one or more records, each made of the subfields PTID, ETO and
FL exactly once in any order (values free of spaces, dashes and line breaks,
FL a letter followed by decimal digits denoting a number below 2^63),
`ParseAdexpMessage` (results aggregated in line order) yields exactly one
Estdata or RoutePoints record per source record, in source order, with Ptid
and Eto equal to the subfield values and FlightLevel equal to the integer
value of the digits. -/
theorem C2_flight_records_amended (recs : List FlightRecord)
    (texts : List (List (Bytes × Bytes))) (hne : recs ≠ [])
    (hrel : List.Forall₂ (fun r t => t.Perm r.canonical) recs texts)
    (hwf : ∀ r ∈ recs, r.wellFormed = true)
    (hrange : ∀ r ∈ recs, decimalValue r.digits < strconv.cutoff) :
    good.ParseAdexpMessage (renderField good.tokenEstdata texts.flatten)
      = some ({ good.zeroMessage with
          Estdata := recs.map
            (fun r => ⟨r.ptid, r.eto, (decimalValue r.digits : Int)⟩) }, none) ∧
    good.ParseAdexpMessage (renderField good.tokenRtepts texts.flatten)
      = some ({ good.zeroMessage with
          RoutePoints := recs.map
            (fun r => ⟨r.ptid, (decimalValue r.digits : Int), r.eto⟩) }, none) := by
  obtain ⟨f1, f2, f3, f4, f5⟩ := records_facts recs texts hrel hwf hrange
  cases hrel with
  | nil => exact absurd rfl hne
  | @cons r t recs2 texts2 hp hrest =>
    constructor
    · rw [field_decodes good.tokenEstdata (Or.inl rfl) t texts2 f1 f2 f3, ← f4]
      simp [aggregated, simpleValues, complexRecords, lastOr, good.zeroMessage, good.AdexpType,
        good.tokenEstdata, good.tokenGeo, good.tokenRtepts]
    · rw [field_decodes good.tokenRtepts (Or.inr rfl) t texts2 f1 f2 f3, ← f5]
      simp [aggregated, simpleValues, complexRecords, lastOr, good.zeroMessage, good.AdexpType,
        good.tokenEstdata, good.tokenGeo, good.tokenRtepts]

set_option maxRecDepth 100000 in
/-- C2 at the example of the specification: the field
`-ESTDATA -PTID CYYZ -ETO 170301220429 -FL F000 -PTID JOOPY -ETO 170302002327 -FL F390`
decodes to the two records (CYYZ, 170301220429, 0) and
(JOOPY, 170302002327, 390). -/
theorem C2_flight_records_amended_witness :
    good.ParseAdexpMessage
        "-ESTDATA -PTID CYYZ -ETO 170301220429 -FL F000 -PTID JOOPY -ETO 170302002327 -FL F390".toList
      = some ({ good.zeroMessage with
          Estdata := [⟨"CYYZ".toList, "170301220429".toList, 0⟩,
            ⟨"JOOPY".toList, "170302002327".toList, 390⟩] }, none) :=
  (C2_flight_records_amended
    [⟨"CYYZ".toList, "170301220429".toList, Char.ofNat 70, "000".toList⟩,
     ⟨"JOOPY".toList, "170302002327".toList, Char.ofNat 70, "390".toList⟩]
    [[("PTID".toList, "CYYZ".toList), ("ETO".toList, "170301220429".toList),
      ("FL".toList, "F000".toList)],
     [("PTID".toList, "JOOPY".toList), ("ETO".toList, "170302002327".toList),
      ("FL".toList, "F390".toList)]]
    (by simp)
    (List.Forall₂.cons (List.Perm.refl _) (List.Forall₂.cons (List.Perm.refl _) List.Forall₂.nil))
    (by decide) (by decide)).1

set_option maxRecDepth 100000 in
/-- C2 as stated fails: the record with flight level `F9223372036854775808`
(a letter followed by decimal digits) is well formed, and the field
`-ESTDATA -PTID A -ETO 1 -FL F9223372036854775808` decodes to an error and no
record, the number being outside the `int` range.  Besides, a point id with
a line break in it (free of spaces and dashes) is decoded with a space in
place of the line break. -/
theorem C2_counterexample :
    FlightRecord.wellFormed
      ⟨"A".toList, "1".toList, Char.ofNat 70, "9223372036854775808".toList⟩ = true ∧
    renderField good.tokenEstdata
      (FlightRecord.canonical
        ⟨"A".toList, "1".toList, Char.ofNat 70, "9223372036854775808".toList⟩)
      = "-ESTDATA -PTID A -ETO 1 -FL F9223372036854775808".toList ∧
    good.ParseAdexpMessage "-ESTDATA -PTID A -ETO 1 -FL F9223372036854775808".toList
      = some (good.zeroMessage, some (good.GoError.flightLevelCannotBeParsed (-1))) ∧
    good.ParseAdexpMessage
        (renderField good.tokenEstdata
          (FlightRecord.canonical
            ⟨['A', chNewline, 'B'], "1".toList, Char.ofNat 70, "1".toList⟩))
      = some ({ good.zeroMessage with Estdata := [⟨"A B".toList, "1".toList, 1⟩] }, none) := by
  refine ⟨by decide, by rfl, by rfl, by rfl⟩

/-! ### Totality of `parseComplexToken` -/

theorem parseComplexToken_returns (token : Bytes) (value : Option Bytes) :
    ∃ records, good.parseComplexToken token value
      = some (good.Data.complex ⟨token, records⟩) := by
  cases value with
  | none => exact ⟨[], rfl⟩
  | some val => exact ⟨_, parseComplexToken_eq token val⟩

/-- C15: `parseComplexToken` never fails: for every raw value, nil, empty or
arbitrary bytes, it returns a complex token holding a record list, because
every regexp match handed to `parseLine` is at least two bytes long and
begins with a dash, so that `parseLine` returns on it (its slice expressions
are in range). -/
theorem C15_parseComplexToken_total (token : Bytes) (value : Option Bytes) :
    (∃ records, good.parseComplexToken token value
      = some (good.Data.complex ⟨token, records⟩)) ∧
    (∀ val, value = some val → ∀ sub ∈ regexpFindAll val,
      2 ≤ sub.length ∧ (∃ rest, sub = chDash :: rest) ∧
      ∃ h l, good.parseLine sub = some (some h, l)) := by
  constructor
  · exact parseComplexToken_returns token value
  · intro val _ sub hsub
    obtain ⟨d, body, hm, _, _⟩ := regexpFindAll_shape _ val sub hsub
    refine ⟨by rw [hm]; simp, ⟨_, hm⟩, ?_⟩
    rw [hm]
    exact parseLine_dash_isSome (d :: body)

set_option maxRecDepth 100000 in
/-- C15 at malformed values: dashes, spaces and line breaks in any
arrangement still give records. -/
theorem C15_parseComplexToken_total_witness :
    good.parseComplexToken good.tokenGeo (some "-- - -x--".toList)
      = some (good.Data.complex ⟨good.tokenGeo,
          [[("-".toList, []), ([], []), ("x".toList, [])], [("-".toList, [])]]⟩) ∧
    ∃ records, good.parseComplexToken good.tokenGeo (some [chDash, chNewline, chDash])
      = some (good.Data.complex ⟨good.tokenGeo, records⟩) :=
  ⟨by rfl, (C15_parseComplexToken_total good.tokenGeo (some [chDash, chNewline, chDash])).1⟩

/-! ### Panics of the decoder -/

set_option maxRecDepth 100000 in
/-- C19, the code at the failing inputs: `abc` (a first physical line without
a dash) becomes the logical line ` abc`, on which `parseLine` evaluates
`in[1:0]` and panics; the bare line `-BEGIN` makes `preprocess` evaluate
`trimed[7:]` on six bytes; the record of `-ESTDATA -PTID A` has no `FL`
subfield and `extractFlightLevel` evaluates `in[1:]` on the empty string.
None of the three non-empty inputs returns a Message or an error. -/
theorem C19_panics_on_nonempty_input :
    good.preprocess "abc".toList = some ([" abc".toList], none) ∧
    good.parseLine " abc".toList = none ∧
    good.ParseAdexpMessage "abc".toList = none ∧
    good.preprocess "-BEGIN".toList = none ∧
    good.ParseAdexpMessage "-BEGIN".toList = none ∧
    good.mapLine "-ESTDATA -PTID A".toList
      = some (good.Data.complex ⟨good.tokenEstdata, [[("PTID".toList, "A".toList)]]⟩) ∧
    good.extractFlightLevel [] = none ∧
    good.ParseAdexpMessage "-ESTDATA -PTID A".toList = none := by
  refine ⟨by rfl, by rfl, by rfl, by rfl, by rfl, by rfl, by rfl, by rfl⟩

/-! ### The scan of the bad variant -/

set_option maxRecDepth 100000 in
/-- C20, the code at the failing input: on the raw value `xxxxxx-A 1` the
good variant finds the one subfield `-A 1` and returns one record; the bad
variant finds it at offset 6, continues on `in[4:]`, that is `xx-A 1`, finds
the same subfield again and returns two records. -/
theorem C20_bad_scan_differs :
    good.parseComplexToken good.tokenGeo (some "xxxxxx-A 1".toList)
      = some (good.Data.complex ⟨good.tokenGeo, [[("A".toList, "1".toList)]]⟩) ∧
    bad.parseComplexToken good.tokenGeo "xxxxxx-A 1".toList
      = some ⟨good.tokenGeo, [[("A".toList, "1".toList)], [("A".toList, "1".toList)]]⟩ ∧
    good.parseComplexToken good.tokenGeo (some "-A 1 -B 2".toList)
      = some (good.Data.complex ⟨good.tokenGeo,
          [[("A".toList, "1".toList), ("B".toList, "2".toList)]]⟩) ∧
    bad.parseComplexToken good.tokenGeo "-A 1 -B 2".toList
      = some ⟨good.tokenGeo, [[("A".toList, "1".toList), ("B".toList, "2".toList)]]⟩ := by
  refine ⟨by rfl, by rfl, by rfl, by rfl⟩

/-! ### `mapLine` on a logical line -/

theorem split_at_space (rest : Bytes) (h : chSpace ∈ rest) :
    ∃ a b, rest = a ++ chSpace :: b ∧ chSpace ∉ a ∧
      rest.takeWhile (fun c => decide (c ≠ chSpace)) = a ∧
      rest.dropWhile (fun c => decide (c ≠ chSpace)) = chSpace :: b := by
  induction rest with
  | nil => simp at h
  | cons c rest ih =>
    by_cases hc : c = chSpace
    · subst hc
      exact ⟨[], rest, rfl, by simp, by simp [List.takeWhile], by simp [List.dropWhile]⟩
    · have hm : chSpace ∈ rest := by
        rcases List.mem_cons.1 h with e | e
        · exact absurd e.symm hc
        · exact e
      obtain ⟨a, b, h1, h2, h3, h4⟩ := ih hm
      have hp : (fun x => decide (x ≠ chSpace)) c = true := by simpa using hc
      refine ⟨c :: a, b, by rw [h1]; rfl, ?_, ?_, ?_⟩
      · intro hmem
        rcases List.mem_cons.1 hmem with e | e
        · exact hc e.symm
        · exact h2 e
      · rw [List.takeWhile_cons_of_pos (p := fun x => decide (x ≠ chSpace)) (a := c) hp, h3]
      · rw [List.dropWhile_cons_of_pos (p := fun x => decide (x ≠ chSpace)) (a := c) hp, h4]

theorem takeWhile_no_space (rest : Bytes) (h : chSpace ∉ rest) :
    rest.takeWhile (fun c => decide (c ≠ chSpace)) = rest ∧
    rest.dropWhile (fun c => decide (c ≠ chSpace)) = [] := by
  induction rest with
  | nil => exact ⟨rfl, rfl⟩
  | cons c rest ih =>
    have hc : c ≠ chSpace := fun e => h (by simp [e])
    have hr : chSpace ∉ rest := fun e => h (by simp [e])
    have hp : (fun x => decide (x ≠ chSpace)) c = true := by simpa using hc
    obtain ⟨h1, h2⟩ := ih hr
    constructor
    · rw [List.takeWhile_cons_of_pos (p := fun x => decide (x ≠ chSpace)) (a := c) hp, h1]
    · rw [List.dropWhile_cons_of_pos (p := fun x => decide (x ≠ chSpace)) (a := c) hp, h2]

theorem parseLine_cons (c : Char) (rest : Bytes) (hc : c ≠ chSpace) :
    good.parseLine (c :: rest)
      = some (some (lineToken (c :: rest)), lineRawValue (c :: rest)) := by
  by_cases hm : chSpace ∈ rest
  · obtain ⟨a, b, h1, h2, h3, h4⟩ := split_at_space rest hm
    have hp := parseLine_space c hc a b h2
    have ht : lineToken (c :: rest) = a := by
      simp only [lineToken, List.drop_succ_cons, List.drop_zero, h3]
    have hv : lineRawValue (c :: rest) = some b := by
      simp only [lineRawValue, lineValue, List.drop_succ_cons, List.drop_zero, if_pos hm, h4]
    rw [ht, hv, h1]
    exact hp
  · have hp := parseLine_nospace c rest (by
      intro hmem
      rcases List.mem_cons.1 hmem with e | e
      · exact hc e.symm
      · exact hm e)
    obtain ⟨h3, _⟩ := takeWhile_no_space rest hm
    have ht : lineToken (c :: rest) = rest := by
      simp only [lineToken, List.drop_succ_cons, List.drop_zero, h3]
    have hv : lineRawValue (c :: rest) = none := by
      simp only [lineRawValue, List.drop_succ_cons, List.drop_zero, if_neg hm]
    rw [ht, hv]
    exact hp

theorem factory_eq (token : Bytes) :
    good.factory token
      = if token ∈ simpleTokens then some good.parseSimpleToken
        else if token ∈ complexTokens then some good.parseComplexToken else none := by
  rcases factory_cases token with ⟨hf, hs⟩ | ⟨hf, hc⟩ | hf
  · rw [hf, if_pos hs]
  · have hns : token ∉ simpleTokens := by
      intro hs
      have hdisj : ∀ t ∈ complexTokens, t ∉ simpleTokens := by decide
      exact hdisj token hc hs
    rw [hf, if_neg hns, if_pos hc]
  · have hn : token ∉ simpleTokens ∧ token ∉ complexTokens := by
      unfold good.factory at hf
      split at hf
      · cases hf
      · rename_i h1
        split at hf
        · cases hf
        · rename_i h2
          constructor
          · simpa [simpleTokens] using h1
          · simpa [complexTokens] using h2
    rw [hf, if_neg hn.1, if_neg hn.2]

theorem startWith_comment_false (c : Char) (rest : Bytes) (hc : c ≠ Char.ofNat 47) :
    good.startWith (c :: rest) good.bytesComment = false := by
  unfold good.startWith
  split
  · rfl
  · have h : Char.ofNat 47 ≠ c := fun e => hc e.symm
    simp only [good.bytesComment, good.startWithLoop, ne_eq, h, not_false_eq_true, if_true]

theorem mapLine_cons (c : Char) (rest : Bytes) (hc : c ≠ chSpace) (hs : c ≠ Char.ofNat 47) :
    good.mapLine (c :: rest)
      = if lineToken (c :: rest) ∈ simpleTokens then
          some (good.Data.simple ⟨lineToken (c :: rest), (lineRawValue (c :: rest)).getD []⟩)
        else if lineToken (c :: rest) ∈ complexTokens then
          good.parseComplexToken (lineToken (c :: rest)) (lineRawValue (c :: rest))
        else some good.Data.nil := by
  have h1 : ¬ ((c :: rest).length = 0 ∨
      good.startWith (c :: rest) good.bytesComment = true) := by
    rintro (h | h)
    · simp at h
    · rw [startWith_comment_false c rest hs] at h
      cases h
  unfold good.mapLine
  rw [if_neg h1, parseLine_cons c rest hc]
  simp only [factory_eq]
  split_ifs <;> rfl

/-- C18: `mapLine` yields nil for the empty line and for a line beginning
with `//`; for a line beginning with a dash it yields a decoded field (a
simple or complex token carrying the line's token) when the token, the text
between the dash and the first space or the whole remainder, is one of the
fourteen registered names, and nil otherwise.  It never panics on such a
line and has no error to return. -/
theorem C18_mapLine_registered_iff :
    registeredTokens.length = 14 ∧ registeredTokens.Nodup ∧
    good.mapLine [] = some good.Data.nil ∧
    (∀ line : Bytes, good.startWith line good.bytesComment = true →
      good.mapLine line = some good.Data.nil) ∧
    (∀ rest : Bytes, lineToken (chDash :: rest) ∈ registeredTokens →
      ∃ d, good.mapLine (chDash :: rest) = some d ∧ d ≠ good.Data.nil ∧
        dataToken d = some (lineToken (chDash :: rest))) ∧
    (∀ rest : Bytes, lineToken (chDash :: rest) ∉ registeredTokens →
      good.mapLine (chDash :: rest) = some good.Data.nil) := by
  refine ⟨by decide, by decide, by rfl, ?_, ?_, ?_⟩
  · intro line h
    unfold good.mapLine
    rw [if_pos (Or.inr h)]
  · intro rest h
    rw [mapLine_cons chDash rest (by decide) (by decide)]
    rcases List.mem_append.1 h with hs | hc
    · rw [if_pos hs]
      exact ⟨_, rfl, by simp, rfl⟩
    · have hns : lineToken (chDash :: rest) ∉ simpleTokens := by
        intro hs
        have hdisj : ∀ t ∈ complexTokens, t ∉ simpleTokens := by decide
        exact hdisj _ hc hs
      rw [if_neg hns, if_pos hc]
      obtain ⟨records, hr⟩ :=
        parseComplexToken_returns (lineToken (chDash :: rest)) (lineRawValue (chDash :: rest))
      exact ⟨_, hr, by simp, rfl⟩
  · intro rest h
    rw [mapLine_cons chDash rest (by decide) (by decide)]
    have h1 : lineToken (chDash :: rest) ∉ simpleTokens :=
      fun hs => h (List.mem_append_left _ hs)
    have h2 : lineToken (chDash :: rest) ∉ complexTokens :=
      fun hc => h (List.mem_append_right _ hc)
    rw [if_neg h1, if_neg h2]

set_option maxRecDepth 100000 in
/-- C18 at concrete lines: `-TITLE IFPL` is decoded, `-FOO bar` and the bare
dash are not. -/
theorem C18_mapLine_registered_iff_witness :
    (∃ d, good.mapLine "-TITLE IFPL".toList = some d ∧ d ≠ good.Data.nil ∧
      dataToken d = some (lineToken "-TITLE IFPL".toList)) ∧
    good.mapLine "-FOO bar".toList = some good.Data.nil ∧
    good.mapLine "-".toList = some good.Data.nil :=
  ⟨C18_mapLine_registered_iff.2.2.2.2.1 "TITLE IFPL".toList (by decide),
   C18_mapLine_registered_iff.2.2.2.2.2 "FOO bar".toList (by decide),
   C18_mapLine_registered_iff.2.2.2.2.2 [] (by decide)⟩

/-! ### The block opener -/

theorem dropWhile_append_of_exists {p : Char → Bool} (l m : Bytes)
    (h : ∃ x ∈ l, p x = false) : (l ++ m).dropWhile p = l.dropWhile p ++ m := by
  induction l with
  | nil => obtain ⟨x, hx, _⟩ := h; simp at hx
  | cons a l ih =>
    by_cases ha : p a = true
    · have hl : ∃ x ∈ l, p x = false := by
        obtain ⟨x, hx, hpx⟩ := h
        rcases List.mem_cons.1 hx with e | e
        · rw [e, ha] at hpx; cases hpx
        · exact ⟨x, e, hpx⟩
      rw [List.cons_append, List.dropWhile_cons_of_pos ha, List.dropWhile_cons_of_pos ha, ih hl]
    · rw [List.cons_append, List.dropWhile_cons_of_neg ha, List.dropWhile_cons_of_neg ha]
      rfl

theorem bytesTrimRight_append (q rest : Bytes) (h : ∃ x ∈ rest, x ≠ chSpace) :
    bytesTrimRight (q ++ rest) = q ++ bytesTrimRight rest := by
  unfold bytesTrimRight
  have h2 : ∃ x ∈ rest.reverse, (fun c => decide (c = chSpace)) x = false := by
    obtain ⟨x, hx, hne⟩ := h
    exact ⟨x, List.mem_reverse.2 hx, by simpa using hne⟩
  rw [List.reverse_append, dropWhile_append_of_exists _ _ h2, List.reverse_append,
    List.reverse_reverse]

theorem dropWhile_append_of_all {p : Char → Bool} (l m : Bytes)
    (h : ∀ x ∈ l, p x = true) : (l ++ m).dropWhile p = m.dropWhile p := by
  induction l with
  | nil => rfl
  | cons a l ih =>
    rw [List.cons_append,
      List.dropWhile_cons_of_pos (p := p) (a := a) (h a (List.mem_cons_self _ _))]
    exact ih (fun x hx => h x (List.mem_cons_of_mem _ hx))

theorem bytesTrim_cons (c : Char) (r : Bytes) (hc : c ≠ chSpace) :
    bytesTrim (c :: r) = c :: bytesTrimRight r := by
  have hfront : bytesTrim (c :: r) = bytesTrimRight ([c] ++ r) := by
    unfold bytesTrim bytesTrimRight
    rw [dropWhile_space_cons c r hc]
    rfl
  rw [hfront]
  by_cases hr : ∃ x ∈ r, x ≠ chSpace
  · rw [bytesTrimRight_append [c] r hr]
    rfl
  · have hall : ∀ x ∈ r.reverse, (fun c => decide (c = chSpace)) x = true := by
      intro x hx
      by_contra hne
      exact hr ⟨x, List.mem_reverse.1 hx, by simpa using hne⟩
    have hd : r.reverse.dropWhile (fun c => decide (c = chSpace)) = [] :=
      List.dropWhile_eq_nil_iff.2 hall
    have hd2 : (r.reverse ++ [c]).dropWhile (fun c => decide (c = chSpace)) = [c] := by
      rw [dropWhile_append_of_all _ _ hall]
      exact dropWhile_space_cons c [] hc
    unfold bytesTrimRight
    rw [List.reverse_append, List.reverse_singleton, hd2, hd]
    rfl

theorem preprocessStep_begin (st : List Bytes × Bytes) (rest : Bytes)
    (h : ∃ x ∈ rest, x ≠ chSpace) :
    good.preprocessStep st (good.bytesBegin ++ chSpace :: rest)
      = some (st.1 ++ [st.2], chDash :: bytesTrimRight rest) := by
  have hend : good.startWith (good.bytesBegin ++ chSpace :: rest) good.bytesEnd = false := by
    simp [good.startWith, good.startWithLoop, good.bytesBegin, good.bytesEnd]
  have hbegin : good.startWith (good.bytesBegin ++ chSpace :: rest) good.bytesBegin = true := by
    simp [good.startWith, good.startWithLoop, good.bytesBegin]
  have htrim : bytesTrim (good.bytesBegin ++ chSpace :: rest)
      = good.bytesBegin ++ chSpace :: bytesTrimRight rest := by
    have h1 : good.bytesBegin ++ chSpace :: rest
        = chDash :: (['B', 'E', 'G', 'I', 'N', chSpace] ++ rest) := rfl
    rw [h1, bytesTrim_cons chDash _ (by decide), bytesTrimRight_append _ rest h]
    rfl
  have hslice : goSliceFrom (good.bytesBegin ++ chSpace :: bytesTrimRight rest)
      (good.bytesBegin.length + 1) = some (bytesTrimRight rest) := by
    simp [goSliceFrom, good.bytesBegin]
  unfold good.preprocessStep
  rw [hend, hbegin, htrim, hslice]
  rfl

theorem bytesTrim_eq_trimRight (c : Char) (r : Bytes) (hc : c ≠ chSpace) :
    bytesTrim (c :: r) = bytesTrimRight (c :: r) := by
  unfold bytesTrim bytesTrimRight
  rw [dropWhile_space_cons c r hc]

/-- C16, as the code has it: for a physical line made of `-BEGIN `, dash
BEGIN space, and a remainder holding at least one byte that is not a space,
`preprocess` flushes the current buffer to the output and starts a new
buffer equal to `-` followed by the remainder with its trailing spaces
removed; leading spaces of the remainder are kept, so the new buffer is `-`
followed by the trimmed remainder when the remainder does not begin with a
space (`-BEGIN RTEPTS` starts the logical line `-RTEPTS`). -/
theorem C16_block_opener_amended (st : List Bytes × Bytes) (rest : Bytes)
    (h : ∃ x ∈ rest, x ≠ chSpace) :
    good.preprocessStep st (good.bytesBegin ++ chSpace :: rest)
      = some (st.1 ++ [st.2], chDash :: bytesTrimRight rest) ∧
    (rest.head? ≠ some chSpace → bytesTrimRight rest = bytesTrim rest) := by
  refine ⟨preprocessStep_begin st rest h, ?_⟩
  intro hhead
  cases rest with
  | nil => rfl
  | cons c r =>
    have hc : c ≠ chSpace := by
      intro e
      apply hhead
      rw [e]
      rfl
    exact (bytesTrim_eq_trimRight c r hc).symm

set_option maxRecDepth 100000 in
/-- C16 as amended, at the line `-BEGIN RTEPTS` read while the buffer holds
`-TITLE IFPL`. -/
theorem C16_block_opener_amended_witness :
    good.preprocessStep ([[]], "-TITLE IFPL".toList) "-BEGIN RTEPTS".toList
      = some ([[], "-TITLE IFPL".toList], "-RTEPTS".toList) :=
  (C16_block_opener_amended ([[]], "-TITLE IFPL".toList) "RTEPTS".toList
    ⟨Char.ofNat 82, by decide, by decide⟩).1

set_option maxRecDepth 100000 in
/-- C16 as stated fails: the line `-BEGIN  RTEPTS`, with two spaces, begins
with `-BEGIN ` and starts the buffer `- RTEPTS`, not `-` followed by the
trimmed remainder `RTEPTS`; and on the line `-BEGIN ` itself `preprocess`
panics. -/
theorem C16_counterexample :
    good.preprocessStep ([], []) "-BEGIN  RTEPTS".toList
      = some ([[]], "- RTEPTS".toList) ∧
    chDash :: bytesTrim " RTEPTS".toList = "-RTEPTS".toList ∧
    good.preprocessStep ([], []) "-BEGIN ".toList = none := by
  refine ⟨by rfl, by rfl, by rfl⟩

/-! ### The shape of the logical lines -/

theorem startWith_head (line : Bytes) (c : Char) (t : Bytes)
    (h : good.startWith line (c :: t) = true) : line.head? = some c := by
  unfold good.startWith at h
  split at h
  · cases h
  · cases line with
    | nil => simp [good.startWithLoop] at h
    | cons a r =>
      simp only [good.startWithLoop] at h
      by_cases hca : c = a
      · rw [hca]; rfl
      · simp [hca] at h

theorem startWith_dash_of_head (line : Bytes) (h : line.head? = some chDash) :
    good.startWith line good.bytesDash = true := by
  cases line with
  | nil => cases h
  | cons a r =>
    simp only [List.head?_cons, Option.some.injEq] at h
    subst h
    simp [good.startWith, good.startWithLoop, good.bytesDash]
    rfl

theorem bytesTrim_head_dash (line : Bytes) (h : line.head? = some chDash) :
    (bytesTrim line).head? = some chDash := by
  cases line with
  | nil => cases h
  | cons a r =>
    simp only [List.head?_cons, Option.some.injEq] at h
    subst h
    rw [bytesTrim_cons chDash r (by decide)]
    rfl

theorem preprocessStep_inv (st st2 : List Bytes × Bytes) (line : Bytes)
    (hinv : preprocessInv st) (h : good.preprocessStep st line = some st2) :
    preprocessInv st2 := by
  have hflush : ∀ cur : Bytes, cur.head? = some chDash →
      preprocessInv (st.1 ++ [st.2], cur) := by
    intro cur hcur
    rcases hinv with ⟨h1, h2⟩ | ⟨hd, t, h1, h2, h3, h4⟩
    · refine Or.inr ⟨st.2, [], by simp [h1], ?_, by simp, hcur⟩
      rcases h2 with h2 | h2
      · exact Or.inl h2
      · exact Or.inr (Or.inl h2)
    · refine Or.inr ⟨hd, t ++ [st.2], by simp [h1], h2, ?_, hcur⟩
      intro l hl
      rcases List.mem_append.1 hl with e | e
      · exact h3 l e
      · rw [List.mem_singleton] at e
        rw [e]; exact h4
  have hcont : preprocessInv (st.1, st.2 ++ good.bytesEmpty ++ bytesTrim line) := by
    rcases hinv with ⟨h1, h2⟩ | ⟨hd, t, h1, h2, h3, h4⟩
    · refine Or.inl ⟨h1, Or.inr ?_⟩
      rcases h2 with h2 | h2
      · rw [h2]; rfl
      · cases hs : st.2 with
        | nil => rw [hs] at h2; cases h2
        | cons a r => rw [hs] at h2; simpa using h2
    · refine Or.inr ⟨hd, t, h1, h2, h3, ?_⟩
      cases hs : st.2 with
      | nil => rw [hs] at h4; cases h4
      | cons a r => rw [hs] at h4; simpa using h4
  unfold good.preprocessStep at h
  split at h
  · cases h; exact hinv
  · split at h
    · simp only [Option.map_eq_some'] at h
      obtain ⟨rest, _, hst⟩ := h
      rw [← hst]
      exact hflush _ rfl
    · split at h
      · rename_i hdash
        cases h
        exact hflush _ (bytesTrim_head_dash line (startWith_head line chDash [] hdash))
      · split at h
        · cases h; exact hcont
        · cases h; exact hcont

theorem preprocessLoop_inv (lines : List Bytes) :
    ∀ st st2 : List Bytes × Bytes, preprocessInv st →
      good.preprocessLoop lines st = some st2 → preprocessInv st2 := by
  induction lines with
  | nil =>
    intro st st2 hinv h
    simp only [good.preprocessLoop, Option.some.injEq] at h
    rw [← h]; exact hinv
  | cons line lines ih =>
    intro st st2 hinv h
    simp only [good.preprocessLoop] at h
    cases hs : good.preprocessStep st line with
    | none => rw [hs] at h; cases h
    | some st1 =>
      rw [hs] at h
      exact ih st1 st2 (preprocessStep_inv st st1 line hinv hs) h

/-- C14, as the code has it: for every non-empty raw input on which
`preprocess` returns, every logical line other than the first begins with a
dash, and the first one, the buffer flushed before the first field, is empty
or begins with a space or begins with a dash.  The dash is followed by the
token name, which can be empty. -/
theorem C14_logical_lines_amended (inp : Bytes) (lines : List Bytes)
    (h : good.preprocess inp = some (lines, none)) :
    (∀ l ∈ lines.tail, l.head? = some chDash) ∧
    (∀ l, lines.head? = some l →
      l = [] ∨ l.head? = some chSpace ∨ l.head? = some chDash) := by
  unfold good.preprocess at h
  split at h
  · cases h
  · simp only [Option.map_eq_some'] at h
    obtain ⟨st, hloop, hst⟩ := h
    have hinv := preprocessLoop_inv _ ([], []) st (Or.inl ⟨rfl, Or.inl rfl⟩) hloop
    simp only [Prod.mk.injEq, and_true] at hst
    rcases hinv with ⟨h1, h2⟩ | ⟨hd, t, h1, h2, h3, h4⟩
    · rw [h1] at hst
      by_cases hlen : st.2.length > 0
      · rw [if_pos hlen] at hst
        rw [← hst]
        refine ⟨by simp, ?_⟩
        intro l hl
        simp only [List.nil_append, List.head?_cons, Option.some.injEq] at hl
        rw [← hl]
        rcases h2 with h2 | h2
        · exact Or.inl h2
        · exact Or.inr (Or.inl h2)
      · rw [if_neg hlen] at hst
        rw [← hst]
        exact ⟨by simp, by simp⟩
    · have hlen : st.2.length > 0 := by
        cases hs : st.2 with
        | nil => rw [hs] at h4; cases h4
        | cons a r => simp
      rw [if_pos hlen, h1] at hst
      rw [← hst]
      constructor
      · intro l hl
        simp only [List.cons_append, List.tail_cons] at hl
        rcases List.mem_append.1 hl with e | e
        · exact h3 l e
        · rw [List.mem_singleton] at e
          rw [e]; exact h4
      · intro l hl
        simp only [List.cons_append, List.head?_cons, Option.some.injEq] at hl
        rw [← hl]; exact h2

set_option maxRecDepth 100000 in
/-- C14 as amended, at the input `-TITLE IFPL`, `-ADEP CYYZ`: the logical
lines are the empty first buffer and the two field lines. -/
theorem C14_logical_lines_amended_witness :
    (∀ l ∈ ([[], "-TITLE IFPL".toList, "-ADEP CYYZ".toList] : List Bytes).tail,
      l.head? = some chDash) ∧
    (∀ l, ([[], "-TITLE IFPL".toList, "-ADEP CYYZ".toList] : List Bytes).head? = some l →
      l = [] ∨ l.head? = some chSpace ∨ l.head? = some chDash) :=
  C14_logical_lines_amended ("-TITLE IFPL".toList ++ chNewline :: "-ADEP CYYZ".toList)
    [[], "-TITLE IFPL".toList, "-ADEP CYYZ".toList] (by rfl)

set_option maxRecDepth 100000 in
/-- C14 as stated fails: for the input `-TITLE IFPL` the first logical line
is the empty buffer flushed before the field, and for the input `abc` the only
logical line is ` abc`, which begins with a space. -/
theorem C14_counterexample :
    good.preprocess "-TITLE IFPL".toList = some ([[], "-TITLE IFPL".toList], none) ∧
    ([] : Bytes).head? ≠ some chDash ∧
    good.preprocess "abc".toList = some ([" abc".toList], none) ∧
    (" abc".toList).head? ≠ some chDash := by
  refine ⟨by rfl, by decide, by rfl, by decide⟩

/-! ### Continuation lines -/

theorem bytesSplitLoop_line (l : Bytes) (h : chNewline ∉ l) (rest cur : Bytes) :
    bytesSplitLoop (l ++ chNewline :: rest) cur = (cur ++ l) :: bytesSplitLoop rest [] := by
  induction l generalizing cur with
  | nil => simp [bytesSplitLoop]
  | cons c l ih =>
    have hc : c ≠ chNewline := fun e => h (by simp [e])
    have hl : chNewline ∉ l := fun e => h (by simp [e])
    rw [List.cons_append]
    simp only [bytesSplitLoop, if_neg hc]
    rw [ih hl]
    simp

theorem bytesSplit_joinLines (ls : List Bytes) (hne : ls ≠ [])
    (h : ∀ l ∈ ls, chNewline ∉ l) : bytesSplit (joinLines ls) = ls := by
  induction ls with
  | nil => exact absurd rfl hne
  | cons l ls ih =>
    cases ls with
    | nil =>
      simp only [joinLines, bytesSplit]
      rw [bytesSplitLoop_plain l (h l (List.mem_cons_self _ _)) []]
      rfl
    | cons l2 ls2 =>
      have hstep : joinLines (l :: l2 :: ls2) = l ++ chNewline :: joinLines (l2 :: ls2) := rfl
      have ih2 := ih (by simp) (fun x hx => h x (List.mem_cons_of_mem _ hx))
      unfold bytesSplit at ih2 ⊢
      rw [hstep, bytesSplitLoop_line l (h l (List.mem_cons_self _ _)), ih2]
      rfl

theorem startWith_false_of_head (line : Bytes) (c : Char) (t : Bytes)
    (h : line.head? ≠ some c) : good.startWith line (c :: t) = false := by
  cases hs : good.startWith line (c :: t) with
  | false => rfl
  | true => exact absurd (startWith_head line c t hs) h

theorem preprocessStep_continuation (st : List Bytes × Bytes) (line : Bytes)
    (h : line.head? ≠ some chDash) :
    good.preprocessStep st line = some (st.1, st.2 ++ chSpace :: bytesTrim line) := by
  have h1 : good.startWith line good.bytesEnd = false := startWith_false_of_head line _ _ h
  have h2 : good.startWith line good.bytesBegin = false := startWith_false_of_head line _ _ h
  have h3 : good.startWith line good.bytesDash = false := startWith_false_of_head line _ _ h
  unfold good.preprocessStep
  rw [h1, h2, h3]
  simp only [Bool.false_eq_true, if_false, good.bytesEmpty, List.append_assoc,
    List.singleton_append, ite_self]
  rfl

theorem preprocessLoop_continuations (cs : List Bytes) :
    ∀ st : List Bytes × Bytes, (∀ c ∈ cs, c.head? ≠ some chDash) →
      good.preprocessLoop cs st
        = some (st.1, st.2 ++ (cs.map (fun c => chSpace :: bytesTrim c)).flatten) := by
  induction cs with
  | nil => intro st _; simp [good.preprocessLoop]
  | cons c cs ih =>
    intro st h
    simp only [good.preprocessLoop,
      preprocessStep_continuation st c (h c (List.mem_cons_self _ _))]
    show good.preprocessLoop cs (st.1, st.2 ++ chSpace :: bytesTrim c) = _
    rw [ih _ (fun x hx => h x (List.mem_cons_of_mem _ hx))]
    simp

theorem joinLines_length (l : Bytes) (ls : List Bytes) (h : l ≠ []) :
    ¬ (joinLines (l :: ls)).length = 0 := by
  intro h0
  have hnil := List.length_eq_zero.1 h0
  cases ls with
  | nil => exact h hnil
  | cons l2 ls2 =>
    have hstep : joinLines (l :: l2 :: ls2) = l ++ chNewline :: joinLines (l2 :: ls2) := rfl
    rw [hstep] at hnil
    simp at hnil

/-- C17: for an input made of a field line `L` that begins with a dash, and
not with `-BEGIN` or `-END`, followed by physical lines none of which begins
with a dash, `preprocess` returns the empty first buffer and one logical
line: `L` trimmed followed, for each of the lines in order, by a single
space and the line trimmed.  The following lines give no logical line of
their own. -/
theorem C17_continuation_joining (L : Bytes) (cs : List Bytes)
    (hdash : L.head? = some chDash)
    (hbegin : good.startWith L good.bytesBegin = false)
    (hend : good.startWith L good.bytesEnd = false)
    (hL : chNewline ∉ L)
    (hcs : ∀ c ∈ cs, c.head? ≠ some chDash ∧ chNewline ∉ c) :
    good.preprocess (joinLines (L :: cs))
      = some ([[], bytesTrim L ++ (cs.map (fun c => chSpace :: bytesTrim c)).flatten], none) ∧
    (bytesTrim L).head? = some chDash := by
  have hne : L ≠ [] := by
    intro e; rw [e] at hdash; cases hdash
  have hsplit : bytesSplit (joinLines (L :: cs)) = L :: cs := by
    apply bytesSplit_joinLines _ (by simp)
    intro l hl
    rcases List.mem_cons.1 hl with e | e
    · rw [e]; exact hL
    · exact (hcs l e).2
  have hstep : good.preprocessStep ([], []) L = some ([[]], bytesTrim L) := by
    unfold good.preprocessStep
    rw [hend, hbegin, startWith_dash_of_head L hdash]
    rfl
  have hhead := bytesTrim_head_dash L hdash
  have hloop := preprocessLoop_continuations cs ([[]], bytesTrim L) (fun c hc => (hcs c hc).1)
  have hlen : (bytesTrim L ++ (cs.map (fun c => chSpace :: bytesTrim c)).flatten).length > 0 := by
    cases ht : bytesTrim L with
    | nil => rw [ht] at hhead; cases hhead
    | cons a r => simp
  refine ⟨?_, hhead⟩
  unfold good.preprocess
  rw [if_neg (joinLines_length L cs hne), hsplit]
  simp only [good.preprocessLoop, hstep]
  show Option.map _ (good.preprocessLoop cs ([[]], bytesTrim L)) = _
  rw [hloop]
  simp only [Option.map_some', if_pos hlen]
  rfl

set_option maxRecDepth 100000 in
/-- C17 at the field line `-COMMENT A ` followed by the lines ` B`, the empty
line and `//C`: one logical line, `-COMMENT A B  //C`. -/
theorem C17_continuation_joining_witness :
    good.preprocess
        (joinLines ["-COMMENT A ".toList, " B".toList, [], "//C".toList])
      = some ([[], "-COMMENT A B  //C".toList], none) :=
  (C17_continuation_joining "-COMMENT A ".toList [" B".toList, [], "//C".toList]
    (by rfl) (by rfl) (by rfl) (by decide) (by decide)).1

/-! ### The decoded field of a logical line -/

theorem parseComplexToken_recordsOf (token : Bytes) (value : Option Bytes) :
    good.parseComplexToken token value
      = some (good.Data.complex ⟨token, recordsOf value⟩) := by
  cases value with
  | none => rfl
  | some val => exact parseComplexToken_eq token val

theorem parseLine_space_head (rest : Bytes) : good.parseLine (chSpace :: rest) = none := by
  simp [good.parseLine, bytesIndex, goSlice]

theorem lineRawValue_getD (c : Char) (rest : Bytes) :
    (lineRawValue (c :: rest)).getD [] = lineValue (c :: rest) := by
  by_cases hm : chSpace ∈ rest
  · simp only [lineRawValue, List.drop_succ_cons, List.drop_zero, if_pos hm, Option.getD_some]
  · obtain ⟨_, h2⟩ := takeWhile_no_space rest hm
    simp only [lineRawValue, lineValue, List.drop_succ_cons, List.drop_zero, if_neg hm,
      Option.getD_none, h2, List.drop_nil]

theorem mapLine_of_line (c : Char) (rest : Bytes) (hc : c ≠ chSpace)
    (hcom : good.startWith (c :: rest) good.bytesComment = false) :
    good.mapLine (c :: rest)
      = if lineToken (c :: rest) ∈ simpleTokens then
          some (good.Data.simple ⟨lineToken (c :: rest), lineValue (c :: rest)⟩)
        else if lineToken (c :: rest) ∈ complexTokens then
          some (good.Data.complex ⟨lineToken (c :: rest), lineRecords (c :: rest)⟩)
        else some good.Data.nil := by
  have h1 : ¬ ((c :: rest).length = 0 ∨
      good.startWith (c :: rest) good.bytesComment = true) := by
    rintro (h | h)
    · simp at h
    · rw [hcom] at h
      cases h
  unfold good.mapLine
  rw [if_neg h1, parseLine_cons c rest hc]
  simp only [factory_eq]
  by_cases hs : lineToken (c :: rest) ∈ simpleTokens
  · simp only [if_pos hs, good.parseSimpleToken, lineRawValue_getD]
  · by_cases hx : lineToken (c :: rest) ∈ complexTokens
    · simp only [if_neg hs, if_pos hx, parseComplexToken_recordsOf, lineRecords]
    · simp only [if_neg hs, if_neg hx]

theorem carries_cons (tok : Bytes) (c : Char) (rest : Bytes)
    (hcom : good.startWith (c :: rest) good.bytesComment = false) :
    carries tok (c :: rest) = decide (lineToken (c :: rest) = tok) := by
  simp [carries, hcom]

theorem mapLine_values (line : Bytes) (d : good.Data) (h : good.mapLine line = some d) :
    (∀ tok ∈ simpleTokens,
      simpleValues tok [d] = if carries tok line then [lineValue line] else []) ∧
    (∀ tok ∈ complexTokens,
      complexRecords tok [d] = if carries tok line then lineRecords line else []) := by
  have hnil : d = good.Data.nil → (∀ tok, carries tok line = false) →
      (∀ tok ∈ simpleTokens,
        simpleValues tok [d] = if carries tok line then [lineValue line] else []) ∧
      (∀ tok ∈ complexTokens,
        complexRecords tok [d] = if carries tok line then lineRecords line else []) := by
    intro hd hcar
    subst hd
    constructor
    · intro tok _
      rw [hcar tok]
      rfl
    · intro tok _
      rw [hcar tok]
      rfl
  cases line with
  | nil =>
    have hd : d = good.Data.nil := by
      have : good.mapLine [] = some good.Data.nil := rfl
      rw [this] at h
      cases h
      rfl
    exact hnil hd (fun tok => rfl)
  | cons c rest =>
    cases hcom : good.startWith (c :: rest) good.bytesComment with
    | true =>
      have hd : d = good.Data.nil := by
        unfold good.mapLine at h
        rw [if_pos (Or.inr hcom)] at h
        cases h
        rfl
      exact hnil hd (fun tok => by simp [carries, hcom])
    | false =>
      by_cases hc : c = chSpace
      · subst hc
        unfold good.mapLine at h
        rw [if_neg (by simp [hcom]), parseLine_space_head] at h
        cases h
      · rw [mapLine_of_line c rest hc hcom] at h
        have hdisj : ∀ t ∈ complexTokens, t ∉ simpleTokens := by decide
        by_cases hs : lineToken (c :: rest) ∈ simpleTokens
        · rw [if_pos hs] at h
          cases h
          constructor
          · intro tok _
            rw [carries_cons tok c rest hcom]
            by_cases ht : lineToken (c :: rest) = tok
            · simp [simpleValues, ht]
            · simp [simpleValues, ht]
          · intro tok htok
            rw [carries_cons tok c rest hcom]
            have ht : ¬ lineToken (c :: rest) = tok := by
              intro e
              exact hdisj tok htok (e ▸ hs)
            simp [complexRecords, ht]
        · rw [if_neg hs] at h
          by_cases hx : lineToken (c :: rest) ∈ complexTokens
          · rw [if_pos hx] at h
            cases h
            constructor
            · intro tok htok
              rw [carries_cons tok c rest hcom]
              have ht : ¬ lineToken (c :: rest) = tok := by
                intro e
                exact hs (e ▸ htok)
              simp [simpleValues, ht]
            · intro tok _
              rw [carries_cons tok c rest hcom]
              by_cases ht : lineToken (c :: rest) = tok
              · simp [complexRecords, ht]
              · simp [complexRecords, ht]
          · rw [if_neg hx] at h
            cases h
            constructor
            · intro tok htok
              rw [carries_cons tok c rest hcom]
              have ht : ¬ lineToken (c :: rest) = tok := by
                intro e
                exact hs (e ▸ htok)
              simp [simpleValues, ht]
            · intro tok htok
              rw [carries_cons tok c rest hcom]
              have ht : ¬ lineToken (c :: rest) = tok := by
                intro e
                exact hx (e ▸ htok)
              simp [complexRecords, ht]

theorem mapLines_values (inp : List Bytes) :
    ∀ sent, good.mapLines inp = some sent →
      (∀ tok ∈ simpleTokens,
        simpleValues tok sent = (inp.filter (carries tok)).map lineValue) ∧
      (∀ tok ∈ complexTokens,
        complexRecords tok sent = ((inp.filter (carries tok)).map lineRecords).flatten) := by
  induction inp with
  | nil =>
    intro sent h
    simp only [good.mapLines, Option.some.injEq] at h
    subst h
    exact ⟨fun _ _ => rfl, fun _ _ => rfl⟩
  | cons line inp ih =>
    intro sent h
    unfold good.mapLines at h
    split at h
    · cases h
    · rename_i d hd
      simp only [Option.map_eq_some'] at h
      obtain ⟨ds, hds, hsent⟩ := h
      subst hsent
      obtain ⟨i1, i2⟩ := ih ds hds
      obtain ⟨l1, l2⟩ := mapLine_values line d hd
      constructor
      · intro tok htok
        rw [simpleValues_cons, i1 tok htok, l1 tok htok]
        cases hc : carries tok line with
        | true => simp [List.filter, hc]
        | false => simp [List.filter, hc]
      · intro tok htok
        rw [complexRecords_cons, i2 tok htok, l2 tok htok]
        cases hc : carries tok line with
        | true => simp [List.filter, hc]
        | false => simp [List.filter, hc]

theorem process_ok_aggregated (inp : List Bytes) (m : good.Message)
    (h : good.process inp = some (m, none)) :
    ∃ sent, good.mapLines inp = some sent ∧ m = aggregated good.zeroMessage sent := by
  unfold good.process good.processSched at h
  cases hs : good.mapLines inp with
  | none => rw [hs] at h; cases h
  | some sent =>
    rw [hs] at h
    exact ⟨sent, rfl, gather_ok_eq sent good.zeroMessage m h⟩

theorem lastOr_eq_getLast (l : List Bytes) : ∀ d, lastOr d l = l.getLast?.getD d := by
  induction l with
  | nil => intro d; rfl
  | cons x xs ih =>
    intro d
    show lastOr x xs = _
    rw [ih x, List.getLast?_cons]
    rfl

/-- C12: when `process` aggregates the per-line results in logical-line order
and returns a Message, `Eetfir` is exactly the list of the values of the
lines carrying EETFIR, in source order, likewise `Speed` for SPEED, and
`Estdata`, `Geo` and `RoutePoints` are built from the concatenation, in
source order of the lines carrying ESTDATA, GEO and RTEPTS, of each line's
records in record order: a field that occurs several times keeps
appending. -/
theorem C12_order_preservation (inp : List Bytes) (m : good.Message)
    (h : good.process inp = some (m, none)) :
    m.Eetfir = (inp.filter (carries good.tokenEetfir)).map lineValue ∧
    m.Speed = (inp.filter (carries good.tokenSpeed)).map lineValue ∧
    m.Estdata
      = (((inp.filter (carries good.tokenEstdata)).map lineRecords).flatten).map estdataOf ∧
    m.Geo = (((inp.filter (carries good.tokenGeo)).map lineRecords).flatten).map geoOf ∧
    m.RoutePoints
      = (((inp.filter (carries good.tokenRtepts)).map lineRecords).flatten).map rteptsOf := by
  obtain ⟨sent, hsent, hm⟩ := process_ok_aggregated inp m h
  obtain ⟨hs, hc⟩ := mapLines_values inp sent hsent
  subst hm
  refine ⟨?_, ?_, ?_, ?_, ?_⟩
  · rw [← hs good.tokenEetfir (by decide)]
    simp [aggregated, good.zeroMessage]
  · rw [← hs good.tokenSpeed (by decide)]
    simp [aggregated, good.zeroMessage]
  · rw [← hc good.tokenEstdata (by decide)]
    simp [aggregated, good.zeroMessage]
  · rw [← hc good.tokenGeo (by decide)]
    simp [aggregated, good.zeroMessage]
  · rw [← hc good.tokenRtepts (by decide)]
    simp [aggregated, good.zeroMessage]

/-- C13: when `process` aggregates the per-line results in logical-line order
and returns a Message, each of the nine scalar attributes equals the value of
the last logical line carrying its token (TITLE, ADEP, ALTNZ, ADES, ARCID,
ARCTYP, CEQPT, MSGTXT, COMMENT), and is the empty string when no line carries
it. -/
theorem C13_last_occurrence_wins (inp : List Bytes) (m : good.Message)
    (h : good.process inp = some (m, none)) :
    m.Title = (((inp.filter (carries good.tokenTitle)).map lineValue).getLast?).getD [] ∧
    m.Adep = (((inp.filter (carries good.tokenAdep)).map lineValue).getLast?).getD [] ∧
    m.Alternate = (((inp.filter (carries good.tokenAltnz)).map lineValue).getLast?).getD [] ∧
    m.Ades = (((inp.filter (carries good.tokenAdes)).map lineValue).getLast?).getD [] ∧
    m.Arcid = (((inp.filter (carries good.tokenArcid)).map lineValue).getLast?).getD [] ∧
    m.ArcType = (((inp.filter (carries good.tokenArctyp)).map lineValue).getLast?).getD [] ∧
    m.Ceqpt = (((inp.filter (carries good.tokenCeqpt)).map lineValue).getLast?).getD [] ∧
    m.MessageText
      = (((inp.filter (carries good.tokenMsgtxt)).map lineValue).getLast?).getD [] ∧
    m.Comment = (((inp.filter (carries good.tokenComment)).map lineValue).getLast?).getD [] := by
  obtain ⟨sent, hsent, hm⟩ := process_ok_aggregated inp m h
  obtain ⟨hs, _⟩ := mapLines_values inp sent hsent
  subst hm
  refine ⟨?_, ?_, ?_, ?_, ?_, ?_, ?_, ?_, ?_⟩
  · rw [← hs good.tokenTitle (by decide), ← lastOr_eq_getLast]; rfl
  · rw [← hs good.tokenAdep (by decide), ← lastOr_eq_getLast]; rfl
  · rw [← hs good.tokenAltnz (by decide), ← lastOr_eq_getLast]; rfl
  · rw [← hs good.tokenAdes (by decide), ← lastOr_eq_getLast]; rfl
  · rw [← hs good.tokenArcid (by decide), ← lastOr_eq_getLast]; rfl
  · rw [← hs good.tokenArctyp (by decide), ← lastOr_eq_getLast]; rfl
  · rw [← hs good.tokenCeqpt (by decide), ← lastOr_eq_getLast]; rfl
  · rw [← hs good.tokenMsgtxt (by decide), ← lastOr_eq_getLast]; rfl
  · rw [← hs good.tokenComment (by decide), ← lastOr_eq_getLast]; rfl


set_option maxRecDepth 100000 in
/-- C12 at the logical lines `-EETFIR A`, `-ESTDATA -PTID P -FL F1`,
`-SPEED S1`, `-EETFIR B`, `-ESTDATA -PTID Q -FL F2 -PTID R -FL F3`: the
returned Message has Eetfir `A`, `B`, Speed `S1` and the Estdata records of
P, Q, R in that order. -/
theorem C12_order_preservation_witness :
    good.process
        ["-EETFIR A".toList, "-ESTDATA -PTID P -FL F1".toList, "-SPEED S1".toList,
         "-EETFIR B".toList, "-ESTDATA -PTID Q -FL F2 -PTID R -FL F3".toList]
      = some ({ good.zeroMessage with
          Eetfir := ["A".toList, "B".toList], Speed := ["S1".toList],
          Estdata := [⟨"P".toList, [], 1⟩, ⟨"Q".toList, [], 2⟩, ⟨"R".toList, [], 3⟩] },
          none) ∧
    (["A".toList, "B".toList] : List Bytes)
      = (["-EETFIR A".toList, "-ESTDATA -PTID P -FL F1".toList, "-SPEED S1".toList,
         "-EETFIR B".toList, "-ESTDATA -PTID Q -FL F2 -PTID R -FL F3".toList].filter
          (carries good.tokenEetfir)).map lineValue ∧
    ([⟨"P".toList, [], 1⟩, ⟨"Q".toList, [], 2⟩, ⟨"R".toList, [], 3⟩] : List good.estdata)
      = (((["-EETFIR A".toList, "-ESTDATA -PTID P -FL F1".toList, "-SPEED S1".toList,
         "-EETFIR B".toList, "-ESTDATA -PTID Q -FL F2 -PTID R -FL F3".toList].filter
          (carries good.tokenEstdata)).map lineRecords).flatten).map estdataOf :=
  ⟨by rfl,
   (C12_order_preservation
      ["-EETFIR A".toList, "-ESTDATA -PTID P -FL F1".toList, "-SPEED S1".toList,
       "-EETFIR B".toList, "-ESTDATA -PTID Q -FL F2 -PTID R -FL F3".toList]
      { good.zeroMessage with
          Eetfir := ["A".toList, "B".toList], Speed := ["S1".toList],
          Estdata := [⟨"P".toList, [], 1⟩, ⟨"Q".toList, [], 2⟩, ⟨"R".toList, [], 3⟩] }
      (by rfl)).1,
   (C12_order_preservation
      ["-EETFIR A".toList, "-ESTDATA -PTID P -FL F1".toList, "-SPEED S1".toList,
       "-EETFIR B".toList, "-ESTDATA -PTID Q -FL F2 -PTID R -FL F3".toList]
      { good.zeroMessage with
          Eetfir := ["A".toList, "B".toList], Speed := ["S1".toList],
          Estdata := [⟨"P".toList, [], 1⟩, ⟨"Q".toList, [], 2⟩, ⟨"R".toList, [], 3⟩] }
      (by rfl)).2.2.1⟩

set_option maxRecDepth 100000 in
/-- C13 at the logical lines `-TITLE A`, `-ADEP B`, `-TITLE C`, `-EETFIR A`:
the returned Message has Title `C`, the value of the last TITLE line, and an
empty Ades, no line carrying ADES. -/
theorem C13_last_occurrence_wins_witness :
    good.process ["-TITLE A".toList, "-ADEP B".toList, "-TITLE C".toList, "-EETFIR A".toList]
      = some ({ good.zeroMessage with
          Title := "C".toList, Adep := "B".toList, Eetfir := ["A".toList] }, none) ∧
    "C".toList
      = ((((["-TITLE A".toList, "-ADEP B".toList, "-TITLE C".toList,
          "-EETFIR A".toList].filter (carries good.tokenTitle)).map lineValue).getLast?).getD
          []) ∧
    ([] : Bytes)
      = ((((["-TITLE A".toList, "-ADEP B".toList, "-TITLE C".toList,
          "-EETFIR A".toList].filter (carries good.tokenAdes)).map lineValue).getLast?).getD
          []) :=
  ⟨by rfl,
   (C13_last_occurrence_wins
      ["-TITLE A".toList, "-ADEP B".toList, "-TITLE C".toList, "-EETFIR A".toList]
      { good.zeroMessage with
          Title := "C".toList, Adep := "B".toList, Eetfir := ["A".toList] }
      (by rfl)).1,
   (C13_last_occurrence_wins
      ["-TITLE A".toList, "-ADEP B".toList, "-TITLE C".toList, "-EETFIR A".toList]
      { good.zeroMessage with
          Title := "C".toList, Adep := "B".toList, Eetfir := ["A".toList] }
      (by rfl)).2.2.2.1⟩

/-! ### Inserting a line with an unregistered token -/

theorem bytesSplitLoop_no_newline (s : Bytes) :
    ∀ cur, chNewline ∉ cur → ∀ l ∈ bytesSplitLoop s cur, chNewline ∉ l := by
  induction s with
  | nil =>
    intro cur hcur l hl
    simp only [bytesSplitLoop, List.mem_singleton] at hl
    subst hl
    exact hcur
  | cons c s ih =>
    intro cur hcur l hl
    unfold bytesSplitLoop at hl
    split at hl
    · rcases List.mem_cons.1 hl with h | h
      · subst h; exact hcur
      · exact ih [] (by simp) l h
    · rename_i hc
      refine ih (cur ++ [c]) ?_ l hl
      intro hmem
      rcases List.mem_append.1 hmem with h | h
      · exact hcur h
      · exact hc (List.mem_singleton.1 h).symm

theorem bytesSplit_no_newline (s : Bytes) : ∀ l ∈ bytesSplit s, chNewline ∉ l :=
  bytesSplitLoop_no_newline s [] (by simp)

theorem joinLines_ne_nil (ls : List Bytes) (l : Bytes) (hl : l ∈ ls) (hne : l ≠ []) :
    ¬ (joinLines ls).length = 0 := by
  induction ls with
  | nil => cases hl
  | cons x xs ih =>
    cases xs with
    | nil =>
      simp only [List.mem_singleton] at hl
      subst hl
      intro h0
      exact hne (List.length_eq_zero.1 h0)
    | cons y ys =>
      have hstep : joinLines (x :: y :: ys) = x ++ chNewline :: joinLines (y :: ys) := rfl
      rw [hstep]
      simp

theorem preprocessStep_shift (p r : List Bytes) (c line : Bytes) :
    good.preprocessStep (p ++ r, c) line
      = (good.preprocessStep (r, c) line).map (fun st => (p ++ st.1, st.2)) := by
  unfold good.preprocessStep
  split_ifs <;> simp [List.append_assoc, Function.comp_def]

theorem preprocessLoop_shift (ls : List Bytes) :
    ∀ (p r : List Bytes) (c : Bytes),
      good.preprocessLoop ls (p ++ r, c)
        = (good.preprocessLoop ls (r, c)).map (fun st => (p ++ st.1, st.2)) := by
  induction ls with
  | nil => intro p r c; rfl
  | cons line ls ih =>
    intro p r c
    simp only [good.preprocessLoop, preprocessStep_shift]
    cases good.preprocessStep (r, c) line with
    | none => rfl
    | some st1 =>
      obtain ⟨r1, c1⟩ := st1
      exact ih p r1 c1

theorem preprocessLoop_append (a b : List Bytes) :
    ∀ st, good.preprocessLoop (a ++ b) st
      = (good.preprocessLoop a st).bind (good.preprocessLoop b) := by
  induction a with
  | nil => intro st; rfl
  | cons x a ih =>
    intro st
    simp only [List.cons_append, good.preprocessLoop]
    cases good.preprocessStep st x with
    | none => rfl
    | some st1 => exact ih st1

theorem mapLines_append (a b : List Bytes) :
    good.mapLines (a ++ b)
      = (good.mapLines a).bind (fun x => (good.mapLines b).map (fun y => x ++ y)) := by
  induction a with
  | nil =>
    show good.mapLines b = _
    cases good.mapLines b <;> simp [good.mapLines]
  | cons l a ih =>
    have e1 : ∀ xs, good.mapLines (l :: xs)
        = match good.mapLine l with
          | none => none
          | some d => (good.mapLines xs).map (fun ds => d :: ds) := fun xs => rfl
    show good.mapLines (l :: (a ++ b)) = (good.mapLines (l :: a)).bind _
    rw [e1, e1, ih]
    cases good.mapLine l with
    | none => rfl
    | some d => cases good.mapLines a <;> cases good.mapLines b <;> rfl

theorem gather_nil_cons (l : List good.Data) (msg : good.Message) :
    good.gather (good.Data.nil :: l) msg = good.gather l msg := by
  simp [good.gather, good.enrich]

theorem gather_insert_nils (a e b : List good.Data) (he : ∀ d ∈ e, d = good.Data.nil) :
    ∀ msg, good.gather (a ++ e ++ b) msg = good.gather (a ++ b) msg := by
  induction a with
  | nil =>
    intro msg
    induction e with
    | nil => rfl
    | cons d e ihe =>
      have hd := he d (List.mem_cons_self _ _)
      subst hd
      have := ihe (fun x hx => he x (List.mem_cons_of_mem _ hx))
      simp only [List.nil_append, List.cons_append] at this ⊢
      rw [gather_nil_cons]
      exact this
  | cons x a ih =>
    intro msg
    have e1 : ∀ xs, good.gather (x :: xs) msg
        = match good.enrich msg x with
          | none => none
          | some (m, some err) => some (m, some err)
          | some (m, none) => good.gather xs m := fun xs => rfl
    show good.gather (x :: (a ++ e ++ b)) msg = good.gather (x :: (a ++ b)) msg
    rw [e1, e1]
    cases good.enrich msg x with
    | none => rfl
    | some res =>
      obtain ⟨m1, err⟩ := res
      cases err with
      | some e1 => rfl
      | none => exact ih m1

theorem mapLine_lineFoo : good.mapLine lineFoo = some good.Data.nil := by rfl

theorem preprocessStep_lineFoo (st : List Bytes × Bytes) :
    good.preprocessStep st lineFoo = some (st.1 ++ [st.2], lineFoo) := by
  have h1 : good.startWith lineFoo good.bytesEnd = false := by decide
  have h2 : good.startWith lineFoo good.bytesBegin = false := by decide
  have h3 : good.startWith lineFoo good.bytesDash = true := by decide
  have h4 : bytesTrim lineFoo = lineFoo := by decide
  simp [good.preprocessStep, h1, h2, h3, h4]

theorem mapLines_nils (e : List Bytes) (he : ∀ l ∈ e, good.mapLine l = some good.Data.nil) :
    good.mapLines e = some (e.map (fun _ => good.Data.nil)) := by
  induction e with
  | nil => rfl
  | cons l e ih =>
    simp only [good.mapLines, he l (List.mem_cons_self _ _),
      ih (fun x hx => he x (List.mem_cons_of_mem _ hx))]
    rfl

theorem processSched_insert (a e b : List Bytes)
    (he : ∀ l ∈ e, good.mapLine l = some good.Data.nil) :
    good.processSched (fun sent => sent) (a ++ e ++ b)
      = good.processSched (fun sent => sent) (a ++ b) := by
  unfold good.processSched
  rw [List.append_assoc, mapLines_append a (e ++ b), mapLines_append e b, mapLines_append a b,
    mapLines_nils e he]
  cases good.mapLines a with
  | none => rfl
  | some x =>
    cases good.mapLines b with
    | none => rfl
    | some y =>
      simp only [Option.some_bind, Option.map_some']
      rw [← List.append_assoc]
      exact gather_insert_nils x _ y (by simp) good.zeroMessage

theorem preprocessLoop_insert (post : List Bytes) :
    noContinuationAhead post = true →
    ∀ (r : List Bytes) (c : Bytes) (st : List Bytes × Bytes),
      good.preprocessLoop post (r, c) = some st →
      ∃ st2 a e b, good.preprocessLoop post (r ++ [c], lineFoo) = some st2 ∧
        (if st.2.length > 0 then st.1 ++ [st.2] else st.1) = a ++ b ∧
        (if st2.2.length > 0 then st2.1 ++ [st2.2] else st2.1) = a ++ e ++ b ∧
        (∀ l ∈ e, good.mapLine l = some good.Data.nil) := by
  induction post with
  | nil =>
    intro _ r c st h
    simp only [good.preprocessLoop, Option.some.injEq] at h
    subst h
    refine ⟨(r ++ [c], lineFoo), ?_⟩
    cases c with
    | nil =>
      refine ⟨r, [[], lineFoo], [], rfl, ?_, ?_, ?_⟩
      · simp
      · simp [lineFoo]
      · intro l hl
        simp only [List.mem_cons, List.mem_singleton, List.not_mem_nil, or_false] at hl
        rcases hl with hl | hl
        · subst hl; rfl
        · subst hl; exact mapLine_lineFoo
    | cons x c =>
      refine ⟨r ++ [x :: c], [lineFoo], [], rfl, ?_, ?_, ?_⟩
      · simp
      · simp [lineFoo]
      · intro l hl
        simp only [List.mem_singleton] at hl
        subst hl
        exact mapLine_lineFoo
  | cons l ls ih =>
    intro hpos r c st h
    unfold noContinuationAhead at hpos
    by_cases hend : good.startWith l good.bytesEnd = true
    · rw [if_pos hend] at hpos
      have s1 : ∀ st0, good.preprocessStep st0 l = some st0 := fun st0 => by
        simp [good.preprocessStep, hend]
      simp only [good.preprocessLoop, s1, Option.some_bind] at h ⊢
      exact ih hpos r c st h
    · rw [if_neg hend] at hpos
      have hstep : ∃ X, ∀ (r0 : List Bytes) (c0 : Bytes),
          good.preprocessStep (r0, c0) l = some (r0 ++ [c0], X) := by
        by_cases hb : good.startWith l good.bytesBegin = true
        · simp only [good.preprocessLoop] at h
          cases hg : goSliceFrom (bytesTrim l) (good.bytesBegin.length + 1) with
          | none => simp [good.preprocessStep, hend, hb, hg] at h
          | some rest =>
            exact ⟨good.bytesDash ++ rest, fun r0 c0 => by
              simp [good.preprocessStep, hend, hb, hg]⟩
        · exact ⟨bytesTrim l, fun r0 c0 => by simp [good.preprocessStep, hend, hb, hpos]⟩
      obtain ⟨X, hX⟩ := hstep
      simp only [good.preprocessLoop, hX, Option.some_bind] at h ⊢
      have h1 := preprocessLoop_shift ls (r ++ [c]) [] X
      simp only [List.append_nil] at h1
      rw [h1] at h
      cases hl0 : good.preprocessLoop ls ([], X) with
      | none => rw [hl0] at h; cases h
      | some st0 =>
        obtain ⟨s, c2⟩ := st0
        rw [hl0] at h
        simp only [Option.map_some', Option.some.injEq] at h
        subst h
        have h2 := preprocessLoop_shift ls (r ++ [c] ++ [lineFoo]) [] X
        simp only [List.append_nil] at h2
        rw [h2, hl0]
        refine ⟨_, r ++ [c], [lineFoo], (if c2.length > 0 then s ++ [c2] else s), rfl,
          ?_, ?_, ?_⟩
        · by_cases hc2 : c2.length > 0 <;> simp [hc2]
        · by_cases hc2 : c2.length > 0 <;> simp [hc2]
        · intro l hl
          simp only [List.mem_singleton] at hl
          subst hl
          exact mapLine_lineFoo

/-- C11 as amended: for every input that `ParseAdexpMessage` decodes to a
Message (per-line results aggregated in logical-line order) and every position
among its physical lines that no continuation line follows (the first later
line that does not begin with `-END` begins with a dash, or there is none),
inserting the physical line `-FOO bar` at that position gives an input that
decodes to the same Message. -/
theorem C11_unknown_token_amended (inp : Bytes) (pre post : List Bytes) (m : good.Message)
    (hsplit : bytesSplit inp = pre ++ post)
    (hpos : noContinuationAhead post = true)
    (h : good.ParseAdexpMessage inp = some (m, none)) :
    good.ParseAdexpMessage (joinLines (pre ++ lineFoo :: post)) = some (m, none) := by
  have hnl : ∀ l ∈ pre ++ lineFoo :: post, chNewline ∉ l := by
    intro l hl
    rcases List.mem_append.1 hl with h1 | h1
    · exact bytesSplit_no_newline inp l (hsplit ▸ List.mem_append_left _ h1)
    · rcases List.mem_cons.1 h1 with h2 | h2
      · subst h2; decide
      · exact bytesSplit_no_newline inp l (hsplit ▸ List.mem_append_right _ h2)
  have hsp2 := bytesSplit_joinLines (pre ++ lineFoo :: post) (by simp) hnl
  have hlen2 := joinLines_ne_nil (pre ++ lineFoo :: post) lineFoo (by simp) (by decide)
  unfold good.ParseAdexpMessage good.ParseAdexpMessageSched at h ⊢
  unfold good.preprocess at h ⊢
  rw [if_neg hlen2, hsp2, preprocessLoop_append]
  by_cases hlen : inp.length = 0
  · rw [if_pos hlen] at h
    simp at h
  rw [if_neg hlen, hsplit, preprocessLoop_append] at h
  cases hpre : good.preprocessLoop pre ([], []) with
  | none => rw [hpre] at h; simp at h
  | some st1 =>
    obtain ⟨r, c⟩ := st1
    rw [hpre] at h
    simp only [Option.some_bind] at h ⊢
    cases hpost : good.preprocessLoop post (r, c) with
    | none => rw [hpost] at h; simp at h
    | some st =>
      rw [hpost] at h
      obtain ⟨st2, a, e, b, hnew, hfl, hfl2, he⟩ := preprocessLoop_insert post hpos r c st hpost
      have hloop : good.preprocessLoop (lineFoo :: post) (r, c) = some st2 := by
        simp only [good.preprocessLoop, preprocessStep_lineFoo, Option.some_bind]
        exact hnew
      rw [hloop]
      simp only [Option.map_some'] at h ⊢
      rw [hfl] at h
      rw [hfl2, processSched_insert a e b he]
      exact h

set_option maxRecDepth 100000 in
/-- C11 as amended, at the input of the physical lines `-TITLE IFPL`,
`-ADEP X` and the position between them: with `-FOO bar` inserted there the
input still decodes to the Message with Title `IFPL` and Adep `X`. -/
theorem C11_unknown_token_amended_witness :
    good.ParseAdexpMessage
        (joinLines ["-TITLE IFPL".toList, "-FOO bar".toList, "-ADEP X".toList])
      = some ({ good.zeroMessage with Title := "IFPL".toList, Adep := "X".toList }, none) :=
  C11_unknown_token_amended (joinLines ["-TITLE IFPL".toList, "-ADEP X".toList])
    ["-TITLE IFPL".toList] ["-ADEP X".toList]
    { good.zeroMessage with Title := "IFPL".toList, Adep := "X".toList }
    (by rfl) (by rfl) (by rfl)

set_option maxRecDepth 100000 in
/-- C11 fails between a field line and its continuation line: the input of
the physical lines `-TITLE IFPL`, `ABC` decodes to the Message with Title
`IFPL ABC`, and with `-FOO bar` inserted between the two lines it decodes to
the Message with Title `IFPL`. -/
theorem C11_counterexample :
    good.ParseAdexpMessage (joinLines ["-TITLE IFPL".toList, "ABC".toList])
      = some ({ good.zeroMessage with Title := "IFPL ABC".toList }, none) ∧
    good.ParseAdexpMessage
        (joinLines ["-TITLE IFPL".toList, "-FOO bar".toList, "ABC".toList])
      = some ({ good.zeroMessage with Title := "IFPL".toList }, none) ∧
    bytesSplit (joinLines ["-TITLE IFPL".toList, "ABC".toList])
      = ["-TITLE IFPL".toList] ++ ["ABC".toList] ∧
    good.factory "FOO".toList = none := by
  refine ⟨by rfl, by rfl, by rfl, by rfl⟩

/-! ### The errors `ParseAdexpMessage` can return -/

theorem preprocess_err_kind (bytes : Bytes) (lines : List Bytes) (err : good.GoError)
    (h : good.preprocess bytes = some (lines, some err)) : err = good.GoError.inputIsEmpty := by
  unfold good.preprocess at h
  split at h
  · simp only [Option.some.injEq, Prod.mk.injEq] at h
    exact h.2.symm
  · cases hl : good.preprocessLoop (bytesSplit bytes) ([], []) with
    | none => rw [hl] at h; cases h
    | some st =>
      rw [hl] at h
      simp only [Option.map_some', Option.some.injEq, Prod.mk.injEq] at h
      exact absurd h.2 (by simp)

theorem processSched_err_kind (sched : List good.Data → List good.Data)
    (hsched : good.IsSchedule sched) (lines : List Bytes) (m : good.Message)
    (err : good.GoError) (h : good.processSched sched lines = some (m, some err)) :
    err = good.GoError.flightLevelCannotBeParsed (-1) := by
  unfold good.processSched at h
  cases hs : good.mapLines lines with
  | none => rw [hs] at h; cases h
  | some sent =>
    rw [hs] at h
    exact (gather_err_kind (sched sent) good.zeroMessage m err
      (fun d hd => mapLines_registered lines sent hs d ((hsched sent).mem_iff.1 hd)) h).2

/-- C21: the "unexpected token type" branches of `process` are unreachable.
Every simpleToken `mapLine` produces carries one of the eleven tokens of the
simple-token switch and every complexToken carries ESTDATA, GEO or RTEPTS; so
the type switch of `process` never returns the "unexpected token type" error
on a value `mapLine` produced, and the only errors `ParseAdexpMessage`
returns, whatever the order in which the channel delivers, are the
empty-input error and the flight-level parse error. -/
theorem C21_unexpected_token_unreachable :
    (∀ (line : Bytes) (t : good.simpleToken),
      good.mapLine line = some (good.Data.simple t) → t.token ∈ simpleTokens) ∧
    (∀ (line : Bytes) (t : good.complexToken),
      good.mapLine line = some (good.Data.complex t) → t.token ∈ complexTokens) ∧
    (∀ (line : Bytes) (d : good.Data) (msg m : good.Message) (tok : Bytes),
      good.mapLine line = some d →
        good.enrich msg d ≠ some (m, some (good.GoError.unexpectedTokenType tok))) ∧
    (∀ (sched : List good.Data → List good.Data), good.IsSchedule sched →
      ∀ (bytes : Bytes) (m : good.Message) (err : good.GoError),
        good.ParseAdexpMessageSched sched bytes = some (m, some err) →
          err = good.GoError.inputIsEmpty
            ∨ err = good.GoError.flightLevelCannotBeParsed (-1)) := by
  refine ⟨?_, ?_, ?_, ?_⟩
  · intro line t h
    have hr := mapLine_registered line _ h
    simpa [registeredData] using hr
  · intro line t h
    have hr := mapLine_registered line _ h
    simpa [registeredData] using hr
  · intro line d msg m tok h he
    have hk := enrich_err_kind msg m d _ (mapLine_registered line d h) he
    cases hk
  · intro sched hsched bytes m err h
    unfold good.ParseAdexpMessageSched at h
    cases hp : good.preprocess bytes with
    | none => rw [hp] at h; cases h
    | some res =>
      obtain ⟨lines, perr⟩ := res
      rw [hp] at h
      cases perr with
      | some e =>
        simp only [Option.some.injEq, Prod.mk.injEq] at h
        left
        rw [← h.2]
        exact preprocess_err_kind bytes lines e hp
      | none =>
        simp only at h
        cases hq : good.processSched sched lines with
        | none => rw [hq] at h; cases h
        | some res2 =>
          obtain ⟨m2, qerr⟩ := res2
          rw [hq] at h
          cases qerr with
          | none => simp at h
          | some e =>
            simp only [Option.some.injEq, Prod.mk.injEq] at h
            right
            rw [← h.2]
            exact processSched_err_kind sched hsched lines m2 e hq

set_option maxRecDepth 100000 in
/-- C21 at the inputs that reach the two errors: the empty input returns the
empty-input error, and `-TITLE IFPL`, `-ESTDATA -FL XYZ` returns the
flight-level parse error, which is one of the two errors of C21; the line
`-EETFIR A` produces a simpleToken, whose token is in the simple-token
switch. -/
theorem C21_unexpected_token_unreachable_witness :
    good.ParseAdexpMessage [] = some (good.zeroMessage, some good.GoError.inputIsEmpty) ∧
    good.ParseAdexpMessage
        ("-TITLE IFPL".toList ++ chNewline :: "-ESTDATA -FL XYZ".toList)
      = some (good.zeroMessage, some (good.GoError.flightLevelCannotBeParsed (-1))) ∧
    (good.GoError.flightLevelCannotBeParsed (-1) = good.GoError.inputIsEmpty
      ∨ good.GoError.flightLevelCannotBeParsed (-1)
          = good.GoError.flightLevelCannotBeParsed (-1)) ∧
    good.tokenEetfir ∈ simpleTokens :=
  ⟨by rfl, by rfl,
   C21_unexpected_token_unreachable.2.2.2 (fun sent => sent) (fun sent => List.Perm.refl sent)
     ("-TITLE IFPL".toList ++ chNewline :: "-ESTDATA -FL XYZ".toList) good.zeroMessage
     (good.GoError.flightLevelCannotBeParsed (-1)) (by rfl),
   C21_unexpected_token_unreachable.1 "-EETFIR A".toList ⟨good.tokenEetfir, "A".toList⟩
     (by rfl)⟩

/-! ### Runs in which a goroutine panics -/

theorem gatherRun_map_some (l : List good.Data) :
    ∀ msg, good.gatherRun (l.map some) msg = good.gather l msg := by
  induction l with
  | nil => intro msg; rfl
  | cons d l ih =>
    intro msg
    simp only [List.map_cons, good.gatherRun, good.gather]
    cases good.enrich msg d with
    | none => rfl
    | some res =>
      obtain ⟨m, err⟩ := res
      cases err with
      | some e => rfl
      | none => exact ih m

theorem map_mapLine_of_mapLines (inp : List Bytes) :
    ∀ sent, good.mapLines inp = some sent → inp.map good.mapLine = sent.map some := by
  induction inp with
  | nil =>
    intro sent h
    simp only [good.mapLines, Option.some.injEq] at h
    subst h
    rfl
  | cons line inp ih =>
    intro sent h
    unfold good.mapLines at h
    split at h
    · cases h
    · rename_i d hd
      simp only [Option.map_eq_some'] at h
      obtain ⟨ds, hds, hsent⟩ := h
      subst hsent
      simp only [List.map_cons, hd, ih ds hds]

/-- When no goroutine panics, a run of `processRun` is the run of
`processSched` under the same delivery order. -/
theorem processRun_of_complete (sched : List good.Data → List good.Data) (inp : List Bytes)
    (sent : List good.Data) (h : good.mapLines inp = some sent) :
    good.processRun (fun outcomes => (sched (outcomes.filterMap id)).map some) inp
      = good.processSched sched inp := by
  unfold good.processRun good.processSched
  rw [h, map_mapLine_of_mapLines inp sent h]
  simp only [List.filterMap_map, Function.comp_def, id, List.filterMap_some]
  exact gatherRun_map_some (sched sent) good.zeroMessage

set_option maxRecDepth 100000 in
/-- C4 fails on the input `abc`, `-ESTDATA -FL XYZ`: `preprocess` returns the
logical lines ` abc` and `-ESTDATA -FL XYZ`, the second an ESTDATA field with
the flight level `XYZ`; the goroutine of ` abc` panics in `parseLine`
(`in[1:0]`).  In the run in which that goroutine takes effect first the
program panics and `ParseAdexpMessage` returns nothing; in the run in which
the ESTDATA value is received first it returns the flight-level error and
the zero Message. -/
theorem C4_panic_preempts_flight_level_error :
    good.preprocess ("abc".toList ++ chNewline :: "-ESTDATA -FL XYZ".toList)
      = some ([" abc".toList, "-ESTDATA -FL XYZ".toList], none) ∧
    good.mapLine " abc".toList = none ∧
    good.mapLine "-ESTDATA -FL XYZ".toList
      = some (good.Data.complex ⟨good.tokenEstdata, [[("FL".toList, "XYZ".toList)]]⟩) ∧
    good.ParseAdexpMessageRun (fun outcomes => outcomes)
      ("abc".toList ++ chNewline :: "-ESTDATA -FL XYZ".toList) = none ∧
    good.ParseAdexpMessageRun List.reverse
      ("abc".toList ++ chNewline :: "-ESTDATA -FL XYZ".toList)
      = some (good.zeroMessage, some (good.GoError.flightLevelCannotBeParsed (-1))) := by
  refine ⟨by rfl, by rfl, by rfl, by rfl, by rfl⟩
